import Mathlib

/-!
# Liveness analysis (`src/Liveness/Liveness.cpp`)

A shallow embedding of the `Live` pass: the index map built by `runOnFunction`,
the framework hooks `setBoundaryCondition`, `meetOp`, `initializeFlowValue`
and `transferFn`, and the backward worklist iteration that drives them. The
block-level sets `GEN`, `DEF`, `USE` and the transfer function with the
tightened kill rule of the specification are defined next to them, to be
compared with what the code computes.

Conventions of the embedding.

* An `llvm::Value*` is compared by address; here a value is a tagged number,
  the tag recording what `isa<Argument>` / `isa<Instruction>` answer.
* `ValueMap<K, V>` is a finite partial map, here a function into `Option`.
  `operator[]` used as an rvalue on a missing key inserts a value-initialised
  entry (`0` for `int`, the null pointer for `BitVector*`).
* A `BitVector*` stored in a map owns its vector (line 225 allocates one per
  instruction, lines 134 and 177 one per call), so the maps hold the vectors
  by value. Dereferencing a null pointer and indexing a bit vector out of
  range are reported as errors.
* Indices and sizes are `int` in the source; they only ever count values of one
  function upwards from `0`, so they are natural numbers here.
-/

namespace Liveness

/-! ## Host IR -/

/-- An `llvm::Value`, identified by a number within its class. -/
inductive Value where
  | argument (n : Nat)
  | instruction (n : Nat)
  | other (n : Nat)
deriving DecidableEq, Repr

/-- The test `isa<Instruction>(v) || isa<Argument>(v)` of lines 165 and 173. -/
def Value.isInstrOrArg : Value → Bool
  | .argument _ => true
  | .instruction _ => true
  | .other _ => false

/-- What `isa<PHINode>` and `isa<TerminatorInst>` answer for an instruction;
the two LLVM classes are disjoint. -/
inductive InstKind where
  | phi
  | terminator
  | ordinary
deriving DecidableEq, Repr

/-- An `llvm::Instruction`. As a value it is `Value.instruction id`.
`operands` is the range `op_begin() .. op_end()` walked for a non-phi
instruction; `incoming` lists `(getIncomingValue k, getIncomingBlock k)` of a
phi-node. `hasResult` says whether the instruction's type is non-void; the
source never asks. -/
structure Instruction where
  id : Nat
  kind : InstKind
  operands : List Value
  incoming : List (Value × Nat)
  hasResult : Bool
deriving DecidableEq, Repr

/-- The instruction seen as a value (an `Instruction*` converted to `Value*`). -/
def Instruction.toValue (i : Instruction) : Value := Value.instruction i.id

/-- An `llvm::BasicBlock`: its identity, its instructions in program order and
its CFG successors. -/
structure BasicBlock where
  id : Nat
  insts : List Instruction
  succs : List Nat
deriving DecidableEq, Repr

/-- An `llvm::Function`: arguments in declaration order, blocks in layout order. -/
structure Function where
  args : List Nat
  blocks : List BasicBlock
deriving DecidableEq, Repr

/-- The range `inst_begin(F) .. inst_end(F)`: every instruction of every block,
in program order. -/
def Function.instructions (F : Function) : List Instruction :=
  F.blocks.flatMap BasicBlock.insts

/-! ## Bit vectors and maps -/

/-- Failures of the analysis. -/
inductive Err where
  | IndexError
  | DomainMismatch
  | NullDeref
  | EmptyBlock
deriving DecidableEq, Repr

/-- Flow values: `llvm::BitVector`, one boolean per Domain index. -/
abbrev BitVector := List Bool

/-- Modelled from the spec: `llvm/ADT/BitVector.h` is not among the sources.
The constructor `BitVector(n, t)`: length `n`, every bit `t`. -/
def BitVector.create (n : Nat) (t : Bool) : BitVector := List.replicate n t

/-- Modelled from the spec: `llvm/ADT/BitVector.h` is not among the sources.
The writes `bv[i] = t` and `bv.set(i)`: an access outside `[0, length)` is an
`IndexError`. -/
def BitVector.assign (bv : BitVector) (i : Nat) (t : Bool) : Except Err BitVector :=
  if i < bv.length then .ok (bv.set i t) else .error .IndexError

/-- Modelled from the spec: `llvm/ADT/BitVector.h` is not among the sources.
The read `bv[i]`: an access outside `[0, length)` is an `IndexError`. -/
def BitVector.get (bv : BitVector) (i : Nat) : Except Err Bool :=
  match bv[i]? with
  | some t => .ok t
  | none => .error .IndexError

/-- Modelled from the spec: `llvm/ADT/BitVector.h` is not among the sources.
The in-place union `lhs |= rhs`: the lengths must agree, `DomainMismatch`
otherwise. -/
def BitVector.unionInPlace (lhs rhs : BitVector) : Except Err BitVector :=
  if lhs.length = rhs.length then .ok (List.zipWith (fun a b => a || b) lhs rhs)
  else .error .DomainMismatch

/-- The set of indices whose bit is set; bit `i` is a member when `bv[i]` holds. -/
def BitVector.test (bv : BitVector) (i : Nat) : Bool := bv.getD i false

/-- An `llvm::ValueMap` (or `DenseMap`) from `K` to `V`. -/
abbrev ValueMap (K V : Type) := K → Option V

/-- The empty map. -/
def ValueMap.empty {K V : Type} : ValueMap K V := fun _ => none

/-- The write `m[k] = v`: insert or overwrite. -/
def ValueMap.assign {K V : Type} [DecidableEq K] (m : ValueMap K V) (k : K) (v : V) :
    ValueMap K V :=
  fun x => if x = k then some v else m x

/-- The read `m[k]` of an `int` entry: a missing key is inserted with `0`. -/
def ValueMap.subscript {K : Type} [DecidableEq K] (m : ValueMap K Nat) (k : K) :
    Nat × ValueMap K Nat :=
  match m k with
  | some v => (v, m)
  | none => (0, ValueMap.assign m k 0)

/-! ## The pass -/

/-- The fields of `Live` (lines 72-83; `numArgs` and `numInstr` are never
used) and the members it inherits from `DataFlow<BitVector>` and uses: `in`,
`out`, `neighbourSpecificValues`, all keyed by block. -/
structure Live where
  domain : List Value
  bvIndexToInstrArg : List Value
  valueToBitVectorIndex : ValueMap Value Nat
  instrInSet : ValueMap Nat BitVector
  domainSize : Nat
  in_ : ValueMap Nat BitVector
  out : ValueMap Nat BitVector
  neighbourSpecificValues : ValueMap Nat BitVector

/-- The pass object as the constructor leaves it (lines 66-70), with
`domainSize` given since the constructor does not set it. -/
def Live.init (domainSize : Nat) : Live :=
  { domain := [], bvIndexToInstrArg := [], valueToBitVectorIndex := ValueMap.empty,
    instrInSet := ValueMap.empty, domainSize := domainSize, in_ := ValueMap.empty,
    out := ValueMap.empty, neighbourSpecificValues := ValueMap.empty }

/-- Lines 123-125: `*blockBoundary = BitVector(domainSize, false)`. -/
def setBoundaryCondition (s : Live) (_blockBoundary : BitVector) : BitVector :=
  BitVector.create s.domainSize false

/-- Lines 128-130: `*lhs |= *rhs`; the result is the new content of `lhs`. -/
def meetOp (lhs rhs : BitVector) : Except Err BitVector :=
  BitVector.unionInPlace lhs rhs

/-- The two set types of the framework (the argument `setType`). -/
inductive SetType where
  | IN
  | OUT
deriving DecidableEq, Repr

/-- Lines 133-135: `new BitVector(domainSize, false)`. -/
def initializeFlowValue (s : Live) (_b : BasicBlock) (_setType : SetType) : BitVector :=
  BitVector.create s.domainSize false

/-- Lines 193-195: every instruction that is not a terminator. -/
def isDefinition (ii : Instruction) : Bool :=
  !(ii.kind == InstKind.terminator)

/-- Lines 157-159: the kill of the instruction's own bit. -/
def killDefinition (tempInst : Instruction) (immIn : BitVector) (idx : ValueMap Value Nat) :
    Except Err (BitVector × ValueMap Value Nat) :=
  if isDefinition tempInst then
    match BitVector.assign immIn (ValueMap.subscript idx tempInst.toValue).1 false with
    | .ok immIn1 => .ok (immIn1, (ValueMap.subscript idx tempInst.toValue).2)
    | .error e => .error e
  else .ok (immIn, idx)

/-- Lines 164-168: the loop over the operands of a non-phi instruction. -/
def addOperands : List Value → BitVector → ValueMap Value Nat →
    Except Err (BitVector × ValueMap Value Nat)
  | [], immIn, idx => .ok (immIn, idx)
  | v :: rest, immIn, idx =>
    if v.isInstrOrArg then
      match BitVector.assign immIn (ValueMap.subscript idx v).1 true with
      | .ok immIn1 => addOperands rest immIn1 (ValueMap.subscript idx v).2
      | .error e => .error e
    else addOperands rest immIn idx

/-- Lines 171-180: the loop over the incoming pairs of a phi-node. -/
def addIncoming (domainSize : Nat) : List (Value × Nat) → ValueMap Nat BitVector →
    ValueMap Value Nat → Except Err (ValueMap Nat BitVector × ValueMap Value Nat)
  | [], nsv, idx => .ok (nsv, idx)
  | (val, incomingBlock) :: rest, nsv, idx =>
    if val.isInstrOrArg then
      let entry : BitVector :=
        match nsv incomingBlock with
        | some bv => bv
        | none => BitVector.create domainSize false
      match BitVector.assign entry (ValueMap.subscript idx val).1 true with
      | .ok entry1 =>
        addIncoming domainSize rest (ValueMap.assign nsv incomingBlock entry1)
          (ValueMap.subscript idx val).2
      | .error e => .error e
    else addIncoming domainSize rest nsv idx

/-- Lines 151-183: one turn of the loop of `transferFn`, on instruction
`tempInst` with `outNowIn` the vector inherited from the instruction after it.
The result is the new content of `*immIn`, which is the per-instruction set
of `tempInst`, and the pass object. -/
def transferInst (s : Live) (outNowIn : BitVector) (tempInst : Instruction) :
    Except Err (BitVector × Live) :=
  match s.instrInSet tempInst.id with
  | none => .error .NullDeref
  | some _ =>
    match killDefinition tempInst outNowIn s.valueToBitVectorIndex with
    | .error e => .error e
    | .ok (immIn1, idx1) =>
      if tempInst.kind ≠ InstKind.phi then
        match addOperands tempInst.operands immIn1 idx1 with
        | .error e => .error e
        | .ok (immIn2, idx2) =>
          .ok (immIn2, { s with valueToBitVectorIndex := idx2,
                                instrInSet := ValueMap.assign s.instrInSet tempInst.id immIn2 })
      else
        match addIncoming s.domainSize tempInst.incoming s.neighbourSpecificValues idx1 with
        | .error e => .error e
        | .ok (nsv, idx2) =>
          .ok (immIn1, { s with valueToBitVectorIndex := idx2,
                                instrInSet := ValueMap.assign s.instrInSet tempInst.id immIn1,
                                neighbourSpecificValues := nsv })

/-- Lines 148-188: the loop of `transferFn` over the instructions still to be
processed, last one first (`revInsts` is in reverse program order). -/
def transferLoop : List Instruction → Live → BitVector → Except Err (BitVector × Live)
  | [], s, outNowIn => .ok (outNowIn, s)
  | tempInst :: rest, s, outNowIn =>
    match transferInst s outNowIn tempInst with
    | .error e => .error e
    | .ok (immIn, s1) => transferLoop rest s1 immIn

/-- Lines 141-191: `transferFn`. It reads `out[bb]`, walks the block backwards
and returns the content of the vector `immIn` points to at the end, together
with the pass object. The walk starts at `--bb.end()`, which an empty block
does not have. -/
def transferFn (s : Live) (bb : BasicBlock) : Except Err (BitVector × Live) :=
  match s.out bb.id with
  | none => .error .NullDeref
  | some outBB =>
    match bb.insts with
    | [] => .error .EmptyBlock
    | _ :: _ => transferLoop bb.insts.reverse s outBB

/-- Lines 208-211 and 215-218: one turn of either indexing loop. -/
def pushValue (s : Live) (v : Value) (index : Nat) : Live :=
  { s with domain := s.domain ++ [v],
           bvIndexToInstrArg := s.bvIndexToInstrArg ++ [v],
           valueToBitVectorIndex := ValueMap.assign s.valueToBitVectorIndex v index }

/-- Lines 207-212 and 214-219: an indexing loop over the values `vs`, starting
with the counter at `index`; returns the pass object and the counter. -/
def indexValues : List Value → Live → Nat → Live × Nat
  | [], s, index => (s, index)
  | v :: rest, s, index => indexValues rest (pushValue s v index) (index + 1)

/-- Lines 201-221 of `runOnFunction`: reset the tables, index the arguments,
then every instruction, and set `domainSize`. -/
def buildIndex (s : Live) (F : Function) : Live :=
  let s0 : Live := { s with domain := [], bvIndexToInstrArg := [],
                            valueToBitVectorIndex := ValueMap.empty,
                            instrInSet := ValueMap.empty }
  let r1 := indexValues (F.args.map Value.argument) s0 0
  let r2 := indexValues (F.instructions.map Instruction.toValue) r1.1 r1.2
  { r2.1 with domainSize := r2.1.domain.length }

/-- Lines 224-226: a fresh all-false vector for every instruction. -/
def initInstrInSet : List Instruction → Live → Live
  | [], s => s
  | i :: rest, s =>
    initInstrInSet rest
      { s with instrInSet := ValueMap.assign s.instrInSet i.id (BitVector.create s.domainSize false) }

/-- Lines 201-226 of `runOnFunction`: everything before the call of the
framework's `DataFlow<BitVector>::runOnFunction`. -/
def runOnFunctionSetup (s : Live) (F : Function) : Live :=
  initInstrInSet F.instructions (buildIndex s F)

/-! ## The dataflow engine -/

/-- Modelled from the spec: `Dataflow.h` (the engine `DataFlow<BitVector>`) is
not among the sources. The state of `run`: the pass object with the `IN` and
`OUT` tables, the worklist of block identities, and two counters that record
the history: how often `IN[b]` was assigned by step 3 and how often `b` was
removed from the worklist. -/
structure Engine where
  live : Live
  worklist : List Nat
  inUpdates : Nat → Nat
  visits : Nat → Nat

/-- Modelled from the spec: `Dataflow.h` is not among the sources. The CFG
predecessors of block `b`: the blocks that list `b` among their successors. -/
def Function.predecessors (F : Function) (b : Nat) : List Nat :=
  (F.blocks.filter (fun p => decide (b ∈ p.succs))).map BasicBlock.id

/-- Modelled from the spec: `Dataflow.h` is not among the sources. Step 3,
"enqueue every CFG predecessor that is not already enqueued". -/
def enqueue : List Nat → List Nat → List Nat
  | worklist, [] => worklist
  | worklist, p :: rest => enqueue (if p ∈ worklist then worklist else worklist ++ [p]) rest

/-- Modelled from the spec: `Dataflow.h` is not among the sources. Step 1 for
one block: `IN` and `OUT` are seeded by `initializeFlowValue`, and `OUT` of a
block with no successors is then set by `setBoundaryCondition` (the hook
overwrites a vector that exists already, see the comment at line 122). `IN` of
such a block is seeded too, since step 3 reads it. -/
def engineInitBlock (s : Live) (b : BasicBlock) : Live :=
  let s1 : Live :=
    { s with in_ := ValueMap.assign s.in_ b.id (initializeFlowValue s b SetType.IN),
             out := ValueMap.assign s.out b.id (initializeFlowValue s b SetType.OUT) }
  match b.succs with
  | [] =>
    { s1 with out := ValueMap.assign s1.out b.id
                (setBoundaryCondition s1 (initializeFlowValue s b SetType.OUT)) }
  | _ :: _ => s1

/-- Modelled from the spec: `Dataflow.h` is not among the sources. Steps 1 and
2: fresh tables for this function (nothing persists from the previous one),
every block initialised, the worklist seeded with all blocks. -/
def engineInit (F : Function) (s : Live) : Engine :=
  { live := F.blocks.foldl engineInitBlock
      { s with in_ := ValueMap.empty, out := ValueMap.empty,
               neighbourSpecificValues := ValueMap.empty },
    worklist := F.blocks.map BasicBlock.id,
    inUpdates := fun _ => 0,
    visits := fun _ => 0 }

/-- Modelled from the spec: `Dataflow.h` is not among the sources. Step 3,
the meet of `acc` with `IN[t]` for every successor `t`, by `meetOp`. -/
def meetSuccessors (s : Live) : List Nat → BitVector → Except Err BitVector
  | [], acc => .ok acc
  | t :: rest, acc =>
    match s.in_ t with
    | none => .error .NullDeref
    | some inT =>
      match meetOp acc inT with
      | .ok acc1 => meetSuccessors s rest acc1
      | .error e => .error e

/-- Modelled from the spec: `Dataflow.h` is not among the sources. Step 3,
"recompute `OUT[b]` as the meet over `IN[s]` for every CFG successor `s` of `b`
(if `b` has successors; otherwise `OUT[b]` is left at its boundary value)".
The meet starts from a fresh flow value. -/
def recomputeOut (s : Live) (b : BasicBlock) : Except Err Live :=
  match b.succs with
  | [] => .ok s
  | t :: rest =>
    match meetSuccessors s (t :: rest) (initializeFlowValue s b SetType.OUT) with
    | .ok o => .ok { s with out := ValueMap.assign s.out b.id o }
    | .error e => .error e

/-- One more on the counter of `b`. -/
def bump (f : Nat → Nat) (b : Nat) : Nat → Nat := fun x => if x = b then f x + 1 else f x

/-- Modelled from the spec: `Dataflow.h` is not among the sources. One turn of
step 3. The spec leaves open which block is removed; `choice` picks the
position in the worklist. With an empty worklist nothing happens. -/
def engineStep (F : Function) (e : Engine) (choice : Nat) : Except Err Engine :=
  match e.worklist[choice % e.worklist.length]? with
  | none => .ok e
  | some bId =>
    match F.blocks.find? (fun b => b.id == bId) with
    | none => .error .NullDeref
    | some b =>
      match recomputeOut e.live b with
      | .error err => .error err
      | .ok s1 =>
        match transferFn s1 b with
        | .error err => .error err
        | .ok (newIn, s2) =>
          match s2.in_ b.id with
          | none => .error .NullDeref
          | some oldIn =>
            if newIn ≠ oldIn then
              .ok { live := { s2 with in_ := ValueMap.assign s2.in_ b.id newIn },
                    worklist := enqueue (e.worklist.eraseIdx (choice % e.worklist.length))
                      (F.predecessors b.id),
                    inUpdates := bump e.inUpdates b.id,
                    visits := bump e.visits b.id }
            else
              .ok { live := s2,
                    worklist := e.worklist.eraseIdx (choice % e.worklist.length),
                    inUpdates := e.inUpdates,
                    visits := bump e.visits b.id }

/-- Modelled from the spec: `Dataflow.h` is not among the sources. Step 3,
"repeat until the worklist is empty", following the choices given; the run
stops early when the choices are used up. -/
def engineRun (F : Function) : List Nat → Engine → Except Err Engine
  | [], e => .ok e
  | c :: rest, e =>
    match e.worklist with
    | [] => .ok e
    | _ :: _ =>
      match engineStep F e c with
      | .ok e1 => engineRun F rest e1
      | .error err => .error err

/-- Lines 200-229: `runOnFunction` up to the return of the framework's
`runOnFunction`, the engine started on the tables just built. -/
def runOnFunction (s : Live) (F : Function) (choices : List Nat) : Except Err Engine :=
  engineRun F choices (engineInit F (runOnFunctionSetup s F))

/-- A number of turns after which the worklist of any run on `F` is empty. -/
def iterationBound (F : Function) : Nat :=
  F.blocks.length * (F.args.length + F.instructions.length) * (F.blocks.length + 1)
    + F.blocks.length

/-! ## Sets of values, for stating properties -/

/-- The bit position `(*valueToBitVectorIndex)[v]` evaluates to. -/
def bitIndex (idx : ValueMap Value Nat) (v : Value) : Nat := (ValueMap.subscript idx v).1

/-- The set `S` with the own bit of `i` cleared when `i` is not a terminator;
`ix` gives the bit position of a value. -/
def clearOwnBit (ix : Value → Nat) (i : Instruction) (S : BitVector) : BitVector :=
  if i.kind = InstKind.terminator then S else S.set (ix i.toValue) false

/-- The set `S` with the bit of every value of `ops` that is an instruction or
an argument set. -/
def setOperandBits (ix : Value → Nat) (ops : List Value) (S : BitVector) : BitVector :=
  ops.foldl (fun acc v => if v.isInstrOrArg then acc.set (ix v) true else acc) S

/-- The live-in set immediately before `i`, given the set `S` that follows
it: the own bit cleared when `i` is not a terminator, then the operand bits
set when `i` is not a phi-node. -/
def liveBefore (ix : Value → Nat) (i : Instruction) (S : BitVector) : BitVector :=
  if i.kind = InstKind.phi then clearOwnBit ix i S
  else setOperandBits ix i.operands (clearOwnBit ix i S)

/-- The backward walk over instructions given last first, as sets. -/
def liveWalk (ix : Value → Nat) (revInsts : List Instruction) (S : BitVector) : BitVector :=
  revInsts.foldl (fun acc i => liveBefore ix i acc) S

/-- The flow value `transferFn` computes for block `b` from `OUT[b] = O`, as a
set: the backward walk over the instructions of `b`. -/
def blockIn (ix : Value → Nat) (b : BasicBlock) (O : BitVector) : BitVector :=
  liveWalk ix b.insts.reverse O

/-- Inclusion of flow values over the same Domain. -/
def BitVector.Subset (A B : BitVector) : Prop :=
  A.length = B.length ∧ ∀ k, BitVector.test A k = true → BitVector.test B k = true

/-- The values of a function: its arguments and its instructions. -/
def Function.values (F : Function) : List Value :=
  F.args.map Value.argument ++ F.instructions.map Instruction.toValue

/-- Well-formed input of the pass: arguments, instructions and blocks are
distinct objects, every block has an instruction, every successor is a block
of the function, and the operands of its instructions and the incoming values
of its phi-nodes that are instructions or arguments belong to the function. -/
structure Function.WellFormed (F : Function) : Prop where
  args_nodup : F.args.Nodup
  insts_nodup : (F.instructions.map Instruction.id).Nodup
  blocks_nodup : (F.blocks.map BasicBlock.id).Nodup
  nonempty : ∀ b ∈ F.blocks, b.insts ≠ []
  succs_mem : ∀ b ∈ F.blocks, ∀ t ∈ b.succs, t ∈ F.blocks.map BasicBlock.id
  operands_mem : ∀ i ∈ F.instructions, i.kind ≠ InstKind.phi →
    ∀ v ∈ i.operands, v.isInstrOrArg = true → v ∈ F.values
  incoming_mem : ∀ i ∈ F.instructions, i.kind = InstKind.phi →
    ∀ q ∈ i.incoming, q.1.isInstrOrArg = true → q.1 ∈ F.values

/-- The tables of the pass fit function `F`: every instruction has a
per-instruction vector, every bit position `transferFn` computes lies below
`domainSize`, and every overlay entry has length `domainSize`. -/
structure Live.Ready (s : Live) (F : Function) : Prop where
  entries : ∀ i ∈ F.instructions, ∃ X, s.instrInSet i.id = some X
  self_lt : ∀ i ∈ F.instructions, bitIndex s.valueToBitVectorIndex i.toValue < s.domainSize
  operands_lt : ∀ i ∈ F.instructions, i.kind ≠ InstKind.phi →
    ∀ v ∈ i.operands, v.isInstrOrArg = true →
      bitIndex s.valueToBitVectorIndex v < s.domainSize
  incoming_lt : ∀ i ∈ F.instructions, i.kind = InstKind.phi →
    ∀ q ∈ i.incoming, q.1.isInstrOrArg = true →
      bitIndex s.valueToBitVectorIndex q.1 < s.domainSize
  overlay_len : ∀ blk e, s.neighbourSpecificValues blk = some e → e.length = s.domainSize

/-- The invariant of the worklist iteration on `F`, with `ix` the bit position
of each value and `D` the Domain size. -/
structure EngineInv (F : Function) (ix : Value → Nat) (D : Nat) (e : Engine) : Prop where
  ready : e.live.Ready F
  index : bitIndex e.live.valueToBitVectorIndex = ix
  size : e.live.domainSize = D
  in_len : ∀ b ∈ F.blocks, ∃ A, e.live.in_ b.id = some A ∧ A.length = D
  out_len : ∀ b ∈ F.blocks, ∃ O, e.live.out b.id = some O ∧ O.length = D
  wl_nodup : e.worklist.Nodup
  wl_mem : ∀ x ∈ e.worklist, x ∈ F.blocks.map BasicBlock.id
  out_boundary : ∀ b ∈ F.blocks, b.succs = [] →
    e.live.out b.id = some (BitVector.create D false)
  out_le : ∀ b ∈ F.blocks, ∀ O, e.live.out b.id = some O →
    ∀ k, BitVector.test O k = true →
      ∃ t ∈ b.succs, ∃ A, e.live.in_ t = some A ∧ BitVector.test A k = true
  in_le : ∀ b ∈ F.blocks, ∀ A O, e.live.in_ b.id = some A → e.live.out b.id = some O →
    ∀ k, BitVector.test A k = true → BitVector.test (blockIn ix b O) k = true
  settled : ∀ b ∈ F.blocks, b.id ∉ e.worklist →
    ∀ A O, e.live.in_ b.id = some A → e.live.out b.id = some O →
      A = blockIn ix b O ∧
      ∀ k t T, t ∈ b.succs → e.live.in_ t = some T → BitVector.test T k = true →
        BitVector.test O k = true
  updates_le : ∀ b ∈ F.blocks, ∀ A, e.live.in_ b.id = some A →
    e.inUpdates b.id ≤ A.count true

/-- The measure that decreases with every turn of step 3: the bits still
clear in the `IN` sets, weighted, plus the length of the worklist. -/
def engineMeasure (F : Function) (e : Engine) : Nat :=
  (F.blocks.map (fun b => ((e.live.in_ b.id).getD []).count false)).sum
    * (F.blocks.length + 1) + e.worklist.length

/-! ## The block-level sets -/

/-- The set `GEN[n]` of the file header (lines 17-18), as bit positions: the
positions the walk sets for an operand and no earlier instruction of the
block clears. -/
def blockGEN (ix : Value → Nat) : List Instruction → List Nat
  | [] => []
  | i :: rest =>
    (if i.kind = InstKind.phi then [] else (i.operands.filter Value.isInstrOrArg).map ix) ++
      (blockGEN ix rest).filter
        (fun k => !(decide (i.kind ≠ InstKind.terminator) && decide (ix i.toValue = k)))

/-- The set `DEF[n]` (`KILL[n]` of the file header): the indices of the
non-terminator instructions of the block. -/
def blockDEF (ix : Value → Nat) (insts : List Instruction) : List Nat :=
  (insts.filter (fun i => decide (i.kind ≠ InstKind.terminator))).map (fun i => ix i.toValue)

/-- The upward-exposed uses of a run of instructions that follows the
instructions `before`: the values, instructions or arguments, that are an
operand of a non-phi instruction and are not a non-terminator instruction met
strictly before it. -/
def upwardExposed (before : List Instruction) : List Instruction → List Value
  | [] => []
  | i :: rest =>
    (if i.kind = InstKind.phi then []
     else i.operands.filter (fun v => v.isInstrOrArg &&
        !(before.any (fun j => decide (j.kind ≠ InstKind.terminator) && decide (j.toValue = v)))))
      ++ upwardExposed (before ++ [i]) rest

/-- The set `USE[n]`: the indices of the upward-exposed uses of the block. -/
def blockUSE (ix : Value → Nat) (insts : List Instruction) : List Nat :=
  (upwardExposed [] insts).map ix

/-- The closed form `USE[n] U (OUT[n] - DEF[n])` of line 139, over the Domain
of `O`. -/
def closedForm (ix : Value → Nat) (b : BasicBlock) (O : BitVector) : BitVector :=
  (List.range O.length).map (fun k =>
    decide (k ∈ blockUSE ix b.insts) || (BitVector.test O k && !decide (k ∈ blockDEF ix b.insts)))

/-- Every value whose bit position `transferFn` looks up in block `bb` has an
entry in the index map, as `runOnFunction` leaves it. -/
structure Live.Indexed (s : Live) (bb : BasicBlock) : Prop where
  self : ∀ i ∈ bb.insts, i.kind ≠ InstKind.terminator →
    (s.valueToBitVectorIndex i.toValue).isSome = true
  operands : ∀ i ∈ bb.insts, i.kind ≠ InstKind.phi → ∀ v ∈ i.operands,
    v.isInstrOrArg = true → (s.valueToBitVectorIndex v).isSome = true
  incoming : ∀ i ∈ bb.insts, i.kind = InstKind.phi → ∀ q ∈ i.incoming,
    q.1.isInstrOrArg = true → (s.valueToBitVectorIndex q.1).isSome = true

/-! ## The transfer function with the tightened kill rule -/

/-- The definition test of spec 4.4 step b: the instruction produces a result
and is not a terminator. -/
def isDefinitionSpec (ii : Instruction) : Bool :=
  ii.hasResult && !(ii.kind == InstKind.terminator)

/-- The kill step of spec 4.4 step b: `killDefinition` with the test
`isDefinitionSpec`. -/
def killDefinitionSpec (tempInst : Instruction) (immIn : BitVector) (idx : ValueMap Value Nat) :
    Except Err (BitVector × ValueMap Value Nat) :=
  if isDefinitionSpec tempInst then
    match BitVector.assign immIn (ValueMap.subscript idx tempInst.toValue).1 false with
    | .ok immIn1 => .ok (immIn1, (ValueMap.subscript idx tempInst.toValue).2)
    | .error e => .error e
  else .ok (immIn, idx)

/-- The turn of the loop with the kill step of spec 4.4 step b; everything
else is as in `transferInst`. -/
def transferInstSpec (s : Live) (outNowIn : BitVector) (tempInst : Instruction) :
    Except Err (BitVector × Live) :=
  match s.instrInSet tempInst.id with
  | none => .error .NullDeref
  | some _ =>
    match killDefinitionSpec tempInst outNowIn s.valueToBitVectorIndex with
    | .error e => .error e
    | .ok (immIn1, idx1) =>
      if tempInst.kind ≠ InstKind.phi then
        match addOperands tempInst.operands immIn1 idx1 with
        | .error e => .error e
        | .ok (immIn2, idx2) =>
          .ok (immIn2, { s with valueToBitVectorIndex := idx2,
                                instrInSet := ValueMap.assign s.instrInSet tempInst.id immIn2 })
      else
        match addIncoming s.domainSize tempInst.incoming s.neighbourSpecificValues idx1 with
        | .error e => .error e
        | .ok (nsv, idx2) =>
          .ok (immIn1, { s with valueToBitVectorIndex := idx2,
                                instrInSet := ValueMap.assign s.instrInSet tempInst.id immIn1,
                                neighbourSpecificValues := nsv })

/-- The loop of `transferFn` with the kill step of spec 4.4 step b. -/
def transferLoopSpec : List Instruction → Live → BitVector → Except Err (BitVector × Live)
  | [], s, outNowIn => .ok (outNowIn, s)
  | tempInst :: rest, s, outNowIn =>
    match transferInstSpec s outNowIn tempInst with
    | .error e => .error e
    | .ok (immIn, s1) => transferLoopSpec rest s1 immIn

/-- The transfer function with the kill step of spec 4.4 step b. -/
def transferFnSpec (s : Live) (bb : BasicBlock) : Except Err (BitVector × Live) :=
  match s.out bb.id with
  | none => .error .NullDeref
  | some outBB =>
    match bb.insts with
    | [] => .error .EmptyBlock
    | _ :: _ => transferLoopSpec bb.insts.reverse s outBB

/-! ## Example programs -/

/-- The instruction `t1 = add a, b` (instruction 0; `a`, `b` are arguments 0, 1). -/
def addInst : Instruction :=
  { id := 0, kind := InstKind.ordinary,
    operands := [Value.argument 0, Value.argument 1], incoming := [], hasResult := true }

/-- The instruction `ret t1` (instruction 1). -/
def retInst : Instruction :=
  { id := 1, kind := InstKind.terminator,
    operands := [Value.instruction 0], incoming := [], hasResult := false }

/-- The block `t1 = add a, b; ret t1`. -/
def straightBlock : BasicBlock := { id := 0, insts := [addInst, retInst], succs := [] }

/-- The function made of `straightBlock`, with arguments `a` and `b`. -/
def straightLine : Function := { args := [0, 1], blocks := [straightBlock] }

/-- The pass object after the set-up part of `runOnFunction` on
`straightLine`, with `OUT` of its only block the empty set. -/
def straightState : Live :=
  { runOnFunctionSetup (Live.init 0) straightLine with
    out := ValueMap.assign ValueMap.empty 0 (BitVector.create 4 false) }

/-- The instruction `v = add v, v`, which uses the value it defines
(instruction 0). -/
def selfInst : Instruction :=
  { id := 0, kind := InstKind.ordinary,
    operands := [Value.instruction 0, Value.instruction 0], incoming := [], hasResult := true }

/-- The instruction `br loop` (instruction 1); its operand is the block. -/
def backBranch : Instruction :=
  { id := 1, kind := InstKind.terminator,
    operands := [Value.other 0], incoming := [], hasResult := false }

/-- The block `loop: v = add v, v; br loop`, its own successor. -/
def loopBlock : BasicBlock := { id := 0, insts := [selfInst, backBranch], succs := [0] }

/-- The function made of the single self-looping block `loopBlock`. -/
def selfLoop : Function := { args := [], blocks := [loopBlock] }

/-- The pass object after the set-up part of `runOnFunction` on `selfLoop`,
with `OUT` of its block the empty set. -/
def selfLoopState : Live :=
  { runOnFunctionSetup (Live.init 0) selfLoop with
    out := ValueMap.assign ValueMap.empty 0 (BitVector.create 2 false) }

/-- The diamond `Entry -> {L, R} -> Merge` with argument `c`:
`Entry: br c, L, R`, `L: x = add c, c; br Merge`, `R: y = add c, c; br Merge`,
`Merge: p = phi [x, L], [y, R]; ret p`. Blocks are numbered 0 to 3,
instructions 0 to 6 in program order. -/
def diamond : Function :=
  { args := [0],
    blocks :=
      [ { id := 0, succs := [1, 2],
          insts := [ { id := 0, kind := InstKind.terminator,
                       operands := [Value.argument 0, Value.other 1, Value.other 2],
                       incoming := [], hasResult := false } ] },
        { id := 1, succs := [3],
          insts := [ { id := 1, kind := InstKind.ordinary,
                       operands := [Value.argument 0, Value.argument 0],
                       incoming := [], hasResult := true },
                     { id := 2, kind := InstKind.terminator, operands := [Value.other 3],
                       incoming := [], hasResult := false } ] },
        { id := 2, succs := [3],
          insts := [ { id := 3, kind := InstKind.ordinary,
                       operands := [Value.argument 0, Value.argument 0],
                       incoming := [], hasResult := true },
                     { id := 4, kind := InstKind.terminator, operands := [Value.other 3],
                       incoming := [], hasResult := false } ] },
        { id := 3, succs := [],
          insts := [ { id := 5, kind := InstKind.phi,
                       operands := [Value.instruction 1, Value.instruction 3],
                       incoming := [(Value.instruction 1, 1), (Value.instruction 3, 2)],
                       hasResult := true },
                     { id := 6, kind := InstKind.terminator,
                       operands := [Value.instruction 5], incoming := [],
                       hasResult := false } ] } ] }

/-- The block `Merge` of `diamond`. -/
def mergeBlock : BasicBlock :=
  { id := 3, succs := [],
    insts := [ { id := 5, kind := InstKind.phi,
                 operands := [Value.instruction 1, Value.instruction 3],
                 incoming := [(Value.instruction 1, 1), (Value.instruction 3, 2)],
                 hasResult := true },
               { id := 6, kind := InstKind.terminator,
                 operands := [Value.instruction 5], incoming := [],
                 hasResult := false } ] }

/-- The pass object after the set-up part of `runOnFunction` on `diamond`,
with `OUT[Merge]` the empty set. -/
def diamondState : Live :=
  { runOnFunctionSetup (Live.init 0) diamond with
    out := ValueMap.assign ValueMap.empty 3 (BitVector.create 8 false) }

/-- The block `store a, p; t = add a, a; ret t` with arguments `a`, `p`: the
store (instruction 0) produces no result. -/
def storeBlock : BasicBlock :=
  { id := 0, succs := [],
    insts := [ { id := 0, kind := InstKind.ordinary,
                 operands := [Value.argument 0, Value.argument 1],
                 incoming := [], hasResult := false },
               { id := 1, kind := InstKind.ordinary,
                 operands := [Value.argument 0, Value.argument 0],
                 incoming := [], hasResult := true },
               { id := 2, kind := InstKind.terminator,
                 operands := [Value.instruction 1], incoming := [], hasResult := false } ] }

/-- The function made of `storeBlock`. -/
def storeFn : Function := { args := [0, 1], blocks := [storeBlock] }

/-- The pass object after the set-up part of `runOnFunction` on `storeFn`,
with `OUT` of its block the empty set. -/
def storeState : Live :=
  { runOnFunctionSetup (Live.init 0) storeFn with
    out := ValueMap.assign ValueMap.empty 0 (BitVector.create 5 false) }

/-! ## Theorems -/

/-! ### Boundary and initial values -/

/-- C10. Boundary correctness: whatever the vector held before, after
`setBoundaryCondition` it has length `domainSize` and every bit is false; the
value returned by `initializeFlowValue` for any block and set type has length
`domainSize` and every bit false. -/
theorem boundary_all_false (s : Live) (prev : BitVector) (b : BasicBlock) (setType : SetType) :
    (setBoundaryCondition s prev).length = s.domainSize ∧
    (∀ i, i < s.domainSize → (setBoundaryCondition s prev)[i]? = some false) ∧
    (initializeFlowValue s b setType).length = s.domainSize ∧
    (∀ i, i < s.domainSize → (initializeFlowValue s b setType)[i]? = some false) := by
  simp only [setBoundaryCondition, initializeFlowValue, BitVector.create, List.length_replicate,
    true_and]
  constructor <;>
  · intro i hi
    rw [List.getElem?_eq_getElem (by simpa using hi)]
    simp

/-! ### Bit vectors and maps -/

theorem exists_of_isOk {ε α : Type} {x : Except ε α} (h : x.isOk = true) : ∃ a, x = .ok a := by
  cases x with
  | ok a => exact ⟨a, rfl⟩
  | error e => simp [Except.isOk, Except.toBool] at h

theorem assign_ok {bv bv1 : BitVector} {i : Nat} {t : Bool}
    (h : BitVector.assign bv i t = .ok bv1) : i < bv.length ∧ bv1 = bv.set i t := by
  unfold BitVector.assign at h
  split at h
  · next hi => exact ⟨hi, by injection h with h; exact h.symm⟩
  · cases h

theorem assign_of_lt {bv : BitVector} {i : Nat} (t : Bool) (h : i < bv.length) :
    BitVector.assign bv i t = .ok (bv.set i t) := by
  simp [BitVector.assign, h]

theorem test_set (bv : BitVector) (i j : Nat) (t : Bool) :
    BitVector.test (bv.set i t) j = if i = j ∧ i < bv.length then t else BitVector.test bv j := by
  simp only [BitVector.test, List.getD_eq_getElem?_getD, List.getElem?_set]
  by_cases hij : i = j
  · subst hij
    by_cases hi : i < bv.length
    · simp [hi]
    · simp [hi, List.getElem?_eq_none (Nat.le_of_not_lt hi)]
  · simp [hij]

theorem test_create_false (n i : Nat) : BitVector.test (BitVector.create n false) i = false := by
  simp only [BitVector.test, BitVector.create, List.getD_eq_getElem?_getD]
  by_cases hi : i < n
  · rw [List.getElem?_eq_getElem (by simpa using hi)]
    simp
  · rw [List.getElem?_eq_none (by simpa using hi)]
    rfl

theorem bitIndex_subscript (idx : ValueMap Value Nat) (v : Value) :
    bitIndex (ValueMap.subscript idx v).2 = bitIndex idx := by
  funext w
  unfold bitIndex ValueMap.subscript
  cases hv : idx v with
  | some k => rfl
  | none =>
    simp only [ValueMap.assign]
    by_cases hw : w = v
    · subst hw
      simp [hv]
    · simp only [hw, if_false]
      cases idx w <;> rfl

theorem subscript_of_some {idx : ValueMap Value Nat} {v : Value} {k : Nat} (h : idx v = some k) :
    ValueMap.subscript idx v = (k, idx) := by
  simp [ValueMap.subscript, h]

theorem bitIndex_of_some {idx : ValueMap Value Nat} {v : Value} {k : Nat} (h : idx v = some k) :
    bitIndex idx v = k := by
  simp [bitIndex, subscript_of_some h]

theorem bv_ext {A B : BitVector} (hl : A.length = B.length)
    (h : ∀ k, BitVector.test A k = BitVector.test B k) : A = B := by
  apply List.ext_getElem hl
  intro n h1 h2
  have := h n
  simp only [BitVector.test, List.getD_eq_getElem?_getD, List.getElem?_eq_getElem h1,
    List.getElem?_eq_getElem h2, Option.getD_some] at this
  exact this

theorem test_lt_length {A : BitVector} {k : Nat} (h : BitVector.test A k = true) :
    k < A.length := by
  by_contra hk
  simp [BitVector.test, List.getElem?_eq_none (Nat.le_of_not_lt hk)] at h

theorem test_cons_zero (a : Bool) (A : BitVector) : BitVector.test (a :: A) 0 = a := by
  simp [BitVector.test]

theorem test_cons_succ (a : Bool) (A : BitVector) (k : Nat) :
    BitVector.test (a :: A) (k + 1) = BitVector.test A k := by
  simp [BitVector.test]

theorem count_true_le_of_subset {A B : BitVector} (h : BitVector.Subset A B) :
    A.count true ≤ B.count true := by
  induction A generalizing B with
  | nil => simp
  | cons a A ih =>
    cases B with
    | nil => exact absurd h.1 (by simp)
    | cons b B =>
      obtain ⟨hl, hs⟩ := h
      have hsub : BitVector.Subset A B :=
        ⟨by simpa using hl, fun k hk => by
          have := hs (k + 1) (by rwa [test_cons_succ])
          rwa [test_cons_succ] at this⟩
      have h0 := hs 0
      rw [test_cons_zero, test_cons_zero] at h0
      have := ih hsub
      cases a <;> cases b <;> simp [List.count_cons] at h0 ⊢ <;> omega

theorem count_true_lt_of_subset {A B : BitVector} (h : BitVector.Subset A B) (hne : A ≠ B) :
    A.count true < B.count true := by
  induction A generalizing B with
  | nil =>
    cases B with
    | nil => exact absurd rfl hne
    | cons b B => exact absurd h.1 (by simp)
  | cons a A ih =>
    cases B with
    | nil => exact absurd h.1 (by simp)
    | cons b B =>
      obtain ⟨hl, hs⟩ := h
      have hsub : BitVector.Subset A B :=
        ⟨by simpa using hl, fun k hk => by
          have := hs (k + 1) (by rwa [test_cons_succ])
          rwa [test_cons_succ] at this⟩
      have h0 := hs 0
      rw [test_cons_zero, test_cons_zero] at h0
      have hle := count_true_le_of_subset hsub
      by_cases hab : a = b
      · subst hab
        have hne1 : A ≠ B := fun hAB => hne (by rw [hAB])
        have := ih hsub hne1
        cases a
        · simp only [List.count_cons]
          omega
        · simp only [List.count_cons]
          omega
      · cases a <;> cases b <;> simp [List.count_cons] at h0 hab ⊢
        omega

theorem count_false_eq (A : BitVector) : A.count false = A.length - A.count true := by
  have := List.count_true_add_count_false A
  omega

theorem test_zipWith_or (A B : BitVector) (hl : A.length = B.length) (k : Nat) :
    BitVector.test (List.zipWith (fun a b => a || b) A B) k =
      (BitVector.test A k || BitVector.test B k) := by
  simp only [BitVector.test, List.getD_eq_getElem?_getD, List.getElem?_zipWith]
  by_cases hk : k < A.length
  · have hk2 : k < B.length := hl ▸ hk
    simp [List.getElem?_eq_getElem hk, List.getElem?_eq_getElem hk2]
  · have hk2 : ¬ k < B.length := hl ▸ hk
    simp [List.getElem?_eq_none (Nat.le_of_not_lt hk),
      List.getElem?_eq_none (Nat.le_of_not_lt hk2)]

/-! ### One instruction of the backward walk -/

theorem length_clearOwnBit (ix : Value → Nat) (i : Instruction) (S : BitVector) :
    (clearOwnBit ix i S).length = S.length := by
  unfold clearOwnBit
  split <;> simp

theorem length_setOperandBits (ix : Value → Nat) (ops : List Value) (S : BitVector) :
    (setOperandBits ix ops S).length = S.length := by
  induction ops generalizing S with
  | nil => rfl
  | cons v rest ih =>
    simp only [setOperandBits, List.foldl_cons] at ih ⊢
    rw [ih]
    split <;> simp

theorem length_liveBefore (ix : Value → Nat) (i : Instruction) (S : BitVector) :
    (liveBefore ix i S).length = S.length := by
  unfold liveBefore
  split <;> simp [length_setOperandBits, length_clearOwnBit]

theorem length_liveWalk (ix : Value → Nat) (rev : List Instruction) (S : BitVector) :
    (liveWalk ix rev S).length = S.length := by
  induction rev generalizing S with
  | nil => rfl
  | cons i rest ih =>
    simp only [liveWalk, List.foldl_cons] at ih ⊢
    rw [ih, length_liveBefore]

theorem killDefinition_ok {i : Instruction} {S S1 : BitVector} {idx idx1 : ValueMap Value Nat}
    (h : killDefinition i S idx = .ok (S1, idx1)) :
    S1 = clearOwnBit (bitIndex idx) i S ∧ bitIndex idx1 = bitIndex idx ∧
    (isDefinition i = true → bitIndex idx i.toValue < S.length) := by
  unfold killDefinition at h
  by_cases hd : isDefinition i = true
  · rw [if_pos hd] at h
    split at h
    · next S' hS' =>
      obtain ⟨hlt, hset⟩ := assign_ok hS'
      injection h with h
      injection h with h1 h2
      have hk : ¬ i.kind = InstKind.terminator := by
        intro hk
        simp [isDefinition, hk] at hd
      refine ⟨?_, ?_, fun _ => hlt⟩
      · rw [← h1, hset]
        simp [clearOwnBit, hk, bitIndex]
      · rw [← h2, bitIndex_subscript]
    · cases h
  · rw [if_neg hd] at h
    injection h with h
    injection h with h1 h2
    have hk : i.kind = InstKind.terminator := by
      by_contra hk
      apply hd
      simp [isDefinition, hk]
    refine ⟨?_, by rw [← h2], fun h => absurd h hd⟩
    rw [← h1]
    simp [clearOwnBit, hk]

theorem addOperands_ok {ops : List Value} {S S2 : BitVector} {idx idx2 : ValueMap Value Nat}
    (h : addOperands ops S idx = .ok (S2, idx2)) :
    S2 = setOperandBits (bitIndex idx) ops S ∧ bitIndex idx2 = bitIndex idx ∧
    (∀ v ∈ ops, v.isInstrOrArg = true → bitIndex idx v < S.length) := by
  induction ops generalizing S idx with
  | nil =>
    simp only [addOperands] at h
    injection h with h
    injection h with h1 h2
    exact ⟨h1.symm, by rw [← h2], by simp⟩
  | cons v rest ih =>
    unfold addOperands at h
    by_cases hv : v.isInstrOrArg = true
    · rw [if_pos hv] at h
      split at h
      · next S' hS' =>
        obtain ⟨hlt, hset⟩ := assign_ok hS'
        obtain ⟨e1, e2, e3⟩ := ih h
        rw [bitIndex_subscript] at e1 e2 e3
        refine ⟨?_, e2, ?_⟩
        · rw [e1, hset]
          simp [setOperandBits, hv, bitIndex]
        · intro w hw hwt
          rcases List.mem_cons.1 hw with rfl | hw
          · exact hlt
          · have := e3 w hw hwt
            rwa [hset, List.length_set] at this
      · cases h
    · rw [if_neg hv] at h
      obtain ⟨e1, e2, e3⟩ := ih h
      refine ⟨?_, e2, ?_⟩
      · rw [e1]
        simp [setOperandBits, hv]
      · intro w hw hwt
        rcases List.mem_cons.1 hw with rfl | hw
        · exact absurd hwt hv
        · exact e3 w hw hwt

theorem addIncoming_ok {ds : Nat} {inc : List (Value × Nat)} {nsv nsv1 : ValueMap Nat BitVector}
    {idx idx1 : ValueMap Value Nat} (h : addIncoming ds inc nsv idx = .ok (nsv1, idx1)) :
    bitIndex idx1 = bitIndex idx ∧
    (∀ blk e, nsv blk = some e →
      ∃ e1, nsv1 blk = some e1 ∧ e1.length = e.length ∧
        ∀ k, BitVector.test e k = true → BitVector.test e1 k = true) ∧
    (∀ blk e1, nsv1 blk = some e1 →
      (∃ e, nsv blk = some e ∧ e1.length = e.length) ∨ (nsv blk = none ∧ e1.length = ds)) ∧
    (∀ q ∈ inc, q.1.isInstrOrArg = true →
      ∃ e1, nsv1 q.2 = some e1 ∧ BitVector.test e1 (bitIndex idx q.1) = true) := by
  induction inc generalizing nsv idx with
  | nil =>
    simp only [addIncoming] at h
    injection h with h
    injection h with h1 h2
    subst h1 h2
    refine ⟨rfl, ?_, ?_, by simp⟩
    · intro blk e he
      exact ⟨e, he, rfl, fun _ hk => hk⟩
    · intro blk e1 he1
      exact Or.inl ⟨e1, he1, rfl⟩
  | cons q rest ih =>
    obtain ⟨val, blk0⟩ := q
    unfold addIncoming at h
    by_cases hv : val.isInstrOrArg = true
    · rw [if_pos hv] at h
      simp only [] at h
      split at h
      · next entry1 hentry =>
        obtain ⟨hlt, hset⟩ := assign_ok hentry
        obtain ⟨e1, e2, e3, e4⟩ := ih h
        rw [bitIndex_subscript] at e1 e4
        have hkey : ∃ f, nsv1 blk0 = some f ∧ f.length = entry1.length ∧
            ∀ k, BitVector.test entry1 k = true → BitVector.test f k = true :=
          e2 blk0 entry1 (by simp [ValueMap.assign])
        refine ⟨e1, ?_, ?_, ?_⟩
        · intro blk e he
          by_cases hb : blk = blk0
          · subst hb
            obtain ⟨f, hf1, hf2, hf3⟩ := hkey
            refine ⟨f, hf1, ?_, ?_⟩
            · rw [hf2, hset, List.length_set, he]
            · intro k hk
              apply hf3
              rw [hset, test_set, he]
              split
              · rfl
              · exact hk
          · exact e2 blk e (by simp [ValueMap.assign, hb, he])
        · intro blk f hf
          rcases e3 blk f hf with ⟨e, he, hlen⟩ | ⟨he, hlen⟩
          · by_cases hb : blk = blk0
            · subst hb
              simp only [ValueMap.assign, if_true, Option.some.injEq] at he
              subst he
              rw [hset, List.length_set] at hlen
              cases hn : nsv blk with
              | some e0 =>
                left
                exact ⟨e0, rfl, by rw [hlen, hn]⟩
              | none =>
                right
                refine ⟨rfl, ?_⟩
                rw [hlen, hn]
                simp [BitVector.create]
            · left
              refine ⟨e, ?_, hlen⟩
              simpa [ValueMap.assign, hb] using he
          · by_cases hb : blk = blk0
            · subst hb
              simp [ValueMap.assign] at he
            · right
              refine ⟨?_, hlen⟩
              simpa [ValueMap.assign, hb] using he
        · intro q hq hqt
          rcases List.mem_cons.1 hq with rfl | hq
          · obtain ⟨f, hf1, _, hf3⟩ := hkey
            refine ⟨f, hf1, hf3 _ ?_⟩
            rw [hset, test_set]
            exact if_pos ⟨rfl, hlt⟩
          · exact e4 q hq hqt
      · cases h
    · rw [if_neg hv] at h
      obtain ⟨e1, e2, e3, e4⟩ := ih h
      refine ⟨e1, e2, e3, ?_⟩
      intro q hq hqt
      rcases List.mem_cons.1 hq with rfl | hq
      · exact absurd hqt hv
      · exact e4 q hq hqt

/-- What a successful turn of the loop of `transferFn` did. -/
theorem transferInst_inv {s s1 : Live} {S r : BitVector} {i : Instruction}
    (h : transferInst s S i = .ok (r, s1)) :
    ∃ old S1 idx1, s.instrInSet i.id = some old ∧
      killDefinition i S s.valueToBitVectorIndex = .ok (S1, idx1) ∧
      ((i.kind ≠ InstKind.phi ∧ ∃ idx2, addOperands i.operands S1 idx1 = .ok (r, idx2) ∧
          s1 = { s with valueToBitVectorIndex := idx2,
                        instrInSet := ValueMap.assign s.instrInSet i.id r }) ∨
       (i.kind = InstKind.phi ∧ ∃ nsv idx2,
          addIncoming s.domainSize i.incoming s.neighbourSpecificValues idx1 = .ok (nsv, idx2) ∧
          r = S1 ∧
          s1 = { s with valueToBitVectorIndex := idx2,
                        instrInSet := ValueMap.assign s.instrInSet i.id r,
                        neighbourSpecificValues := nsv })) := by
  unfold transferInst at h
  split at h
  · cases h
  · next old hold =>
    split at h
    · cases h
    · next S1 idx1 hkill =>
      refine ⟨old, S1, idx1, hold, hkill, ?_⟩
      by_cases hk : i.kind = InstKind.phi
      · rw [if_neg (by simpa using hk)] at h
        split at h
        · cases h
        · next nsv idx2 hinc =>
          right
          injection h with h
          injection h with h1 h2
          subst h1
          exact ⟨hk, nsv, idx2, hinc, rfl, h2.symm⟩
      · rw [if_pos hk] at h
        split at h
        · cases h
        · next S2 idx2 hops =>
          left
          injection h with h
          injection h with h1 h2
          subst h1
          exact ⟨hk, idx2, hops, h2.symm⟩

theorem transferInst_ok {s s1 : Live} {S r : BitVector} {i : Instruction}
    (h : transferInst s S i = .ok (r, s1)) :
    r = liveBefore (bitIndex s.valueToBitVectorIndex) i S ∧
    bitIndex s1.valueToBitVectorIndex = bitIndex s.valueToBitVectorIndex ∧
    s1.instrInSet = ValueMap.assign s.instrInSet i.id r ∧
    s1.out = s.out ∧ s1.in_ = s.in_ ∧ s1.domainSize = s.domainSize ∧
    s1.bvIndexToInstrArg = s.bvIndexToInstrArg ∧ s1.domain = s.domain := by
  obtain ⟨old, S1, idx1, -, hkill, hrest⟩ := transferInst_inv h
  obtain ⟨k1, k2, -⟩ := killDefinition_ok hkill
  rcases hrest with ⟨hk, idx2, hops, rfl⟩ | ⟨hk, nsv, idx2, hinc, hr, rfl⟩
  · obtain ⟨o1, o2, -⟩ := addOperands_ok hops
    rw [k2] at o1 o2
    refine ⟨?_, o2, rfl, rfl, rfl, rfl, rfl, rfl⟩
    rw [o1, k1]
    simp [liveBefore, hk]
  · obtain ⟨a1, -⟩ := addIncoming_ok hinc
    rw [k2] at a1
    refine ⟨?_, a1, rfl, rfl, rfl, rfl, rfl, rfl⟩
    rw [hr, k1]
    simp [liveBefore, hk]

theorem test_clearOwnBit (ix : Value → Nat) (i : Instruction) (S : BitVector) (k : Nat) :
    BitVector.test (clearOwnBit ix i S) k =
      if i.kind ≠ InstKind.terminator ∧ ix i.toValue = k then false else BitVector.test S k := by
  unfold clearOwnBit
  by_cases hk : i.kind = InstKind.terminator
  · simp [hk]
  · simp only [hk, if_false, test_set, ne_eq, not_false_eq_true, true_and]
    by_cases hik : ix i.toValue = k
    · subst hik
      by_cases hlt : ix i.toValue < S.length
      · simp [hlt]
      · simp only [hlt, and_false, if_false, if_true]
        simp [BitVector.test, List.getElem?_eq_none (Nat.le_of_not_lt hlt)]
    · simp [hik]

theorem test_setOperandBits (ix : Value → Nat) (ops : List Value) (S : BitVector) (k : Nat) :
    BitVector.test (setOperandBits ix ops S) k = true ↔
      BitVector.test S k = true ∨
        ∃ v ∈ ops, v.isInstrOrArg = true ∧ ix v = k ∧ k < S.length := by
  induction ops generalizing S with
  | nil => simp [setOperandBits]
  | cons v rest ih =>
    have hstep : setOperandBits ix (v :: rest) S =
        setOperandBits ix rest (if v.isInstrOrArg then S.set (ix v) true else S) := by
      simp [setOperandBits]
    rw [hstep, ih]
    by_cases hv : v.isInstrOrArg = true
    · simp only [hv, if_true, test_set, List.length_set, List.mem_cons, exists_eq_or_imp,
        true_and]
      constructor
      · rintro (h | h)
        · split at h
          · next hc => exact Or.inr (Or.inl ⟨hc.1, hc.1 ▸ hc.2⟩)
          · exact Or.inl h
        · exact Or.inr (Or.inr h)
      · rintro (h | h | h)
        · left
          split
          · rfl
          · exact h
        · left
          rw [if_pos ⟨h.1, h.1 ▸ h.2⟩]
        · exact Or.inr h
    · simp only [hv, List.mem_cons, exists_eq_or_imp, false_and, false_or]
      simp

/-! ### The backward walk over a block -/

theorem liveWalk_take_succ (ix : Value → Nat) (rev : List Instruction) (S : BitVector)
    (k : Nat) (hk : k < rev.length) :
    liveWalk ix (rev.take (k + 1)) S = liveBefore ix rev[k] (liveWalk ix (rev.take k) S) := by
  induction rev generalizing S k with
  | nil => simp at hk
  | cons i rest ih =>
    cases k with
    | zero => simp [liveWalk]
    | succ k =>
      have hk1 : k < rest.length := by simpa using hk
      have := ih (liveBefore ix i S) k hk1
      simpa [liveWalk] using this

theorem transferLoop_ok {rev : List Instruction} {s s1 : Live} {S r : BitVector}
    (h : transferLoop rev s S = .ok (r, s1)) :
    r = liveWalk (bitIndex s.valueToBitVectorIndex) rev S ∧
    bitIndex s1.valueToBitVectorIndex = bitIndex s.valueToBitVectorIndex ∧
    s1.out = s.out ∧ s1.in_ = s.in_ ∧ s1.domainSize = s.domainSize ∧
    s1.bvIndexToInstrArg = s.bvIndexToInstrArg ∧ s1.domain = s.domain ∧
    (∀ id, id ∉ rev.map Instruction.id → s1.instrInSet id = s.instrInSet id) := by
  induction rev generalizing s S with
  | nil =>
    simp only [transferLoop] at h
    injection h with h
    injection h with h1 h2
    subst h1 h2
    simp [liveWalk]
  | cons i rest ih =>
    unfold transferLoop at h
    split at h
    · cases h
    · next r0 s0 h0 =>
      obtain ⟨a1, a2, a3, a4, a5, a6, a7, a8⟩ := ih h
      obtain ⟨b1, b2, b3, b4, b5, b6, b7, b8⟩ := transferInst_ok h0
      refine ⟨?_, a2.trans b2, a3.trans b4, a4.trans b5, a5.trans b6, a6.trans b7,
        a7.trans b8, ?_⟩
      · rw [a1, b2, b1]
        simp [liveWalk]
      · intro id hid
        simp only [List.map_cons, List.mem_cons, not_or] at hid
        rw [a8 id hid.2, b3]
        simp [ValueMap.assign, hid.1]

theorem transferLoop_instrInSet {rev : List Instruction} {s s1 : Live} {S r : BitVector}
    (h : transferLoop rev s S = .ok (r, s1)) (hnd : (rev.map Instruction.id).Nodup)
    (k : Nat) (hk : k < rev.length) :
    s1.instrInSet rev[k].id =
      some (liveWalk (bitIndex s.valueToBitVectorIndex) (rev.take (k + 1)) S) := by
  induction rev generalizing s S k with
  | nil => simp at hk
  | cons i rest ih =>
    unfold transferLoop at h
    split at h
    · cases h
    · next r0 s0 h0 =>
      obtain ⟨b1, b2, b3, -⟩ := transferInst_ok h0
      rw [List.map_cons, List.nodup_cons] at hnd
      cases k with
      | zero =>
        obtain ⟨-, -, -, -, -, -, -, a8⟩ := transferLoop_ok h
        simp only [List.getElem_cons_zero]
        rw [a8 i.id hnd.1, b3, b1]
        simp [ValueMap.assign, liveWalk]
      | succ k =>
        have hk1 : k < rest.length := by simpa using hk
        have := ih h hnd.2 k hk1
        simp only [List.getElem_cons_succ]
        rw [this, b2, b1]
        simp [liveWalk]

/-- What a successful `transferFn` did. -/
theorem transferFn_inv {s s1 : Live} {bb : BasicBlock} {r : BitVector}
    (h : transferFn s bb = .ok (r, s1)) :
    ∃ outBB, s.out bb.id = some outBB ∧ bb.insts ≠ [] ∧
      transferLoop bb.insts.reverse s outBB = .ok (r, s1) := by
  unfold transferFn at h
  split at h
  · cases h
  · next outBB hout =>
    split at h
    · cases h
    · next i rest hi =>
      refine ⟨outBB, hout, ?_, ?_⟩
      · rw [hi]
        simp
      · exact h

/-- C1. After `transferFn(b)` the per-instruction set of each instruction
`i` of `b` is the live-in set immediately before `i`: the set `S` that follows
`i` (the per-instruction set of the next instruction, or `OUT[b]` when `i` is
the last one) with the own bit of `i` cleared when `i` is not a terminator and
then the bits of its instruction and argument operands set when `i` is not a
phi-node. The instructions of a block are distinct objects; a block on which
`transferFn` returns is non-empty, and `transferFn` returns whenever the tables
fit the function (`transferFn_succeeds`). -/
theorem transferFn_perInstruction (s s1 : Live) (bb : BasicBlock) (outBB r : BitVector)
    (hnd : (bb.insts.map Instruction.id).Nodup)
    (hout : s.out bb.id = some outBB) (h : transferFn s bb = .ok (r, s1))
    (p : Nat) (hp : p < bb.insts.length) :
    ∃ S, (if hq : p + 1 < bb.insts.length then s1.instrInSet bb.insts[p + 1].id = some S
          else S = outBB) ∧
      s1.instrInSet bb.insts[p].id =
        some (liveBefore (bitIndex s.valueToBitVectorIndex) bb.insts[p] S) := by
  obtain ⟨outBB1, hout1, -, hloop⟩ := transferFn_inv h
  rw [hout] at hout1
  injection hout1 with hout1
  subst hout1
  have hndr : (bb.insts.reverse.map Instruction.id).Nodup := by
    rw [List.map_reverse]
    exact List.nodup_reverse.2 hnd
  have hlen : bb.insts.reverse.length = bb.insts.length := List.length_reverse _
  have hget : ∀ q (hq : q < bb.insts.length),
      s1.instrInSet bb.insts[q].id =
        some (liveWalk (bitIndex s.valueToBitVectorIndex)
          (bb.insts.reverse.take (bb.insts.length - 1 - q + 1)) outBB) := by
    intro q hq
    have hk : bb.insts.length - 1 - q < bb.insts.reverse.length := by omega
    have := transferLoop_instrInSet hloop hndr (bb.insts.length - 1 - q) hk
    rw [List.getElem_reverse] at this
    have hidx : bb.insts.length - 1 - (bb.insts.length - 1 - q) = q := by omega
    simp only [hidx] at this
    exact this
  refine ⟨liveWalk (bitIndex s.valueToBitVectorIndex)
      (bb.insts.reverse.take (bb.insts.length - 1 - p)) outBB, ?_, ?_⟩
  · split
    · next hq =>
      rw [hget (p + 1) hq]
      have : bb.insts.length - 1 - (p + 1) + 1 = bb.insts.length - 1 - p := by omega
      rw [this]
    · next hq =>
      have : bb.insts.length - 1 - p = 0 := by omega
      rw [this]
      simp [liveWalk]
  · rw [hget p hp]
    have hk : bb.insts.length - 1 - p < bb.insts.reverse.length := by omega
    rw [liveWalk_take_succ _ _ _ _ hk, List.getElem_reverse]
    have hidx : bb.insts.length - 1 - (bb.insts.length - 1 - p) = p := by omega
    simp only [hidx]

/-- Witness of C1: on `t1 = add a, b; ret t1` with `OUT` empty the set of `ret`
is `{t1}` (bit 2) and the set of `t1 = add` is `{a, b}` (bits 0 and 1). -/
theorem transferFn_perInstruction_witness :
    ∃ r s1, transferFn straightState straightBlock = .ok (r, s1) ∧
      s1.instrInSet retInst.id = some [false, false, true, false] ∧
      s1.instrInSet addInst.id = some [true, true, false, false] := by
  obtain ⟨⟨r, s1⟩, h⟩ :=
    exists_of_isOk (x := transferFn straightState straightBlock) (by decide)
  have hout : straightState.out straightBlock.id = some [false, false, false, false] := by
    decide
  obtain ⟨S1, hS1, h1⟩ :=
    transferFn_perInstruction straightState s1 straightBlock _ r (by decide) hout h 1
      (by decide)
  obtain ⟨S0, hS0, h0⟩ :=
    transferFn_perInstruction straightState s1 straightBlock _ r (by decide) hout h 0
      (by decide)
  have e1 : S1 = [false, false, false, false] := by simpa [straightBlock] using hS1
  have e0 : s1.instrInSet retInst.id = some S0 := by simpa [straightBlock] using hS0
  have c1 : liveBefore (bitIndex straightState.valueToBitVectorIndex) retInst
      [false, false, false, false] = [false, false, true, false] := by decide
  have c0 : liveBefore (bitIndex straightState.valueToBitVectorIndex) addInst
      [false, false, true, false] = [true, true, false, false] := by decide
  have h1b : s1.instrInSet retInst.id = some [false, false, true, false] := by
    rw [← c1, ← e1]
    exact h1
  have e0b : S0 = [false, false, true, false] := by
    rw [h1b] at e0
    injection e0 with e0
    exact e0.symm
  refine ⟨r, s1, h, h1b, ?_⟩
  rw [← c0, ← e0b]
  exact h0

theorem transferLoop_append {l1 l2 : List Instruction} {s s1 : Live} {S r : BitVector} :
    transferLoop (l1 ++ l2) s S = .ok (r, s1) ↔
      ∃ r0 s0, transferLoop l1 s S = .ok (r0, s0) ∧ transferLoop l2 s0 r0 = .ok (r, s1) := by
  induction l1 generalizing s S with
  | nil =>
    simp only [List.nil_append, transferLoop]
    constructor
    · intro h
      exact ⟨S, s, rfl, h⟩
    · rintro ⟨r0, s0, h0, h⟩
      injection h0 with h0
      injection h0 with e1 e2
      subst e1 e2
      exact h
  | cons i rest ih =>
    simp only [List.cons_append]
    rw [transferLoop]
    cases hi : transferInst s S i with
    | error e =>
      simp only [transferLoop, hi]
      constructor
      · intro h
        cases h
      · rintro ⟨r0, s0, h0, -⟩
        cases h0
    | ok res =>
      obtain ⟨rX, sX⟩ := res
      simp only [transferLoop, hi]
      exact ih

/-- The turn of the loop that processes a given instruction of the walk. -/
theorem transferLoop_at {rev : List Instruction} {s s1 : Live} {S r : BitVector}
    (h : transferLoop rev s S = .ok (r, s1)) (i : Instruction) (hi : i ∈ rev) :
    ∃ l1 l2 S0 s0 X sX, rev = l1 ++ i :: l2 ∧ transferLoop l1 s S = .ok (S0, s0) ∧
      transferInst s0 S0 i = .ok (X, sX) ∧ transferLoop l2 sX X = .ok (r, s1) := by
  obtain ⟨l1, l2, hsplit⟩ := List.append_of_mem hi
  subst hsplit
  obtain ⟨S0, s0, h1, h2⟩ := transferLoop_append.1 h
  unfold transferLoop at h2
  split at h2
  · cases h2
  · next X sX hX => exact ⟨l1, l2, S0, s0, X, sX, rfl, h1, hX, h2⟩

/-- The per-instruction set of an instruction of the block is the vector its
turn of the loop produced. -/
theorem transferLoop_at_instrInSet {rev : List Instruction} {s s1 : Live} {S r : BitVector}
    (h : transferLoop rev s S = .ok (r, s1)) (hnd : (rev.map Instruction.id).Nodup)
    (i : Instruction) (hi : i ∈ rev) :
    ∃ S0 s0 X sX, transferInst s0 S0 i = .ok (X, sX) ∧
      bitIndex s0.valueToBitVectorIndex = bitIndex s.valueToBitVectorIndex ∧
      S0.length = S.length ∧ s1.instrInSet i.id = some X := by
  obtain ⟨l1, l2, S0, s0, X, sX, hsplit, h1, hX, h2⟩ := transferLoop_at h i hi
  subst hsplit
  obtain ⟨a1, a2, -⟩ := transferLoop_ok h1
  obtain ⟨-, -, -, -, -, -, -, c8⟩ := transferLoop_ok h2
  obtain ⟨-, -, b3, -⟩ := transferInst_ok hX
  refine ⟨S0, s0, X, sX, hX, a2, ?_, ?_⟩
  · rw [a1, length_liveWalk]
  · have hnot : i.id ∉ l2.map Instruction.id := by
      rw [List.map_append, List.map_cons, List.nodup_append] at hnd
      exact (List.nodup_cons.1 hnd.2.1).1
    rw [c8 i.id hnot, b3]
    simp [ValueMap.assign]

/-- The bit of a value that is both defined and used by a non-phi instruction
ends up set by the turn of the loop on that instruction. -/
theorem transferInst_self_operand {s s1 : Live} {S X : BitVector} {i : Instruction}
    (hk : i.kind ≠ InstKind.phi) (hself : i.toValue ∈ i.operands)
    (h : transferInst s S i = .ok (X, s1)) :
    s1.instrInSet i.id = some X ∧
      BitVector.test X (bitIndex s.valueToBitVectorIndex i.toValue) = true := by
  obtain ⟨b1, -, b3, -⟩ := transferInst_ok h
  obtain ⟨old, S1, idx1, -, hkill, hrest⟩ := transferInst_inv h
  obtain ⟨k1, k2, -⟩ := killDefinition_ok hkill
  rcases hrest with ⟨-, idx2, hops, -⟩ | ⟨hphi, -⟩
  · obtain ⟨-, -, o3⟩ := addOperands_ok hops
    have hlt := o3 i.toValue hself rfl
    rw [k2, k1, length_clearOwnBit] at hlt
    refine ⟨by rw [b3]; simp [ValueMap.assign], ?_⟩
    rw [b1]
    simp only [liveBefore, hk, if_false]
    rw [test_setOperandBits]
    right
    exact ⟨i.toValue, hself, rfl, rfl, by rwa [length_clearOwnBit]⟩
  · exact absurd hphi hk

/-- C3. Kill-before-gen ordering: for a non-phi instruction `i` that has
itself among its operands, whatever set follows `i`, the per-instruction set
computed for `i` has the own bit of `i` set: in one turn of the loop of
`transferFn`, and therefore after `transferFn` on any block that holds `i`. -/
theorem kill_before_gen (i : Instruction) (hk : i.kind ≠ InstKind.phi)
    (hself : i.toValue ∈ i.operands) :
    (∀ (s s1 : Live) (S X : BitVector), transferInst s S i = .ok (X, s1) →
      s1.instrInSet i.id = some X ∧
        BitVector.test X (bitIndex s.valueToBitVectorIndex i.toValue) = true) ∧
    (∀ (s s1 : Live) (bb : BasicBlock) (r : BitVector),
      (bb.insts.map Instruction.id).Nodup → i ∈ bb.insts → transferFn s bb = .ok (r, s1) →
      ∃ X, s1.instrInSet i.id = some X ∧
        BitVector.test X (bitIndex s.valueToBitVectorIndex i.toValue) = true) := by
  refine ⟨fun s s1 S X h => transferInst_self_operand hk hself h, ?_⟩
  intro s s1 bb r hnd hi h
  obtain ⟨outBB, -, -, hloop⟩ := transferFn_inv h
  have hndr : (bb.insts.reverse.map Instruction.id).Nodup := by
    rw [List.map_reverse]
    exact List.nodup_reverse.2 hnd
  obtain ⟨S0, s0, X, sX, hX, hidx, -, hset⟩ :=
    transferLoop_at_instrInSet hloop hndr i (List.mem_reverse.2 hi)
  refine ⟨X, hset, ?_⟩
  rw [← hidx]
  exact (transferInst_self_operand hk hself hX).2

/-- C4. The flow value returned by `transferFn(b)` is the per-instruction set
recorded for the first instruction of `b`, and the turn of the loop on the
last instruction starts from `OUT[b]`. -/
theorem transferFn_first_and_last (s s1 : Live) (bb : BasicBlock) (outBB r : BitVector)
    (hout : s.out bb.id = some outBB) (h : transferFn s bb = .ok (r, s1)) :
    (∃ first, bb.insts.head? = some first ∧ s1.instrInSet first.id = some r) ∧
    (∃ front last r0 s0, bb.insts = front ++ [last] ∧
      transferInst s outBB last = .ok (r0, s0) ∧
      transferLoop front.reverse s0 r0 = .ok (r, s1)) := by
  obtain ⟨outBB1, hout1, hne, hloop⟩ := transferFn_inv h
  rw [hout] at hout1
  injection hout1 with hout1
  subst hout1
  constructor
  · cases hins : bb.insts with
    | nil => exact absurd hins hne
    | cons first rest =>
      refine ⟨first, rfl, ?_⟩
      rw [hins, List.reverse_cons] at hloop
      obtain ⟨r0, s0, -, h2⟩ := transferLoop_append.1 hloop
      simp only [transferLoop] at h2
      split at h2
      · cases h2
      · next X sX hX =>
        injection h2 with h2
        injection h2 with e1 e2
        subst e1 e2
        rw [(transferInst_ok hX).2.2.1]
        simp [ValueMap.assign]
  · refine ⟨bb.insts.dropLast, bb.insts.getLast hne, ?_⟩
    have hsplit : bb.insts = bb.insts.dropLast ++ [bb.insts.getLast hne] :=
      (List.dropLast_append_getLast hne).symm
    rw [hsplit, List.reverse_append, List.reverse_singleton, List.singleton_append] at hloop
    unfold transferLoop at hloop
    split at hloop
    · cases hloop
    · next X sX hX => exact ⟨X, sX, hsplit, hX, hloop⟩

/-- Witness of C3: `v = add v, v` with `v` live after it. -/
theorem kill_before_gen_witness :
    ∃ X s1, transferInst selfLoopState [true, false] selfInst = .ok (X, s1) ∧
      s1.instrInSet selfInst.id = some X ∧ BitVector.test X 0 = true := by
  obtain ⟨⟨X, s1⟩, h⟩ :=
    exists_of_isOk (x := transferInst selfLoopState [true, false] selfInst) (by decide)
  have hw := (kill_before_gen selfInst (by decide) (by decide)).1 selfLoopState s1 _ X h
  have e : bitIndex selfLoopState.valueToBitVectorIndex selfInst.toValue = 0 := by decide
  rw [e] at hw
  exact ⟨X, s1, h, hw⟩

/-- Witness of C4 on `t1 = add a, b; ret t1`. -/
theorem transferFn_first_and_last_witness :
    ∃ r s1 r0 s0, transferFn straightState straightBlock = .ok (r, s1) ∧
      s1.instrInSet addInst.id = some r ∧
      transferInst straightState [false, false, false, false] retInst = .ok (r0, s0) ∧
      transferLoop [addInst] s0 r0 = .ok (r, s1) := by
  obtain ⟨⟨r, s1⟩, h⟩ :=
    exists_of_isOk (x := transferFn straightState straightBlock) (by decide)
  have hout : straightState.out straightBlock.id = some [false, false, false, false] := by
    decide
  obtain ⟨⟨first, hf1, hf2⟩, front, last, r0, s0, hsplit, h1, h2⟩ :=
    transferFn_first_and_last straightState s1 straightBlock _ r hout h
  have e1 : first = addInst := by
    simp only [straightBlock, List.head?_cons, Option.some.injEq] at hf1
    exact hf1.symm
  have e2 : front = [addInst] ∧ last = retInst := by
    have : [addInst, retInst] = front ++ [last] := hsplit
    have hlen : front.length = 1 := by
      have := congrArg List.length this
      simp at this
      omega
    match front, hlen with
    | [a], _ =>
      simp only [List.singleton_append, List.cons.injEq, and_true] at this
      exact ⟨by rw [this.1], this.2.symm⟩
  obtain ⟨e2, e3⟩ := e2
  subst e1 e2 e3
  exact ⟨r, s1, r0, s0, h, hf2, h1, h2⟩

/-! ### Phi-nodes -/

theorem test_liveBefore_false (ix : Value → Nat) (i : Instruction) (S : BitVector) (k : Nat)
    (hS : BitVector.test S k = false)
    (hops : i.kind ≠ InstKind.phi → ∀ w ∈ i.operands, w.isInstrOrArg = true → ix w ≠ k) :
    BitVector.test (liveBefore ix i S) k = false := by
  have hclear : BitVector.test (clearOwnBit ix i S) k = false := by
    rw [test_clearOwnBit]
    split
    · rfl
    · exact hS
  unfold liveBefore
  split
  · exact hclear
  · next hk =>
    rw [Bool.eq_false_iff]
    intro hset
    rw [test_setOperandBits] at hset
    rcases hset with hset | ⟨w, hw, hwt, hwk, -⟩
    · rw [hclear] at hset
      cases hset
    · exact hops hk w hw hwt hwk

theorem test_liveWalk_false (ix : Value → Nat) (rev : List Instruction) (S : BitVector) (k : Nat)
    (hS : BitVector.test S k = false)
    (hops : ∀ i ∈ rev, i.kind ≠ InstKind.phi →
      ∀ w ∈ i.operands, w.isInstrOrArg = true → ix w ≠ k) :
    BitVector.test (liveWalk ix rev S) k = false := by
  induction rev generalizing S with
  | nil => exact hS
  | cons i rest ih =>
    have hstep : liveWalk ix (i :: rest) S = liveWalk ix rest (liveBefore ix i S) := by
      simp [liveWalk]
    rw [hstep]
    apply ih
    · exact test_liveBefore_false ix i S k hS (hops i (List.mem_cons_self _ _))
    · intro j hj
      exact hops j (List.mem_cons_of_mem _ hj)

/-- The overlay only grows in a turn of the loop. -/
theorem transferInst_overlay {s s1 : Live} {S X : BitVector} {i : Instruction}
    (h : transferInst s S i = .ok (X, s1)) (blk : Nat) (e : BitVector)
    (he : s.neighbourSpecificValues blk = some e) :
    ∃ e1, s1.neighbourSpecificValues blk = some e1 ∧ e1.length = e.length ∧
      ∀ k, BitVector.test e k = true → BitVector.test e1 k = true := by
  obtain ⟨old, S1, idx1, -, -, hrest⟩ := transferInst_inv h
  rcases hrest with ⟨-, idx2, -, rfl⟩ | ⟨-, nsv, idx2, hinc, -, rfl⟩
  · exact ⟨e, he, rfl, fun _ hk => hk⟩
  · exact (addIncoming_ok hinc).2.1 blk e he

theorem transferLoop_overlay {rev : List Instruction} {s s1 : Live} {S r : BitVector}
    (h : transferLoop rev s S = .ok (r, s1)) (blk : Nat) (e : BitVector)
    (he : s.neighbourSpecificValues blk = some e) :
    ∃ e1, s1.neighbourSpecificValues blk = some e1 ∧ e1.length = e.length ∧
      ∀ k, BitVector.test e k = true → BitVector.test e1 k = true := by
  induction rev generalizing s S e with
  | nil =>
    simp only [transferLoop] at h
    injection h with h
    injection h with h1 h2
    subst h1 h2
    exact ⟨e, he, rfl, fun _ hk => hk⟩
  | cons i rest ih =>
    unfold transferLoop at h
    split at h
    · cases h
    · next X sX hX =>
      obtain ⟨e0, he0, hl0, hm0⟩ := transferInst_overlay hX blk e he
      obtain ⟨e1, he1, hl1, hm1⟩ := ih h e0 he0
      exact ⟨e1, he1, hl1.trans hl0, fun k hk => hm1 k (hm0 k hk)⟩

/-- C2. Phi isolation: let `v` be an instruction or argument whose bit is
clear in `OUT[b]`, which is not an operand of any non-phi instruction of `b`
and whose bit position is that of no other such operand (the index map is
injective). After `transferFn(b)` the bit of `v` is clear in the returned IN
and in every per-instruction set of `b`, and for every phi-node of `b` with an
incoming pair `(v, pred)` the bit of `v` is set in the overlay entry of
`pred`. -/
theorem phi_isolation (s s1 : Live) (bb : BasicBlock) (outBB r : BitVector) (v : Value)
    (hnd : (bb.insts.map Instruction.id).Nodup)
    (hout : s.out bb.id = some outBB) (h : transferFn s bb = .ok (r, s1))
    (htracked : v.isInstrOrArg = true)
    (hclear : BitVector.test outBB (bitIndex s.valueToBitVectorIndex v) = false)
    (hnotop : ∀ i ∈ bb.insts, i.kind ≠ InstKind.phi → v ∉ i.operands)
    (hshare : ∀ i ∈ bb.insts, i.kind ≠ InstKind.phi → ∀ w ∈ i.operands,
      w.isInstrOrArg = true →
      bitIndex s.valueToBitVectorIndex w = bitIndex s.valueToBitVectorIndex v → w = v) :
    BitVector.test r (bitIndex s.valueToBitVectorIndex v) = false ∧
    (∀ i ∈ bb.insts, ∃ X, s1.instrInSet i.id = some X ∧
      BitVector.test X (bitIndex s.valueToBitVectorIndex v) = false) ∧
    (∀ i ∈ bb.insts, i.kind = InstKind.phi → ∀ pred, (v, pred) ∈ i.incoming →
      ∃ e, s1.neighbourSpecificValues pred = some e ∧
        BitVector.test e (bitIndex s.valueToBitVectorIndex v) = true) := by
  obtain ⟨outBB1, hout1, -, hloop⟩ := transferFn_inv h
  rw [hout] at hout1
  injection hout1 with hout1
  subst hout1
  have hndr : (bb.insts.reverse.map Instruction.id).Nodup := by
    rw [List.map_reverse]
    exact List.nodup_reverse.2 hnd
  have hne : ∀ i ∈ bb.insts, i.kind ≠ InstKind.phi → ∀ w ∈ i.operands,
      w.isInstrOrArg = true →
      bitIndex s.valueToBitVectorIndex w ≠ bitIndex s.valueToBitVectorIndex v := by
    intro i hi hk w hw hwt heq
    have := hshare i hi hk w hw hwt heq
    subst this
    exact hnotop i hi hk hw
  refine ⟨?_, ?_, ?_⟩
  · rw [(transferLoop_ok hloop).1]
    apply test_liveWalk_false _ _ _ _ hclear
    intro i hi
    exact hne i (List.mem_reverse.1 hi)
  · intro i hi
    obtain ⟨k, hk, hki⟩ := List.getElem_of_mem (List.mem_reverse.2 hi)
    have hset := transferLoop_instrInSet hloop hndr k hk
    rw [hki] at hset
    refine ⟨_, hset, ?_⟩
    apply test_liveWalk_false _ _ _ _ hclear
    intro j hj
    exact hne j (List.mem_reverse.1 (List.mem_of_mem_take hj))
  · intro i hi hphi pred hpair
    obtain ⟨l1, l2, S0, s0, X, sX, -, h1, hX, h2⟩ :=
      transferLoop_at hloop i (List.mem_reverse.2 hi)
    obtain ⟨old, S1, idx1, -, hkill, hrest⟩ := transferInst_inv hX
    rcases hrest with ⟨hk, -⟩ | ⟨-, nsv, idx2, hinc, -, hsX⟩
    · exact absurd hphi hk
    · obtain ⟨-, -, -, a4⟩ := addIncoming_ok hinc
      obtain ⟨e0, he0, ht0⟩ := a4 (v, pred) hpair htracked
      rw [(killDefinition_ok hkill).2.1, (transferLoop_ok h1).2.1] at ht0
      have he0X : sX.neighbourSpecificValues pred = some e0 := by
        rw [hsX]
        exact he0
      obtain ⟨e1, he1, -, hm1⟩ := transferLoop_overlay h2 pred e0 he0X
      exact ⟨e1, he1, hm1 _ ht0⟩

/-- Witness of C2 on the diamond: `x` is bit 2 and `y` is bit 4; neither is in
`IN[Merge]`, `x` is in the overlay of `L` and `y` in the overlay of `R`. -/
theorem phi_isolation_witness :
    ∃ r s1, transferFn diamondState mergeBlock = .ok (r, s1) ∧
      BitVector.test r 2 = false ∧ BitVector.test r 4 = false ∧
      (∃ e, s1.neighbourSpecificValues 1 = some e ∧ BitVector.test e 2 = true) ∧
      (∃ e, s1.neighbourSpecificValues 2 = some e ∧ BitVector.test e 4 = true) := by
  obtain ⟨⟨r, s1⟩, h⟩ :=
    exists_of_isOk (x := transferFn diamondState mergeBlock) (by decide)
  have hout : diamondState.out mergeBlock.id = some (BitVector.create 8 false) := by decide
  have hx := phi_isolation diamondState s1 mergeBlock _ r (Value.instruction 1) (by decide)
    hout h (by decide) (by decide) (by decide) (by decide)
  have hy := phi_isolation diamondState s1 mergeBlock _ r (Value.instruction 3) (by decide)
    hout h (by decide) (by decide) (by decide) (by decide)
  have ex : bitIndex diamondState.valueToBitVectorIndex (Value.instruction 1) = 2 := by decide
  have ey : bitIndex diamondState.valueToBitVectorIndex (Value.instruction 3) = 4 := by decide
  rw [ex] at hx
  rw [ey] at hy
  refine ⟨r, s1, h, hx.1, hy.1, ?_, ?_⟩
  · exact hx.2.2 _ (List.mem_cons_self _ _) rfl 1 (by decide)
  · exact hy.2.2 _ (List.mem_cons_self _ _) rfl 2 (by decide)

/-! ### Monotonicity of the backward walk -/

theorem test_liveBefore (ix : Value → Nat) (i : Instruction) (S : BitVector) (k : Nat) :
    BitVector.test (liveBefore ix i S) k = true ↔
      (i.kind ≠ InstKind.phi ∧
        ∃ v ∈ i.operands, v.isInstrOrArg = true ∧ ix v = k ∧ k < S.length) ∨
      (BitVector.test S k = true ∧ ¬ (i.kind ≠ InstKind.terminator ∧ ix i.toValue = k)) := by
  have hclear : BitVector.test (clearOwnBit ix i S) k = true ↔
      (BitVector.test S k = true ∧ ¬ (i.kind ≠ InstKind.terminator ∧ ix i.toValue = k)) := by
    rw [test_clearOwnBit]
    by_cases hc : i.kind ≠ InstKind.terminator ∧ ix i.toValue = k
    · simp [hc]
    · simp [hc]
  unfold liveBefore
  by_cases hk : i.kind = InstKind.phi
  · simp only [hk, if_true, ne_eq, not_true_eq_false, false_and, false_or]
    rw [← hk]
    exact hclear
  · simp only [hk, if_false, ne_eq, not_false_eq_true, true_and]
    rw [test_setOperandBits, hclear, length_clearOwnBit]
    exact Or.comm

theorem liveBefore_mono (ix : Value → Nat) (i : Instruction) {S T : BitVector}
    (h : BitVector.Subset S T) : BitVector.Subset (liveBefore ix i S) (liveBefore ix i T) := by
  refine ⟨by rw [length_liveBefore, length_liveBefore, h.1], ?_⟩
  intro k hk
  rw [test_liveBefore] at hk ⊢
  rcases hk with ⟨hp, v, hv, hvt, hvk, hlt⟩ | ⟨hS, hn⟩
  · exact Or.inl ⟨hp, v, hv, hvt, hvk, h.1 ▸ hlt⟩
  · exact Or.inr ⟨h.2 k hS, hn⟩

theorem liveWalk_mono (ix : Value → Nat) (rev : List Instruction) {S T : BitVector}
    (h : BitVector.Subset S T) : BitVector.Subset (liveWalk ix rev S) (liveWalk ix rev T) := by
  induction rev generalizing S T with
  | nil => exact h
  | cons i rest ih =>
    have e1 : liveWalk ix (i :: rest) S = liveWalk ix rest (liveBefore ix i S) := by
      simp [liveWalk]
    have e2 : liveWalk ix (i :: rest) T = liveWalk ix rest (liveBefore ix i T) := by
      simp [liveWalk]
    rw [e1, e2]
    exact ih (liveBefore_mono ix i h)

theorem blockIn_mono (ix : Value → Nat) (b : BasicBlock) {S T : BitVector}
    (h : BitVector.Subset S T) : BitVector.Subset (blockIn ix b S) (blockIn ix b T) :=
  liveWalk_mono ix b.insts.reverse h

theorem length_blockIn (ix : Value → Nat) (b : BasicBlock) (S : BitVector) :
    (blockIn ix b S).length = S.length :=
  length_liveWalk ix b.insts.reverse S

/-! ### `transferFn` returns on tables that fit the function -/

theorem killDefinition_succeeds (i : Instruction) (S : BitVector) (idx : ValueMap Value Nat)
    (h : bitIndex idx i.toValue < S.length) :
    ∃ S1 idx1, killDefinition i S idx = .ok (S1, idx1) := by
  unfold killDefinition
  split
  · have : BitVector.assign S (ValueMap.subscript idx i.toValue).1 false =
        .ok (S.set (ValueMap.subscript idx i.toValue).1 false) := assign_of_lt false h
    rw [this]
    exact ⟨_, _, rfl⟩
  · exact ⟨_, _, rfl⟩

theorem addOperands_succeeds (ops : List Value) (S : BitVector) (idx : ValueMap Value Nat)
    (h : ∀ v ∈ ops, v.isInstrOrArg = true → bitIndex idx v < S.length) :
    ∃ S2 idx2, addOperands ops S idx = .ok (S2, idx2) := by
  induction ops generalizing S idx with
  | nil => exact ⟨_, _, rfl⟩
  | cons v rest ih =>
    unfold addOperands
    by_cases hv : v.isInstrOrArg = true
    · rw [if_pos hv]
      have hlt := h v (List.mem_cons_self _ _) hv
      have : BitVector.assign S (ValueMap.subscript idx v).1 true =
          .ok (S.set (ValueMap.subscript idx v).1 true) := assign_of_lt true hlt
      rw [this]
      apply ih
      intro w hw hwt
      rw [bitIndex_subscript, List.length_set]
      exact h w (List.mem_cons_of_mem _ hw) hwt
    · rw [if_neg hv]
      apply ih
      intro w hw hwt
      exact h w (List.mem_cons_of_mem _ hw) hwt

theorem addIncoming_succeeds (ds : Nat) (inc : List (Value × Nat)) (nsv : ValueMap Nat BitVector)
    (idx : ValueMap Value Nat)
    (h : ∀ q ∈ inc, q.1.isInstrOrArg = true → bitIndex idx q.1 < ds)
    (hlen : ∀ blk e, nsv blk = some e → e.length = ds) :
    ∃ nsv1 idx1, addIncoming ds inc nsv idx = .ok (nsv1, idx1) := by
  induction inc generalizing nsv idx with
  | nil => exact ⟨_, _, rfl⟩
  | cons q rest ih =>
    obtain ⟨val, blk0⟩ := q
    unfold addIncoming
    by_cases hv : val.isInstrOrArg = true
    · rw [if_pos hv]
      simp only []
      have hentry : (match nsv blk0 with
          | some bv => bv
          | none => BitVector.create ds false).length = ds := by
        cases hn : nsv blk0 with
        | some bv => exact hlen blk0 bv hn
        | none => simp [BitVector.create]
      have hlt : (ValueMap.subscript idx val).1 < (match nsv blk0 with
          | some bv => bv
          | none => BitVector.create ds false).length := by
        rw [hentry]
        exact h (val, blk0) (List.mem_cons_self _ _) hv
      rw [assign_of_lt true hlt]
      simp only []
      apply ih
      · intro w hw hwt
        rw [bitIndex_subscript]
        exact h w (List.mem_cons_of_mem _ hw) hwt
      · intro blk e he
        by_cases hb : blk = blk0
        · subst hb
          simp only [ValueMap.assign, if_true, Option.some.injEq] at he
          rw [← he, List.length_set, hentry]
        · simp only [ValueMap.assign, hb, if_false] at he
          exact hlen blk e he
    · rw [if_neg hv]
      apply ih
      · intro w hw hwt
        exact h w (List.mem_cons_of_mem _ hw) hwt
      · exact hlen

theorem transferInst_ready {s s1 : Live} {S X : BitVector} {i : Instruction} {F : Function}
    (h : transferInst s S i = .ok (X, s1)) (hr : s.Ready F) : s1.Ready F := by
  obtain ⟨-, b2, b3, -, -, b6, -, -⟩ := transferInst_ok h
  refine ⟨?_, ?_, ?_, ?_, ?_⟩
  · intro j hj
    rw [b3]
    by_cases hji : j.id = i.id
    · exact ⟨X, by simp [ValueMap.assign, hji]⟩
    · obtain ⟨Y, hY⟩ := hr.entries j hj
      exact ⟨Y, by simp [ValueMap.assign, hji, hY]⟩
  · intro j hj
    rw [b2, b6]
    exact hr.self_lt j hj
  · intro j hj hk v hv hvt
    rw [b2, b6]
    exact hr.operands_lt j hj hk v hv hvt
  · intro j hj hk q hq hqt
    rw [b2, b6]
    exact hr.incoming_lt j hj hk q hq hqt
  · intro blk e1 he1
    rw [b6]
    obtain ⟨old, S1, idx1, -, -, hrest⟩ := transferInst_inv h
    rcases hrest with ⟨-, idx2, -, hs1⟩ | ⟨-, nsv, idx2, hinc, -, hs1⟩
    · rw [hs1] at he1
      exact hr.overlay_len blk e1 he1
    · rw [hs1] at he1
      rcases (addIncoming_ok hinc).2.2.1 blk e1 he1 with ⟨e, he, hlen⟩ | ⟨-, hlen⟩
      · rw [hlen]
        exact hr.overlay_len blk e he
      · exact hlen

theorem transferInst_succeeds {s : Live} {F : Function} (hr : s.Ready F) (i : Instruction)
    (hi : i ∈ F.instructions) (S : BitVector) (hS : S.length = s.domainSize) :
    ∃ X s1, transferInst s S i = .ok (X, s1) := by
  obtain ⟨old, hold⟩ := hr.entries i hi
  obtain ⟨S1, idx1, hkill⟩ :=
    killDefinition_succeeds i S s.valueToBitVectorIndex (hS ▸ hr.self_lt i hi)
  obtain ⟨k1, k2, -⟩ := killDefinition_ok hkill
  have hS1 : S1.length = s.domainSize := by rw [k1, length_clearOwnBit, hS]
  unfold transferInst
  rw [hold]
  simp only [hkill]
  by_cases hk : i.kind = InstKind.phi
  · rw [if_neg (by simpa using hk)]
    obtain ⟨nsv, idx2, hinc⟩ :=
      addIncoming_succeeds s.domainSize i.incoming s.neighbourSpecificValues idx1
        (by
          intro q hq hqt
          rw [k2]
          exact hr.incoming_lt i hi hk q hq hqt)
        hr.overlay_len
    rw [hinc]
    exact ⟨_, _, rfl⟩
  · rw [if_pos hk]
    obtain ⟨S2, idx2, hops⟩ :=
      addOperands_succeeds i.operands S1 idx1
        (by
          intro v hv hvt
          rw [k2, hS1]
          exact hr.operands_lt i hi hk v hv hvt)
    rw [hops]
    exact ⟨_, _, rfl⟩

theorem transferLoop_ready {rev : List Instruction} {s s1 : Live} {S r : BitVector}
    {F : Function} (h : transferLoop rev s S = .ok (r, s1)) (hr : s.Ready F) :
    s1.Ready F := by
  induction rev generalizing s S with
  | nil =>
    simp only [transferLoop] at h
    injection h with h
    injection h with h1 h2
    subst h2
    exact hr
  | cons i rest ih =>
    unfold transferLoop at h
    split at h
    · cases h
    · next X sX hX => exact ih h (transferInst_ready hX hr)

theorem transferLoop_succeeds {F : Function} (rev : List Instruction)
    (hrev : ∀ i ∈ rev, i ∈ F.instructions) (s : Live) (hr : s.Ready F) (S : BitVector)
    (hS : S.length = s.domainSize) :
    ∃ r s1, transferLoop rev s S = .ok (r, s1) := by
  induction rev generalizing s S with
  | nil => exact ⟨_, _, rfl⟩
  | cons i rest ih =>
    obtain ⟨X, sX, hX⟩ := transferInst_succeeds hr i (hrev i (List.mem_cons_self _ _)) S hS
    unfold transferLoop
    rw [hX]
    simp only []
    obtain ⟨b1, -, -, -, -, b6, -, -⟩ := transferInst_ok hX
    apply ih (fun j hj => hrev j (List.mem_cons_of_mem _ hj)) sX (transferInst_ready hX hr)
    rw [b1, length_liveBefore, b6, hS]

theorem mem_instructions {F : Function} {b : BasicBlock} (hb : b ∈ F.blocks) {i : Instruction}
    (hi : i ∈ b.insts) : i ∈ F.instructions := by
  simp only [Function.instructions, List.mem_flatMap]
  exact ⟨b, hb, hi⟩

/-- On tables that fit the function, `transferFn` returns on every non-empty
block whose `OUT` has length `domainSize`; the result is the backward walk
from `OUT`, and the tables fit the function afterwards. -/
theorem transferFn_succeeds {F : Function} {s : Live} (hr : s.Ready F) (b : BasicBlock)
    (hb : b ∈ F.blocks) (hne : b.insts ≠ []) (O : BitVector) (hO : s.out b.id = some O)
    (hlen : O.length = s.domainSize) :
    ∃ s1, transferFn s b = .ok (blockIn (bitIndex s.valueToBitVectorIndex) b O, s1) ∧
      s1.Ready F ∧
      bitIndex s1.valueToBitVectorIndex = bitIndex s.valueToBitVectorIndex ∧
      s1.out = s.out ∧ s1.in_ = s.in_ ∧ s1.domainSize = s.domainSize := by
  obtain ⟨r, s1, hloop⟩ := transferLoop_succeeds (F := F) b.insts.reverse
    (fun i hi => mem_instructions hb (List.mem_reverse.1 hi)) s hr O hlen
  obtain ⟨a1, a2, a3, a4, a5, -⟩ := transferLoop_ok hloop
  refine ⟨s1, ?_, transferLoop_ready hloop hr, a2, a3, a4, a5⟩
  unfold transferFn
  rw [hO]
  simp only []
  cases hins : b.insts with
  | nil => exact absurd hins hne
  | cons i rest =>
    simp only []
    rw [← hins, hloop, a1]
    rfl

/-! ### The index map -/

theorem indexValues_append (xs ys : List Value) (s : Live) (index : Nat) :
    indexValues (xs ++ ys) s index =
      indexValues ys (indexValues xs s index).1 (indexValues xs s index).2 := by
  induction xs generalizing s index with
  | nil => rfl
  | cons v rest ih => simpa [indexValues] using ih (pushValue s v index) (index + 1)

theorem indexValues_counter (vs : List Value) (s : Live) (index : Nat) :
    (indexValues vs s index).2 = index + vs.length := by
  induction vs generalizing s index with
  | nil => rfl
  | cons v rest ih => simp [indexValues, ih]; omega

theorem indexValues_lists (vs : List Value) (s : Live) (index : Nat) :
    (indexValues vs s index).1.domain = s.domain ++ vs ∧
    (indexValues vs s index).1.bvIndexToInstrArg = s.bvIndexToInstrArg ++ vs ∧
    (indexValues vs s index).1.instrInSet = s.instrInSet ∧
    (indexValues vs s index).1.domainSize = s.domainSize ∧
    (indexValues vs s index).1.in_ = s.in_ ∧
    (indexValues vs s index).1.out = s.out ∧
    (indexValues vs s index).1.neighbourSpecificValues = s.neighbourSpecificValues := by
  induction vs generalizing s index with
  | nil => simp [indexValues]
  | cons v rest ih =>
    have h := ih (pushValue s v index) (index + 1)
    simp only [indexValues]
    simpa [pushValue] using h

theorem indexValues_map_of_not_mem (vs : List Value) (s : Live) (index : Nat) (x : Value)
    (hx : x ∉ vs) :
    (indexValues vs s index).1.valueToBitVectorIndex x = s.valueToBitVectorIndex x := by
  induction vs generalizing s index with
  | nil => rfl
  | cons v rest ih =>
    simp only [List.mem_cons, not_or] at hx
    rw [indexValues, ih _ _ hx.2]
    simp [pushValue, ValueMap.assign, hx.1]

theorem indexValues_map_of_mem (vs : List Value) (s : Live) (index : Nat) (x : Value)
    (hnd : vs.Nodup) (hx : x ∈ vs) :
    (indexValues vs s index).1.valueToBitVectorIndex x = some (index + vs.indexOf x) := by
  induction vs generalizing s index with
  | nil => simp at hx
  | cons v rest ih =>
    rw [List.nodup_cons] at hnd
    by_cases hxv : x = v
    · subst hxv
      rw [indexValues, indexValues_map_of_not_mem _ _ _ _ hnd.1]
      simp [pushValue, ValueMap.assign]
    · have hxr : x ∈ rest := by
        rcases List.mem_cons.1 hx with h | h
        · exact absurd h hxv
        · exact h
      rw [indexValues, ih _ _ hnd.2 hxr, List.indexOf_cons_ne _ (Ne.symm hxv)]
      congr 1
      omega

theorem indexValues_map_isSome_of_mem (vs : List Value) (s : Live) (index : Nat) (x : Value)
    (hx : x ∈ vs) : ∃ i, (indexValues vs s index).1.valueToBitVectorIndex x = some i := by
  induction vs generalizing s index with
  | nil => simp at hx
  | cons v rest ih =>
    by_cases hxr : x ∈ rest
    · exact ih _ _ hxr
    · have hxv : x = v := by
        rcases List.mem_cons.1 hx with h | h
        · exact h
        · exact absurd h hxr
      refine ⟨index, ?_⟩
      rw [indexValues, indexValues_map_of_not_mem _ _ _ _ hxr]
      simp [pushValue, ValueMap.assign, hxv]

/-- The values of a function in index order: arguments, then instructions. -/
theorem buildIndex_eq (s : Live) (F : Function) :
    buildIndex s F =
      { (indexValues (F.args.map Value.argument ++ F.instructions.map Instruction.toValue)
          { s with domain := [], bvIndexToInstrArg := [],
                   valueToBitVectorIndex := ValueMap.empty,
                   instrInSet := ValueMap.empty } 0).1 with
        domainSize := F.args.length + F.instructions.length } := by
  simp only [buildIndex, indexValues_append]
  congr 1
  simp [(indexValues_lists _ _ _).1]

/-- The values of a function in the order `runOnFunction` meets them. -/
theorem values_nodup (F : Function) (hargs : F.args.Nodup)
    (hinst : (F.instructions.map Instruction.id).Nodup) :
    (F.args.map Value.argument ++ F.instructions.map Instruction.toValue).Nodup := by
  rw [List.nodup_append]
  refine ⟨hargs.map ?_, ?_, ?_⟩
  · intro a b h
    injection h
  · have h : F.instructions.map Instruction.toValue =
        (F.instructions.map Instruction.id).map Value.instruction := by
      simp [List.map_map, Function.comp_def, Instruction.toValue]
    rw [h]
    refine hinst.map ?_
    intro a b h
    injection h
  · intro x hx hy
    simp only [List.mem_map] at hx hy
    obtain ⟨a, -, rfl⟩ := hx
    obtain ⟨i, -, hi⟩ := hy
    simp [Instruction.toValue] at hi

theorem buildIndex_lookup (s : Live) (F : Function) (hargs : F.args.Nodup)
    (hinst : (F.instructions.map Instruction.id).Nodup) (x : Value) :
    (buildIndex s F).valueToBitVectorIndex x =
      if x ∈ F.args.map Value.argument ++ F.instructions.map Instruction.toValue then
        some ((F.args.map Value.argument ++ F.instructions.map Instruction.toValue).indexOf x)
      else none := by
  rw [buildIndex_eq]
  split
  · next hx =>
    simp only []
    rw [indexValues_map_of_mem _ _ _ _ (values_nodup F hargs hinst) hx]
    simp
  · next hx =>
    simp only []
    rw [indexValues_map_of_not_mem _ _ _ _ hx]
    rfl

theorem buildIndex_bvIndexToInstrArg (s : Live) (F : Function) :
    (buildIndex s F).bvIndexToInstrArg =
      F.args.map Value.argument ++ F.instructions.map Instruction.toValue := by
  rw [buildIndex_eq]
  simp [(indexValues_lists _ _ _).2.1]

theorem buildIndex_domainSize (s : Live) (F : Function) :
    (buildIndex s F).domainSize = F.args.length + F.instructions.length := by
  rw [buildIndex_eq]

theorem buildIndex_getElem (s : Live) (F : Function) (hargs : F.args.Nodup)
    (hinst : (F.instructions.map Instruction.id).Nodup) (p : Nat)
    (hp : p < (F.args.map Value.argument ++ F.instructions.map Instruction.toValue).length) :
    (buildIndex s F).valueToBitVectorIndex
        ((F.args.map Value.argument ++ F.instructions.map Instruction.toValue)[p]) = some p := by
  rw [buildIndex_lookup s F hargs hinst, if_pos (List.getElem_mem _),
    List.indexOf_getElem (values_nodup F hargs hinst)]

/-- C5. Index map construction: after the index-building part of
`runOnFunction` the k-th argument has index k, the j-th instruction has index
m + j, `domainSize` is m + n, the map is injective, and `bvIndexToInstrArg`
is its inverse in both directions. The arguments and the instructions of a
function are distinct objects. -/
theorem buildIndex_bijection (s : Live) (F : Function) (hargs : F.args.Nodup)
    (hinst : (F.instructions.map Instruction.id).Nodup) :
    (∀ k (hk : k < F.args.length),
        (buildIndex s F).valueToBitVectorIndex (Value.argument F.args[k]) = some k) ∧
    (∀ j (hj : j < F.instructions.length),
        (buildIndex s F).valueToBitVectorIndex F.instructions[j].toValue
          = some (F.args.length + j)) ∧
    (buildIndex s F).domainSize = F.args.length + F.instructions.length ∧
    (∀ v w i, (buildIndex s F).valueToBitVectorIndex v = some i →
        (buildIndex s F).valueToBitVectorIndex w = some i → v = w) ∧
    (∀ v i, (buildIndex s F).valueToBitVectorIndex v = some i →
        (buildIndex s F).bvIndexToInstrArg[i]? = some v) ∧
    (∀ i, i < (buildIndex s F).domainSize →
        ∃ v, (buildIndex s F).bvIndexToInstrArg[i]? = some v ∧
          (buildIndex s F).valueToBitVectorIndex v = some i) := by
  refine ⟨?_, ?_, buildIndex_domainSize s F, ?_, ?_, ?_⟩
  · intro k hk
    have hp : k < (F.args.map Value.argument ++
        F.instructions.map Instruction.toValue).length := by
      simp; omega
    have h := buildIndex_getElem s F hargs hinst k hp
    rwa [List.getElem_append_left (by simpa using hk), List.getElem_map] at h
  · intro j hj
    have hp : F.args.length + j < (F.args.map Value.argument ++
        F.instructions.map Instruction.toValue).length := by
      simp; omega
    have h := buildIndex_getElem s F hargs hinst (F.args.length + j) hp
    rw [List.getElem_append_right (by simp)] at h
    simpa using h
  · intro v w i hv hw
    rw [buildIndex_lookup s F hargs hinst] at hv hw
    split at hv
    · next hvm =>
      split at hw
      · next hwm =>
        simp only [Option.some.injEq] at hv hw
        exact (List.indexOf_inj hvm hwm).1 (hv.trans hw.symm)
      · simp at hw
    · simp at hv
  · intro v i hv
    rw [buildIndex_lookup s F hargs hinst] at hv
    rw [buildIndex_bvIndexToInstrArg]
    split at hv
    · next hvm =>
      simp only [Option.some.injEq] at hv
      rw [← hv]
      exact List.getElem?_indexOf hvm
    · simp at hv
  · intro i hi
    rw [buildIndex_domainSize] at hi
    have hp : i < (F.args.map Value.argument ++
        F.instructions.map Instruction.toValue).length := by
      simp; omega
    refine ⟨(F.args.map Value.argument ++ F.instructions.map Instruction.toValue)[i], ?_,
      buildIndex_getElem s F hargs hinst i hp⟩
    rw [buildIndex_bvIndexToInstrArg]
    exact List.getElem?_eq_getElem hp

/-- Witness of C5 on the function `t1 = add a, b; ret t1`. -/
theorem buildIndex_bijection_witness :
    (buildIndex (Live.init 0) straightLine).valueToBitVectorIndex (Value.argument 1) = some 1 ∧
    (buildIndex (Live.init 0) straightLine).valueToBitVectorIndex retInst.toValue = some 3 ∧
    (buildIndex (Live.init 0) straightLine).domainSize = 4 := by
  have h := buildIndex_bijection (Live.init 0) straightLine (by decide) (by decide)
  exact ⟨h.1 1 (by decide), h.2.1 1 (by decide), h.2.2.1⟩

/-- C6, as stated, fails on `t1 = add a, b; ret t1`: the `ret`, which produces
no result, has index 3 and `domainSize` is 4, so it is not true that every
instruction without a result is left out and that `domainSize` counts the
arguments and the result-producing instructions only. -/
theorem domain_excludes_resultless_false :
    retInst.hasResult = false ∧
    (buildIndex (Live.init 0) straightLine).valueToBitVectorIndex retInst.toValue = some 3 ∧
    (buildIndex (Live.init 0) straightLine).domainSize = 4 ∧
    ¬ ((∀ i ∈ straightLine.instructions, i.hasResult = false →
          (buildIndex (Live.init 0) straightLine).valueToBitVectorIndex i.toValue = none) ∧
       (buildIndex (Live.init 0) straightLine).domainSize
          = straightLine.args.length
            + (straightLine.instructions.filter (fun i => i.hasResult)).length) := by
  decide

/-- C6, amended. The values that receive a Domain index are exactly the
function's arguments together with all of its instructions, result-producing
or not, and `domainSize` is the number of arguments plus the number of
instructions. -/
theorem domain_is_args_and_instructions (s : Live) (F : Function) :
    (∀ v, (∃ i, (buildIndex s F).valueToBitVectorIndex v = some i) ↔
        ((∃ a ∈ F.args, v = Value.argument a) ∨ (∃ i ∈ F.instructions, v = i.toValue))) ∧
    (buildIndex s F).domainSize = F.args.length + F.instructions.length := by
  refine ⟨?_, buildIndex_domainSize s F⟩
  intro v
  rw [buildIndex_eq]
  simp only []
  by_cases hv : v ∈ F.args.map Value.argument ++ F.instructions.map Instruction.toValue
  · constructor
    · intro _
      simp only [List.mem_append, List.mem_map] at hv
      rcases hv with ⟨a, ha, rfl⟩ | ⟨i, hi, rfl⟩
      · exact Or.inl ⟨a, ha, rfl⟩
      · exact Or.inr ⟨i, hi, rfl⟩
    · intro _
      exact indexValues_map_isSome_of_mem _ _ _ _ hv
  · rw [indexValues_map_of_not_mem _ _ _ _ hv]
    constructor
    · intro h
      simp [ValueMap.empty] at h
    · intro h
      exfalso
      apply hv
      simp only [List.mem_append, List.mem_map]
      rcases h with ⟨a, ha, rfl⟩ | ⟨i, hi, rfl⟩
      · exact Or.inl ⟨a, ha, rfl⟩
      · exact Or.inr ⟨i, hi, rfl⟩

theorem buildIndex_bitIndex_lt (s : Live) (F : Function) (hargs : F.args.Nodup)
    (hinst : (F.instructions.map Instruction.id).Nodup) (v : Value) (hv : v ∈ F.values) :
    bitIndex (buildIndex s F).valueToBitVectorIndex v < (buildIndex s F).domainSize := by
  have hv1 : v ∈ F.args.map Value.argument ++ F.instructions.map Instruction.toValue := hv
  have hl := buildIndex_lookup s F hargs hinst v
  rw [if_pos hv1] at hl
  rw [bitIndex_of_some hl, buildIndex_domainSize]
  have := List.indexOf_lt_length.2 hv1
  simpa using this

theorem initInstrInSet_fields (l : List Instruction) (s : Live) :
    (initInstrInSet l s).valueToBitVectorIndex = s.valueToBitVectorIndex ∧
    (initInstrInSet l s).domainSize = s.domainSize ∧
    (initInstrInSet l s).bvIndexToInstrArg = s.bvIndexToInstrArg ∧
    (∀ i ∈ l, ∃ X, (initInstrInSet l s).instrInSet i.id = some X) ∧
    (∀ x X, s.instrInSet x = some X → ∃ Y, (initInstrInSet l s).instrInSet x = some Y) := by
  induction l generalizing s with
  | nil =>
    refine ⟨rfl, rfl, rfl, by simp, ?_⟩
    intro x X hx
    exact ⟨X, hx⟩
  | cons i rest ih =>
    obtain ⟨h1, h2, h3, h4, h5⟩ := ih
      { s with instrInSet :=
          ValueMap.assign s.instrInSet i.id (BitVector.create s.domainSize false) }
    refine ⟨h1, h2, h3, ?_, ?_⟩
    · intro j hj
      rcases List.mem_cons.1 hj with rfl | hj
      · exact h5 j.id (BitVector.create s.domainSize false) (by simp [ValueMap.assign])
      · exact h4 j hj
    · intro x X hx
      by_cases hxi : x = i.id
      · exact h5 x (BitVector.create s.domainSize false) (by simp [ValueMap.assign, hxi])
      · exact h5 x X (by simp [ValueMap.assign, hxi, hx])

/-- After the set-up part of `runOnFunction` the tables fit the function,
whatever the `IN`, `OUT` tables hold, once the overlay is empty. -/
theorem setup_ready (s0 : Live) (F : Function) (hF : F.WellFormed) (s : Live)
    (hidx : s.valueToBitVectorIndex = (buildIndex s0 F).valueToBitVectorIndex)
    (hsize : s.domainSize = (buildIndex s0 F).domainSize)
    (hent : ∀ i ∈ F.instructions, ∃ X, s.instrInSet i.id = some X)
    (hnsv : ∀ blk, s.neighbourSpecificValues blk = none) : s.Ready F := by
  refine ⟨hent, ?_, ?_, ?_, ?_⟩
  · intro i hi
    rw [hidx, hsize]
    apply buildIndex_bitIndex_lt s0 F hF.args_nodup hF.insts_nodup
    simp only [Function.values, List.mem_append, List.mem_map]
    exact Or.inr ⟨i, hi, rfl⟩
  · intro i hi hk v hv hvt
    rw [hidx, hsize]
    exact buildIndex_bitIndex_lt s0 F hF.args_nodup hF.insts_nodup v
      (hF.operands_mem i hi hk v hv hvt)
  · intro i hi hk q hq hqt
    rw [hidx, hsize]
    exact buildIndex_bitIndex_lt s0 F hF.args_nodup hF.insts_nodup q.1
      (hF.incoming_mem i hi hk q hq hqt)
  · intro blk e he
    rw [hnsv blk] at he
    cases he

/-! ### The worklist iteration -/

theorem engineInitBlock_fields (s : Live) (b : BasicBlock) :
    (engineInitBlock s b).valueToBitVectorIndex = s.valueToBitVectorIndex ∧
    (engineInitBlock s b).domainSize = s.domainSize ∧
    (engineInitBlock s b).instrInSet = s.instrInSet ∧
    (engineInitBlock s b).neighbourSpecificValues = s.neighbourSpecificValues ∧
    (engineInitBlock s b).in_ =
      ValueMap.assign s.in_ b.id (BitVector.create s.domainSize false) ∧
    (engineInitBlock s b).out =
      ValueMap.assign s.out b.id (BitVector.create s.domainSize false) := by
  unfold engineInitBlock
  cases b.succs with
  | nil =>
    refine ⟨rfl, rfl, rfl, rfl, rfl, ?_⟩
    funext x
    simp only [ValueMap.assign, setBoundaryCondition, initializeFlowValue]
    split <;> rfl
  | cons t rest => exact ⟨rfl, rfl, rfl, rfl, rfl, rfl⟩

theorem engineInit_fold (l : List BasicBlock) (s : Live) :
    (l.foldl engineInitBlock s).valueToBitVectorIndex = s.valueToBitVectorIndex ∧
    (l.foldl engineInitBlock s).domainSize = s.domainSize ∧
    (l.foldl engineInitBlock s).instrInSet = s.instrInSet ∧
    (l.foldl engineInitBlock s).neighbourSpecificValues = s.neighbourSpecificValues ∧
    (∀ x, (l.foldl engineInitBlock s).in_ x =
      if x ∈ l.map BasicBlock.id then some (BitVector.create s.domainSize false)
      else s.in_ x) ∧
    (∀ x, (l.foldl engineInitBlock s).out x =
      if x ∈ l.map BasicBlock.id then some (BitVector.create s.domainSize false)
      else s.out x) := by
  induction l generalizing s with
  | nil => simp
  | cons b rest ih =>
    obtain ⟨h1, h2, h3, h4, h5, h6⟩ := ih (engineInitBlock s b)
    obtain ⟨g1, g2, g3, g4, g5, g6⟩ := engineInitBlock_fields s b
    simp only [List.foldl_cons, List.map_cons, List.mem_cons]
    refine ⟨h1.trans g1, h2.trans g2, h3.trans g3, h4.trans g4, ?_, ?_⟩
    · intro x
      rw [h5 x, g2, g5]
      by_cases hx : x ∈ rest.map BasicBlock.id
      · simp [hx]
      · by_cases hxb : x = b.id
        · simp [hxb, ValueMap.assign]
        · simp [hx, hxb, ValueMap.assign]
    · intro x
      rw [h6 x, g2, g6]
      by_cases hx : x ∈ rest.map BasicBlock.id
      · simp [hx]
      · by_cases hxb : x = b.id
        · simp [hxb, ValueMap.assign]
        · simp [hx, hxb, ValueMap.assign]

theorem ready_congr {s s1 : Live} {F : Function} (hr : s.Ready F)
    (h1 : s1.valueToBitVectorIndex = s.valueToBitVectorIndex)
    (h2 : s1.domainSize = s.domainSize) (h3 : s1.instrInSet = s.instrInSet)
    (h4 : s1.neighbourSpecificValues = s.neighbourSpecificValues) : s1.Ready F := by
  refine ⟨?_, ?_, ?_, ?_, ?_⟩
  · rw [h3]
    exact hr.entries
  · rw [h1, h2]
    exact hr.self_lt
  · rw [h1, h2]
    exact hr.operands_lt
  · rw [h1, h2]
    exact hr.incoming_lt
  · rw [h2, h4]
    exact hr.overlay_len

theorem assign_same {K V : Type} [DecidableEq K] (m : ValueMap K V) (k : K) (v : V)
    (h : m k = some v) : ValueMap.assign m k v = m := by
  funext x
  unfold ValueMap.assign
  split
  · next hx => rw [hx, h]
  · rfl

theorem meetSuccessors_ok {s : Live} {succs : List Nat} {acc U : BitVector}
    (h : meetSuccessors s succs acc = .ok U) :
    U.length = acc.length ∧
    ∀ k, BitVector.test U k = true ↔
      (BitVector.test acc k = true ∨
        ∃ t ∈ succs, ∃ A, s.in_ t = some A ∧ BitVector.test A k = true) := by
  induction succs generalizing acc with
  | nil =>
    simp only [meetSuccessors] at h
    injection h with h
    subst h
    simp
  | cons t rest ih =>
    unfold meetSuccessors at h
    split at h
    · cases h
    · next inT hT =>
      split at h
      · next acc1 hacc =>
        unfold meetOp BitVector.unionInPlace at hacc
        split at hacc
        · next hl =>
          injection hacc with hacc
          obtain ⟨i1, i2⟩ := ih h
          have hlen1 : acc1.length = acc.length := by
            rw [← hacc]
            simp [List.length_zipWith, hl]
          refine ⟨i1.trans hlen1, ?_⟩
          intro k
          rw [i2 k, ← hacc, test_zipWith_or _ _ hl]
          simp only [Bool.or_eq_true, List.mem_cons, exists_eq_or_imp]
          constructor
          · rintro ((h1 | h1) | h1)
            · exact Or.inl h1
            · exact Or.inr (Or.inl ⟨inT, hT, h1⟩)
            · exact Or.inr (Or.inr h1)
          · rintro (h1 | ⟨A, hA, h1⟩ | h1)
            · exact Or.inl (Or.inl h1)
            · rw [hT] at hA
              injection hA with hA
              subst hA
              exact Or.inl (Or.inr h1)
            · exact Or.inr h1
        · cases hacc
      · cases h

theorem meetSuccessors_succeeds (s : Live) (succs : List Nat) (acc : BitVector)
    (h : ∀ t ∈ succs, ∃ A, s.in_ t = some A ∧ A.length = acc.length) :
    ∃ U, meetSuccessors s succs acc = .ok U := by
  induction succs generalizing acc with
  | nil => exact ⟨acc, rfl⟩
  | cons t rest ih =>
    obtain ⟨A, hA, hl⟩ := h t (List.mem_cons_self _ _)
    unfold meetSuccessors
    rw [hA]
    simp only [meetOp, BitVector.unionInPlace, hl, if_true]
    apply ih
    intro u hu
    obtain ⟨B, hB, hl2⟩ := h u (List.mem_cons_of_mem _ hu)
    exact ⟨B, hB, by simp [List.length_zipWith, hl, hl2]⟩

theorem mem_enqueue (worklist ps : List Nat) (x : Nat) :
    x ∈ enqueue worklist ps ↔ x ∈ worklist ∨ x ∈ ps := by
  induction ps generalizing worklist with
  | nil => simp [enqueue]
  | cons p rest ih =>
    rw [enqueue, ih]
    by_cases hp : p ∈ worklist
    · simp only [hp, if_true, List.mem_cons]
      constructor
      · rintro (h | h)
        · exact Or.inl h
        · exact Or.inr (Or.inr h)
      · rintro (h | h | h)
        · exact Or.inl h
        · exact Or.inl (h ▸ hp)
        · exact Or.inr h
    · simp only [hp, if_false, List.mem_append, List.mem_singleton, List.mem_cons]
      tauto

theorem nodup_enqueue (worklist ps : List Nat) (h : worklist.Nodup) :
    (enqueue worklist ps).Nodup := by
  induction ps generalizing worklist with
  | nil => exact h
  | cons p rest ih =>
    rw [enqueue]
    apply ih
    split
    · exact h
    · next hp =>
      rw [List.nodup_append]
      refine ⟨h, List.nodup_singleton p, ?_⟩
      intro x hx hx1
      rw [List.mem_singleton] at hx1
      exact hp (hx1 ▸ hx)

theorem mem_predecessors (F : Function) (b : Nat) (p : BasicBlock) (hp : p ∈ F.blocks)
    (hb : b ∈ p.succs) : p.id ∈ F.predecessors b := by
  simp only [Function.predecessors, List.mem_map, List.mem_filter, decide_eq_true_eq]
  exact ⟨p, ⟨hp, hb⟩, rfl⟩

theorem predecessors_subset (F : Function) (b : Nat) (x : Nat) (hx : x ∈ F.predecessors b) :
    x ∈ F.blocks.map BasicBlock.id := by
  simp only [Function.predecessors, List.mem_map, List.mem_filter, decide_eq_true_eq] at hx
  obtain ⟨p, ⟨hp, -⟩, rfl⟩ := hx
  exact List.mem_map.2 ⟨p, hp, rfl⟩

theorem block_eq_of_id {F : Function} (hF : F.WellFormed) {b c : BasicBlock}
    (hb : b ∈ F.blocks) (hc : c ∈ F.blocks) (h : b.id = c.id) : b = c :=
  List.inj_on_of_nodup_map hF.blocks_nodup hb hc h

theorem find_block {F : Function} (hF : F.WellFormed) (b : BasicBlock) (hb : b ∈ F.blocks) :
    F.blocks.find? (fun c => c.id == b.id) = some b := by
  cases hfind : F.blocks.find? (fun c => c.id == b.id) with
  | none =>
    rw [List.find?_eq_none] at hfind
    have := hfind b hb
    simp at this
  | some c =>
    have hc := List.mem_of_find?_eq_some hfind
    have hid := List.find?_some hfind
    simp only [beq_iff_eq] at hid
    rw [block_eq_of_id hF hc hb hid]

theorem mem_blocks_of_id {F : Function} {x : Nat} (hx : x ∈ F.blocks.map BasicBlock.id) :
    ∃ b ∈ F.blocks, b.id = x := by
  obtain ⟨b, hb, rfl⟩ := List.mem_map.1 hx
  exact ⟨b, hb, rfl⟩

/-- Step 3, the recomputation of `OUT[b]`: the new value is the union of the
`IN` sets of the successors. -/
theorem recomputeOut_spec {F : Function} {ix : Value → Nat} {D : Nat} {e : Engine}
    (hF : F.WellFormed) (hI : EngineInv F ix D e) (b : BasicBlock) (hb : b ∈ F.blocks) :
    ∃ s1 O, recomputeOut e.live b = .ok s1 ∧ O.length = D ∧
      s1.out = ValueMap.assign e.live.out b.id O ∧
      s1.in_ = e.live.in_ ∧ s1.valueToBitVectorIndex = e.live.valueToBitVectorIndex ∧
      s1.domainSize = e.live.domainSize ∧ s1.instrInSet = e.live.instrInSet ∧
      s1.neighbourSpecificValues = e.live.neighbourSpecificValues ∧
      (∀ k, BitVector.test O k = true ↔
        ∃ t ∈ b.succs, ∃ A, e.live.in_ t = some A ∧ BitVector.test A k = true) := by
  unfold recomputeOut
  cases hs : b.succs with
  | nil =>
    have hO := hI.out_boundary b hb hs
    refine ⟨e.live, BitVector.create D false, rfl, by simp [BitVector.create],
      (assign_same _ _ _ hO).symm, rfl, rfl, rfl, rfl, rfl, ?_⟩
    intro k
    simp [test_create_false]
  | cons t rest =>
    simp only []
    have hsucc : ∀ u ∈ t :: rest, ∃ A, e.live.in_ u = some A ∧
        A.length = (initializeFlowValue e.live b SetType.OUT).length := by
      intro u hu
      obtain ⟨c, hc, hcu⟩ := mem_blocks_of_id (hF.succs_mem b hb u (hs ▸ hu))
      obtain ⟨A, hA, hl⟩ := hI.in_len c hc
      refine ⟨A, hcu ▸ hA, ?_⟩
      rw [hl]
      simp [initializeFlowValue, BitVector.create, hI.size]
    obtain ⟨U, hU⟩ := meetSuccessors_succeeds e.live (t :: rest) _ hsucc
    obtain ⟨u1, u2⟩ := meetSuccessors_ok hU
    rw [hU]
    refine ⟨_, U, rfl, ?_, rfl, rfl, rfl, rfl, rfl, rfl, ?_⟩
    · rw [u1]
      simp [initializeFlowValue, BitVector.create, hI.size]
    · intro k
      rw [u2 k]
      simp [initializeFlowValue, test_create_false]

/-- One turn of step 3 on a state that satisfies the invariant: it returns,
and this is the state it returns. -/
theorem engineStep_spec {F : Function} {ix : Value → Nat} {D : Nat} {e : Engine}
    (hF : F.WellFormed) (hI : EngineInv F ix D e) (c : Nat) (hwl : e.worklist ≠ []) :
    ∃ b O oldIn e1, b ∈ F.blocks ∧ b.id ∈ e.worklist ∧ engineStep F e c = .ok e1 ∧
      e.live.in_ b.id = some oldIn ∧ O.length = D ∧
      (∀ k, BitVector.test O k = true ↔
        ∃ t ∈ b.succs, ∃ A, e.live.in_ t = some A ∧ BitVector.test A k = true) ∧
      e1.live.Ready F ∧ bitIndex e1.live.valueToBitVectorIndex = ix ∧
      e1.live.domainSize = D ∧
      e1.live.out = ValueMap.assign e.live.out b.id O ∧
      e1.live.in_ = ValueMap.assign e.live.in_ b.id (blockIn ix b O) ∧
      e1.visits = bump e.visits b.id ∧
      (blockIn ix b O ≠ oldIn →
        e1.worklist = enqueue (e.worklist.erase b.id) (F.predecessors b.id) ∧
        e1.inUpdates = bump e.inUpdates b.id) ∧
      (blockIn ix b O = oldIn →
        e1.worklist = e.worklist.erase b.id ∧ e1.inUpdates = e.inUpdates) := by
  have hpos : 0 < e.worklist.length := List.length_pos.2 hwl
  have hj : c % e.worklist.length < e.worklist.length := Nat.mod_lt _ hpos
  have hmem : e.worklist[c % e.worklist.length] ∈ e.worklist := List.getElem_mem _
  obtain ⟨b, hb, hbid⟩ := mem_blocks_of_id (hI.wl_mem _ hmem)
  have herase : e.worklist.eraseIdx (c % e.worklist.length) = e.worklist.erase b.id := by
    rw [hbid, hI.wl_nodup.erase_getElem]
  obtain ⟨s1, O, hrec, hOlen, hout1, hin1, hidx1, hsize1, hset1, hnsv1, hOchar⟩ :=
    recomputeOut_spec hF hI b hb
  have hr1 : s1.Ready F := ready_congr hI.ready hidx1 hsize1 hset1 hnsv1
  have hO1 : s1.out b.id = some O := by
    rw [hout1]
    simp [ValueMap.assign]
  obtain ⟨s2, htf, hr2, hidx2, hout2, hin2, hsize2⟩ :=
    transferFn_succeeds hr1 b hb (hF.nonempty b hb) O hO1 (by rw [hOlen, hsize1, hI.size])
  have hix1 : bitIndex s1.valueToBitVectorIndex = ix := by rw [hidx1, hI.index]
  rw [hix1] at htf hidx2
  obtain ⟨oldIn, hold, -⟩ := hI.in_len b hb
  have hold2 : s2.in_ b.id = some oldIn := by rw [hin2, hin1, hold]
  have hstep : engineStep F e c =
      if blockIn ix b O ≠ oldIn then
        .ok { live := { s2 with in_ := ValueMap.assign s2.in_ b.id (blockIn ix b O) },
              worklist := enqueue (e.worklist.eraseIdx (c % e.worklist.length))
                (F.predecessors b.id),
              inUpdates := bump e.inUpdates b.id,
              visits := bump e.visits b.id }
      else
        .ok { live := s2,
              worklist := e.worklist.eraseIdx (c % e.worklist.length),
              inUpdates := e.inUpdates,
              visits := bump e.visits b.id } := by
    unfold engineStep
    rw [List.getElem?_eq_getElem hj]
    simp only []
    rw [← hbid, find_block hF b hb]
    simp only [hrec, htf, hold2]
  by_cases hne : blockIn ix b O ≠ oldIn
  · rw [if_pos hne] at hstep
    refine ⟨b, O, oldIn, _, hb, hbid ▸ hmem, hstep, hold, hOlen, hOchar, ?_, hidx2, ?_, ?_, ?_,
      rfl, ?_, ?_⟩
    · exact ready_congr hr2 rfl rfl rfl rfl
    · exact hsize2.trans (hsize1.trans hI.size)
    · exact hout2.trans hout1
    · show ValueMap.assign s2.in_ b.id (blockIn ix b O) = _
      rw [hin2, hin1]
    · intro _
      exact ⟨by rw [herase], rfl⟩
    · intro heq
      exact absurd heq hne
  · rw [if_neg hne] at hstep
    have heq : blockIn ix b O = oldIn := by
      by_contra h
      exact hne h
    refine ⟨b, O, oldIn, _, hb, hbid ▸ hmem, hstep, hold, hOlen, hOchar, hr2, hidx2, ?_, ?_, ?_,
      rfl, ?_, ?_⟩
    · exact hsize2.trans (hsize1.trans hI.size)
    · exact hout2.trans hout1
    · show s2.in_ = _
      rw [hin2, hin1, heq]
      exact (assign_same _ _ _ hold).symm
    · intro h
      exact absurd heq h
    · intro _
      exact ⟨herase, rfl⟩

theorem assign_eq {K V : Type} [DecidableEq K] (m : ValueMap K V) (k : K) (v : V) :
    ValueMap.assign m k v k = some v := by
  simp [ValueMap.assign]

theorem assign_ne {K V : Type} [DecidableEq K] (m : ValueMap K V) (k : K) (v : V) {x : K}
    (h : x ≠ k) : ValueMap.assign m k v x = m x := by
  simp [ValueMap.assign, h]

/-- The values a turn of step 3 stores include the ones they replace. -/
theorem engineStep_grows {F : Function} {ix : Value → Nat} {D : Nat} {e : Engine}
    (hI : EngineInv F ix D e) (b : BasicBlock) (hb : b ∈ F.blocks) (O oldIn : BitVector)
    (hold : e.live.in_ b.id = some oldIn) (hOlen : O.length = D)
    (hOchar : ∀ k, BitVector.test O k = true ↔
      ∃ t ∈ b.succs, ∃ A, e.live.in_ t = some A ∧ BitVector.test A k = true) :
    (∀ oldOut, e.live.out b.id = some oldOut → BitVector.Subset oldOut O) ∧
    BitVector.Subset oldIn (blockIn ix b O) := by
  have hout : ∀ oldOut, e.live.out b.id = some oldOut → BitVector.Subset oldOut O := by
    intro oldOut ho
    obtain ⟨O0, hO0, hl0⟩ := hI.out_len b hb
    rw [ho] at hO0
    injection hO0 with hO0
    subst hO0
    refine ⟨hl0.trans hOlen.symm, ?_⟩
    intro k hk
    exact (hOchar k).2 (hI.out_le b hb oldOut ho k hk)
  refine ⟨hout, ?_⟩
  obtain ⟨oldOut, ho, hlo⟩ := hI.out_len b hb
  obtain ⟨A0, hA0, hla⟩ := hI.in_len b hb
  rw [hold] at hA0
  injection hA0 with hA0
  subst hA0
  refine ⟨?_, ?_⟩
  · rw [length_blockIn, hla, hOlen]
  · intro k hk
    exact (blockIn_mono ix b (hout oldOut ho)).2 k (hI.in_le b hb oldIn oldOut hold ho k hk)

/-- The invariant is kept by a turn of step 3. -/
theorem engineStep_inv {F : Function} {ix : Value → Nat} {D : Nat} {e e1 : Engine}
    (hF : F.WellFormed) (hI : EngineInv F ix D e) (c : Nat) (hwl : e.worklist ≠ [])
    (h : engineStep F e c = .ok e1) : EngineInv F ix D e1 := by
  obtain ⟨b, O, oldIn, e2, hb, hbwl, hstep, hold, hOlen, hOchar, hready, hidx, hsize, hout1,
    hin1, hvis, hchg, hsame⟩ := engineStep_spec hF hI c hwl
  rw [hstep] at h
  injection h with h
  subst h
  obtain ⟨hgrowOut, hgrowIn⟩ := engineStep_grows hI b hb O oldIn hold hOlen hOchar
  have hmonoIn : ∀ t A k, e.live.in_ t = some A → BitVector.test A k = true →
      ∃ A1, e2.live.in_ t = some A1 ∧ BitVector.test A1 k = true := by
    intro t A k hA hk
    by_cases ht : t = b.id
    · subst ht
      rw [hold] at hA
      injection hA with hA
      subst hA
      exact ⟨blockIn ix b O, by rw [hin1, assign_eq], hgrowIn.2 k hk⟩
    · exact ⟨A, by rw [hin1, assign_ne _ _ _ ht, hA], hk⟩
  have hwlsub : ∀ x, x ∈ e.worklist.erase b.id → x ∈ e2.worklist := by
    intro x hx
    by_cases hne : blockIn ix b O = oldIn
    · rw [(hsame hne).1]
      exact hx
    · rw [(hchg hne).1, mem_enqueue]
      exact Or.inl hx
  have hpred : blockIn ix b O ≠ oldIn → ∀ p ∈ F.blocks, b.id ∈ p.succs → p.id ∈ e2.worklist := by
    intro hne p hp hbp
    rw [(hchg hne).1, mem_enqueue]
    exact Or.inr (mem_predecessors F b.id p hp hbp)
  have hinSucc : ∀ p ∈ F.blocks, p.id ∉ e2.worklist → ∀ t T k, t ∈ p.succs →
      e2.live.in_ t = some T → BitVector.test T k = true →
      ∃ A, e.live.in_ t = some A ∧ BitVector.test A k = true := by
    intro p hp hpw t T k ht hT hk
    by_cases htb : t = b.id
    · subst htb
      by_cases hne : blockIn ix b O = oldIn
      · rw [hin1, assign_eq] at hT
        injection hT with hT
        exact ⟨oldIn, hold, by rw [← hne, hT]; exact hk⟩
      · exact absurd (hpred hne p hp ht) hpw
    · rw [hin1, assign_ne _ _ _ htb] at hT
      exact ⟨T, hT, hk⟩
  refine ⟨hready, hidx, hsize, ?_, ?_, ?_, ?_, ?_, ?_, ?_, ?_, ?_⟩
  · intro p hp
    by_cases hpb : p.id = b.id
    · exact ⟨blockIn ix b O, by rw [hin1, hpb, assign_eq], by rw [length_blockIn, hOlen]⟩
    · obtain ⟨A, hA, hl⟩ := hI.in_len p hp
      exact ⟨A, by rw [hin1, assign_ne _ _ _ hpb, hA], hl⟩
  · intro p hp
    by_cases hpb : p.id = b.id
    · exact ⟨O, by rw [hout1, hpb, assign_eq], hOlen⟩
    · obtain ⟨A, hA, hl⟩ := hI.out_len p hp
      exact ⟨A, by rw [hout1, assign_ne _ _ _ hpb, hA], hl⟩
  · by_cases hne : blockIn ix b O = oldIn
    · rw [(hsame hne).1]
      exact hI.wl_nodup.erase _
    · rw [(hchg hne).1]
      exact nodup_enqueue _ _ (hI.wl_nodup.erase _)
  · intro x hx
    by_cases hne : blockIn ix b O = oldIn
    · rw [(hsame hne).1] at hx
      exact hI.wl_mem x (List.mem_of_mem_erase hx)
    · rw [(hchg hne).1, mem_enqueue] at hx
      rcases hx with hx | hx
      · exact hI.wl_mem x (List.mem_of_mem_erase hx)
      · exact predecessors_subset F b.id x hx
  · intro p hp hps
    by_cases hpb : p.id = b.id
    · have hpeq := block_eq_of_id hF hp hb hpb
      subst hpeq
      rw [hout1, assign_eq]
      congr 1
      apply bv_ext
      · rw [hOlen]
        simp [BitVector.create]
      · intro k
        rw [test_create_false, Bool.eq_false_iff]
        intro hk
        obtain ⟨t, ht, -⟩ := (hOchar k).1 hk
        rw [hps] at ht
        cases ht
    · rw [hout1, assign_ne _ _ _ hpb]
      exact hI.out_boundary p hp hps
  · intro p hp O1 hO1 k hk
    have hex : ∃ t ∈ p.succs, ∃ A, e.live.in_ t = some A ∧ BitVector.test A k = true := by
      by_cases hpb : p.id = b.id
      · have hpeq := block_eq_of_id hF hp hb hpb
        subst hpeq
        rw [hout1, assign_eq] at hO1
        injection hO1 with hO1
        subst hO1
        exact (hOchar k).1 hk
      · rw [hout1, assign_ne _ _ _ hpb] at hO1
        exact hI.out_le p hp O1 hO1 k hk
    obtain ⟨t, ht, A, hA, hAk⟩ := hex
    exact ⟨t, ht, hmonoIn t A k hA hAk⟩
  · intro p hp A O1 hA hO1 k hk
    by_cases hpb : p.id = b.id
    · have hpeq := block_eq_of_id hF hp hb hpb
      subst hpeq
      rw [hin1, assign_eq] at hA
      rw [hout1, assign_eq] at hO1
      injection hA with hA
      injection hO1 with hO1
      subst hA hO1
      exact hk
    · rw [hin1, assign_ne _ _ _ hpb] at hA
      rw [hout1, assign_ne _ _ _ hpb] at hO1
      exact hI.in_le p hp A O1 hA hO1 k hk
  · intro p hp hpw A O1 hA hO1
    by_cases hpb : p.id = b.id
    · have hpeq := block_eq_of_id hF hp hb hpb
      subst hpeq
      rw [hin1, assign_eq] at hA
      rw [hout1, assign_eq] at hO1
      injection hA with hA
      injection hO1 with hO1
      subst hA hO1
      refine ⟨rfl, ?_⟩
      intro k t T ht hT hk
      obtain ⟨A0, hA0, hA0k⟩ := hinSucc p hp hpw t T k ht hT hk
      exact (hOchar k).2 ⟨t, ht, A0, hA0, hA0k⟩
    · rw [hin1, assign_ne _ _ _ hpb] at hA
      rw [hout1, assign_ne _ _ _ hpb] at hO1
      have hpw0 : p.id ∉ e.worklist := by
        intro hmem
        exact hpw (hwlsub _ ((List.mem_erase_of_ne hpb).2 hmem))
      obtain ⟨s1, s2⟩ := hI.settled p hp hpw0 A O1 hA hO1
      refine ⟨s1, ?_⟩
      intro k t T ht hT hk
      obtain ⟨A0, hA0, hA0k⟩ := hinSucc p hp hpw t T k ht hT hk
      exact s2 k t A0 ht hA0 hA0k
  · intro p hp A hA
    by_cases hne : blockIn ix b O = oldIn
    · rw [(hsame hne).2]
      by_cases hpb : p.id = b.id
      · rw [hin1, hpb, assign_eq] at hA
        injection hA with hA
        have := hI.updates_le b hb oldIn hold
        rw [hpb, ← hA, hne]
        exact this
      · rw [hin1, assign_ne _ _ _ hpb] at hA
        exact hI.updates_le p hp A hA
    · rw [(hchg hne).2]
      by_cases hpb : p.id = b.id
      · rw [hin1, hpb, assign_eq] at hA
        injection hA with hA
        have h1 := hI.updates_le b hb oldIn hold
        have h2 := count_true_lt_of_subset hgrowIn (fun h => hne h.symm)
        rw [hpb, ← hA]
        simp only [bump, if_true]
        omega
      · rw [hin1, assign_ne _ _ _ hpb] at hA
        simp only [bump, hpb, if_false]
        exact hI.updates_le p hp A hA

/-- Steps 1 and 2 establish the invariant. -/
theorem engineInit_inv (s0 : Live) (F : Function) (hF : F.WellFormed) :
    EngineInv F (bitIndex (buildIndex s0 F).valueToBitVectorIndex)
      (F.args.length + F.instructions.length) (engineInit F (runOnFunctionSetup s0 F)) := by
  obtain ⟨i1, i2, -, i4, -⟩ := initInstrInSet_fields F.instructions (buildIndex s0 F)
  obtain ⟨f1, f2, f3, f4, f5, f6⟩ := engineInit_fold F.blocks
    { runOnFunctionSetup s0 F with in_ := ValueMap.empty, out := ValueMap.empty,
                                   neighbourSpecificValues := ValueMap.empty }
  have hidx : (engineInit F (runOnFunctionSetup s0 F)).live.valueToBitVectorIndex =
      (buildIndex s0 F).valueToBitVectorIndex := f1.trans i1
  have hsize : (engineInit F (runOnFunctionSetup s0 F)).live.domainSize =
      (buildIndex s0 F).domainSize := f2.trans i2
  have hD : (runOnFunctionSetup s0 F).domainSize = F.args.length + F.instructions.length :=
    i2.trans (buildIndex_domainSize s0 F)
  have hin : ∀ b ∈ F.blocks, (engineInit F (runOnFunctionSetup s0 F)).live.in_ b.id =
      some (BitVector.create (F.args.length + F.instructions.length) false) := by
    intro b hb
    have := f5 b.id
    rw [if_pos (List.mem_map.2 ⟨b, hb, rfl⟩)] at this
    rw [← hD]
    exact this
  have hout : ∀ b ∈ F.blocks, (engineInit F (runOnFunctionSetup s0 F)).live.out b.id =
      some (BitVector.create (F.args.length + F.instructions.length) false) := by
    intro b hb
    have := f6 b.id
    rw [if_pos (List.mem_map.2 ⟨b, hb, rfl⟩)] at this
    rw [← hD]
    exact this
  refine ⟨?_, ?_, ?_, ?_, ?_, ?_, ?_, ?_, ?_, ?_, ?_, ?_⟩
  · apply setup_ready s0 F hF _ hidx hsize
    · intro i hi
      obtain ⟨X, hX⟩ := i4 i hi
      exact ⟨X, by
        show (F.blocks.foldl engineInitBlock _).instrInSet i.id = some X
        rw [f3]
        exact hX⟩
    · intro blk
      show (F.blocks.foldl engineInitBlock _).neighbourSpecificValues blk = none
      rw [f4]
      rfl
  · rw [hidx]
  · rw [hsize, buildIndex_domainSize]
  · intro b hb
    exact ⟨_, hin b hb, by simp [BitVector.create]⟩
  · intro b hb
    exact ⟨_, hout b hb, by simp [BitVector.create]⟩
  · exact hF.blocks_nodup
  · intro x hx
    exact hx
  · intro b hb _
    exact hout b hb
  · intro b hb O hO k hk
    rw [hout b hb] at hO
    injection hO with hO
    rw [← hO, test_create_false] at hk
    cases hk
  · intro b hb A O hA _ k hk
    rw [hin b hb] at hA
    injection hA with hA
    rw [← hA, test_create_false] at hk
    cases hk
  · intro b hb hbw
    exact absurd (List.mem_map.2 ⟨b, hb, rfl⟩) hbw
  · intro b hb A _
    exact Nat.zero_le _

/-- Every state a run goes through satisfies the invariant. -/
theorem engineRun_inv {F : Function} {ix : Value → Nat} {D : Nat} (hF : F.WellFormed)
    (choices : List Nat) (e e1 : Engine) (hI : EngineInv F ix D e)
    (h : engineRun F choices e = .ok e1) : EngineInv F ix D e1 := by
  induction choices generalizing e with
  | nil =>
    simp only [engineRun] at h
    injection h with h
    exact h ▸ hI
  | cons c rest ih =>
    unfold engineRun at h
    split at h
    · injection h with h
      exact h ▸ hI
    · next x xs hwl =>
      split at h
      · next e2 hstep =>
        exact ih e2 (engineStep_inv hF hI c (by rw [hwl]; simp) hstep) h
      · cases h

theorem sum_map_lt_of_update {α : Type} (l : List α) (f g : α → Nat) (a : α) (ha : a ∈ l)
    (hle : ∀ x ∈ l, g x ≤ f x) (hlt : g a < f a) : (l.map g).sum < (l.map f).sum := by
  induction l with
  | nil => cases ha
  | cons x rest ih =>
    simp only [List.map_cons, List.sum_cons]
    have hrest : (rest.map g).sum ≤ (rest.map f).sum := by
      apply List.sum_le_sum
      intro y hy
      exact hle y (List.mem_cons_of_mem _ hy)
    rcases List.mem_cons.1 ha with rfl | ha
    · omega
    · have := ih ha (fun y hy => hle y (List.mem_cons_of_mem _ hy))
      have := hle x (List.mem_cons_self _ _)
      omega

theorem length_le_blocks {F : Function} {wl : List Nat} (hnd : wl.Nodup)
    (hsub : ∀ x ∈ wl, x ∈ F.blocks.map BasicBlock.id) : wl.length ≤ F.blocks.length := by
  have := (List.subperm_of_subset hnd hsub).length_le
  simpa using this

/-- Every turn of step 3 lowers the measure. -/
theorem engineStep_measure {F : Function} {ix : Value → Nat} {D : Nat} {e e1 : Engine}
    (hF : F.WellFormed) (hI : EngineInv F ix D e) (c : Nat) (hwl : e.worklist ≠ [])
    (h : engineStep F e c = .ok e1) : engineMeasure F e1 < engineMeasure F e := by
  have hI1 := engineStep_inv hF hI c hwl h
  obtain ⟨b, O, oldIn, e2, hb, hbwl, hstep, hold, hOlen, hOchar, hready, hidx, hsize, hout1,
    hin1, hvis, hchg, hsame⟩ := engineStep_spec hF hI c hwl
  rw [hstep] at h
  injection h with h
  subst h
  obtain ⟨-, hgrowIn⟩ := engineStep_grows hI b hb O oldIn hold hOlen hOchar
  unfold engineMeasure
  by_cases hne : blockIn ix b O = oldIn
  · have hin : e2.live.in_ = e.live.in_ := by
      rw [hin1, hne]
      exact assign_same _ _ _ hold
    rw [hin, (hsame hne).1, List.length_erase_of_mem hbwl]
    have : 0 < e.worklist.length := List.length_pos.2 hwl
    omega
  · have hsum : (F.blocks.map (fun p => ((e2.live.in_ p.id).getD []).count false)).sum <
        (F.blocks.map (fun p => ((e.live.in_ p.id).getD []).count false)).sum := by
      apply sum_map_lt_of_update F.blocks _ _ b hb
      · intro p hp
        by_cases hpb : p.id = b.id
        · simp only [hin1, hpb, assign_eq, hold, Option.getD_some]
          have := count_true_le_of_subset hgrowIn
          rw [count_false_eq, count_false_eq, hgrowIn.1]
          omega
        · simp only [hin1, assign_ne _ _ _ hpb]
          exact Nat.le_refl _
      · simp only [hin1, assign_eq, hold, Option.getD_some]
        have h1 := count_true_lt_of_subset hgrowIn (fun h => hne h.symm)
        have h2 := List.count_true_add_count_false (blockIn ix b O)
        have h3 := List.count_true_add_count_false oldIn
        have h4 := hgrowIn.1
        omega
    have hlen : e2.worklist.length ≤ F.blocks.length :=
      length_le_blocks hI1.wl_nodup hI1.wl_mem
    have hmul := Nat.mul_le_mul_right (F.blocks.length + 1) (Nat.succ_le_of_lt hsum)
    rw [Nat.succ_mul] at hmul
    omega

/-- A run whose choices outnumber the measure ends with an empty worklist,
and no run fails. -/
theorem engineRun_returns {F : Function} {ix : Value → Nat} {D : Nat} (hF : F.WellFormed)
    (choices : List Nat) (e : Engine) (hI : EngineInv F ix D e) :
    ∃ e1, engineRun F choices e = .ok e1 ∧
      (engineMeasure F e ≤ choices.length → e1.worklist = []) := by
  induction choices generalizing e with
  | nil =>
    refine ⟨e, rfl, ?_⟩
    intro hm
    have hz : e.worklist.length = 0 := by
      unfold engineMeasure at hm
      simp only [List.length_nil] at hm
      omega
    exact List.length_eq_zero.1 hz
  | cons c rest ih =>
    unfold engineRun
    cases hwl : e.worklist with
    | nil => exact ⟨e, rfl, fun _ => hwl⟩
    | cons x xs =>
      simp only []
      have hne : e.worklist ≠ [] := by rw [hwl]; simp
      obtain ⟨b, O, oldIn, e2, -, -, hstep, -⟩ := engineStep_spec hF hI c hne
      rw [hstep]
      simp only []
      obtain ⟨e1, h1, h2⟩ := ih e2 (engineStep_inv hF hI c hne hstep)
      refine ⟨e1, h1, ?_⟩
      intro hm
      apply h2
      have := engineStep_measure hF hI c hne hstep
      simp only [List.length_cons] at hm
      omega

theorem engineInit_measure (s0 : Live) (F : Function) (hF : F.WellFormed) :
    engineMeasure F (engineInit F (runOnFunctionSetup s0 F)) ≤ iterationBound F := by
  have hI := engineInit_inv s0 F hF
  unfold engineMeasure iterationBound
  have hsum : (F.blocks.map (fun b =>
      (((engineInit F (runOnFunctionSetup s0 F)).live.in_ b.id).getD []).count false)).sum
      ≤ F.blocks.length * (F.args.length + F.instructions.length) := by
    have hle : ∀ (l : List BasicBlock), (∀ b ∈ l, b ∈ F.blocks) →
        (l.map (fun b =>
          (((engineInit F (runOnFunctionSetup s0 F)).live.in_ b.id).getD []).count false)).sum
        ≤ l.length * (F.args.length + F.instructions.length) := by
      intro l
      induction l with
      | nil => simp
      | cons b rest ih =>
        intro hl
        obtain ⟨A, hA, hlen⟩ := hI.in_len b (hl b (List.mem_cons_self _ _))
        have h1 := ih (fun x hx => hl x (List.mem_cons_of_mem _ hx))
        have h2 : A.count false ≤ A.length := List.count_le_length _ _
        simp only [List.map_cons, List.sum_cons, List.length_cons, hA, Option.getD_some,
          Nat.succ_mul]
        omega
    exact hle F.blocks (fun _ h => h)
  have hwl : (engineInit F (runOnFunctionSetup s0 F)).worklist.length = F.blocks.length := by
    simp [engineInit]
  rw [hwl]
  have := Nat.mul_le_mul_right (F.blocks.length + 1) hsum
  omega

/-- No run of the pass on a well-formed function fails, and a run of at least
`iterationBound F` turns ends with an empty worklist. -/
theorem runOnFunction_returns (s0 : Live) (F : Function) (hF : F.WellFormed)
    (choices : List Nat) :
    ∃ e, runOnFunction s0 F choices = .ok e ∧
      (iterationBound F ≤ choices.length → e.worklist = []) := by
  obtain ⟨e, h1, h2⟩ := engineRun_returns hF choices _ (engineInit_inv s0 F hF)
  refine ⟨e, h1, ?_⟩
  intro hb
  exact h2 (Nat.le_trans (engineInit_measure s0 F hF) hb)

theorem runOnFunction_inv (s0 : Live) (F : Function) (hF : F.WellFormed)
    (choices : List Nat) (e : Engine) (h : runOnFunction s0 F choices = .ok e) :
    EngineInv F (bitIndex (buildIndex s0 F).valueToBitVectorIndex)
      (F.args.length + F.instructions.length) e :=
  engineRun_inv hF choices _ e (engineInit_inv s0 F hF) h

/-- C7. Fixpoint idempotence: when a run of the worklist iteration has
emptied its worklist, for every block `b` the stored `OUT[b]` is the all-false
boundary value when `b` has no successor and the union of the final `IN[s]`
over its successors otherwise, and `transferFn(b)` on the final tables returns
the stored `IN[b]`. -/
theorem fixpoint_idempotence (s0 : Live) (F : Function) (hF : F.WellFormed)
    (choices : List Nat) (e : Engine) (h : runOnFunction s0 F choices = .ok e)
    (hwl : e.worklist = []) (b : BasicBlock) (hb : b ∈ F.blocks) :
    (b.succs = [] → e.live.out b.id = some (BitVector.create e.live.domainSize false)) ∧
    (b.succs ≠ [] → ∃ U,
      meetSuccessors e.live b.succs (initializeFlowValue e.live b SetType.OUT) = .ok U ∧
      e.live.out b.id = some U) ∧
    (∃ r s1, transferFn e.live b = .ok (r, s1) ∧ e.live.in_ b.id = some r) := by
  have hI := runOnFunction_inv s0 F hF choices e h
  obtain ⟨A, hA, hAlen⟩ := hI.in_len b hb
  obtain ⟨O, hO, hOlen⟩ := hI.out_len b hb
  obtain ⟨hfix1, hfix2⟩ := hI.settled b hb (by rw [hwl]; simp) A O hA hO
  refine ⟨?_, ?_, ?_⟩
  · intro hs
    rw [hI.size]
    exact hI.out_boundary b hb hs
  · intro _
    have hsucc : ∀ u ∈ b.succs, ∃ T, e.live.in_ u = some T ∧
        T.length = (initializeFlowValue e.live b SetType.OUT).length := by
      intro u hu
      obtain ⟨c, hc, hcu⟩ := mem_blocks_of_id (hF.succs_mem b hb u hu)
      obtain ⟨T, hT, hl⟩ := hI.in_len c hc
      refine ⟨T, hcu ▸ hT, ?_⟩
      rw [hl]
      simp [initializeFlowValue, BitVector.create, hI.size]
    obtain ⟨U, hU⟩ := meetSuccessors_succeeds e.live b.succs _ hsucc
    obtain ⟨u1, u2⟩ := meetSuccessors_ok hU
    refine ⟨U, hU, ?_⟩
    rw [hO]
    congr 1
    apply bv_ext
    · rw [hOlen, u1]
      simp [initializeFlowValue, BitVector.create, hI.size]
    · intro k
      apply Bool.eq_iff_iff.2
      rw [u2 k]
      simp only [initializeFlowValue, test_create_false, Bool.false_eq_true, false_or]
      constructor
      · exact hI.out_le b hb O hO k
      · rintro ⟨t, ht, T, hT, hk⟩
        exact hfix2 k t T ht hT hk
  · obtain ⟨s1, htf, -⟩ :=
      transferFn_succeeds hI.ready b hb (hF.nonempty b hb) O hO (by rw [hOlen, hI.size])
    rw [hI.index] at htf
    exact ⟨_, s1, htf, by rw [hA, hfix1]⟩

theorem subset_refl (A : BitVector) : BitVector.Subset A A := ⟨rfl, fun _ h => h⟩

/-- C8. Monotonicity across the iteration: the `IN` and `OUT` sets start
all-false, and in every run every turn of step 3 replaces `IN[b]` and
`OUT[b]` of every block by a superset of (or the same as) the previous
value. -/
theorem iteration_monotone (s0 : Live) (F : Function) (hF : F.WellFormed) (b : BasicBlock)
    (hb : b ∈ F.blocks) :
    ((engineInit F (runOnFunctionSetup s0 F)).live.in_ b.id =
        some (BitVector.create (F.args.length + F.instructions.length) false) ∧
     (engineInit F (runOnFunctionSetup s0 F)).live.out b.id =
        some (BitVector.create (F.args.length + F.instructions.length) false)) ∧
    (∀ (choices : List Nat) (e e1 : Engine) (c : Nat),
      runOnFunction s0 F choices = .ok e → engineStep F e c = .ok e1 →
      ∃ A A1 O O1, e.live.in_ b.id = some A ∧ e1.live.in_ b.id = some A1 ∧
        BitVector.Subset A A1 ∧ e.live.out b.id = some O ∧ e1.live.out b.id = some O1 ∧
        BitVector.Subset O O1) := by
  constructor
  · have hI := engineInit_inv s0 F hF
    obtain ⟨A, hA, hAlen⟩ := hI.in_len b hb
    obtain ⟨O, hO, hOlen⟩ := hI.out_len b hb
    have hAf : A = BitVector.create (F.args.length + F.instructions.length) false := by
      apply bv_ext
      · rw [hAlen]
        simp [BitVector.create]
      · intro k
        rw [test_create_false, Bool.eq_false_iff]
        intro hk
        obtain ⟨f1, f2, f3, f4, f5, f6⟩ := engineInit_fold F.blocks
          { runOnFunctionSetup s0 F with in_ := ValueMap.empty, out := ValueMap.empty,
                                         neighbourSpecificValues := ValueMap.empty }
        have h5 := f5 b.id
        rw [if_pos (List.mem_map.2 ⟨b, hb, rfl⟩)] at h5
        have hA2 : some A = some (BitVector.create (runOnFunctionSetup s0 F).domainSize false) :=
          hA.symm.trans h5
        injection hA2 with hA2
        rw [hA2, test_create_false] at hk
        cases hk
    have hOf : O = BitVector.create (F.args.length + F.instructions.length) false := by
      apply bv_ext
      · rw [hOlen]
        simp [BitVector.create]
      · intro k
        rw [test_create_false, Bool.eq_false_iff]
        intro hk
        obtain ⟨t, ht, T, hT, hTk⟩ := hI.out_le b hb O hO k hk
        obtain ⟨f1, f2, f3, f4, f5, f6⟩ := engineInit_fold F.blocks
          { runOnFunctionSetup s0 F with in_ := ValueMap.empty, out := ValueMap.empty,
                                         neighbourSpecificValues := ValueMap.empty }
        have h5 := f5 t
        rw [if_pos (hF.succs_mem b hb t ht)] at h5
        have hT2 : some T = some (BitVector.create (runOnFunctionSetup s0 F).domainSize false) :=
          hT.symm.trans h5
        injection hT2 with hT2
        rw [hT2, test_create_false] at hTk
        cases hTk
    exact ⟨hAf ▸ hA, hOf ▸ hO⟩
  · intro choices e e1 c h hstep
    have hI := runOnFunction_inv s0 F hF choices e h
    obtain ⟨A, hA, -⟩ := hI.in_len b hb
    obtain ⟨O, hO, -⟩ := hI.out_len b hb
    by_cases hwl : e.worklist = []
    · have he : e1 = e := by
        unfold engineStep at hstep
        rw [hwl] at hstep
        simp only [List.length_nil, Nat.mod_zero, List.getElem?_nil] at hstep
        injection hstep with hstep
        exact hstep.symm
      subst he
      exact ⟨A, A, O, O, hA, hA, subset_refl A, hO, hO, subset_refl O⟩
    · obtain ⟨p, Op, oldIn, e2, hp, -, hstep2, hold, hOlen, hOchar, -, -, -, hout1, hin1, -⟩ :=
        engineStep_spec hF hI c hwl
      rw [hstep2] at hstep
      injection hstep with hstep
      subst hstep
      obtain ⟨hgrowOut, hgrowIn⟩ := engineStep_grows hI p hp Op oldIn hold hOlen hOchar
      by_cases hbp : b.id = p.id
      · have hbeq := block_eq_of_id hF hb hp hbp
        subst hbeq
        rw [hold] at hA
        injection hA with hA
        subst hA
        exact ⟨oldIn, blockIn _ b Op, O, Op, hold, by rw [hin1, assign_eq], hgrowIn, hO,
          by rw [hout1, assign_eq], hgrowOut O hO⟩
      · exact ⟨A, A, O, O, hA, by rw [hin1, assign_ne _ _ _ hbp, hA], subset_refl A, hO,
          by rw [hout1, assign_ne _ _ _ hbp, hO], subset_refl O⟩

/-- In a CFG made of one self-looping block, the visits of the block and the
length of the worklist stay within one of the updates of its `IN`. -/
theorem engineStep_visits {F : Function} {ix : Value → Nat} {D : Nat} {e e1 : Engine}
    (hF : F.WellFormed) (hI : EngineInv F ix D e) (c : Nat) (hwl : e.worklist ≠ [])
    (h : engineStep F e c = .ok e1) (b0 : BasicBlock) (hblocks : F.blocks = [b0])
    (hv : e.visits b0.id + e.worklist.length ≤ 1 + e.inUpdates b0.id) :
    e1.visits b0.id + e1.worklist.length ≤ 1 + e1.inUpdates b0.id := by
  have hI1 := engineStep_inv hF hI c hwl h
  obtain ⟨b, O, oldIn, e2, hb, hbwl, hstep, -, -, -, -, -, -, -, -, hvis, hchg, hsame⟩ :=
    engineStep_spec hF hI c hwl
  rw [hstep] at h
  injection h with h
  subst h
  have hbb : b = b0 := by
    rw [hblocks] at hb
    exact List.mem_singleton.1 hb
  subst hbb
  have hpos : 0 < e.worklist.length := List.length_pos.2 hwl
  have hlen1 : e2.worklist.length ≤ 1 := by
    have := length_le_blocks hI1.wl_nodup hI1.wl_mem
    rw [hblocks] at this
    simpa using this
  rw [hvis]
  simp only [bump, if_true]
  by_cases hne : blockIn ix b O = oldIn
  · rw [(hsame hne).2, (hsame hne).1, List.length_erase_of_mem hbwl]
    omega
  · rw [(hchg hne).2]
    simp only [bump, if_true]
    omega

theorem engineRun_visits {F : Function} {ix : Value → Nat} {D : Nat} (hF : F.WellFormed)
    (choices : List Nat) (e e1 : Engine) (hI : EngineInv F ix D e)
    (h : engineRun F choices e = .ok e1) (b0 : BasicBlock) (hblocks : F.blocks = [b0])
    (hv : e.visits b0.id + e.worklist.length ≤ 1 + e.inUpdates b0.id) :
    e1.visits b0.id + e1.worklist.length ≤ 1 + e1.inUpdates b0.id := by
  induction choices generalizing e with
  | nil =>
    simp only [engineRun] at h
    injection h with h
    exact h ▸ hv
  | cons c rest ih =>
    unfold engineRun at h
    split at h
    · injection h with h
      exact h ▸ hv
    · next x xs hwl =>
      have hne : e.worklist ≠ [] := by rw [hwl]; simp
      split at h
      · next e2 hstep =>
        exact ih e2 (engineStep_inv hF hI c hne hstep) h
          (engineStep_visits hF hI c hne hstep b0 hblocks hv)
      · cases h

/-- C9. Termination: no run of the worklist iteration on a well-formed
function fails, a run of `iterationBound F` turns or more ends with an empty
worklist, in every run `IN[b]` of every block is updated at most
`domainSize + 1` times, and the block of a CFG made of a single self-looping
block is visited at most `domainSize + 1` times. -/
theorem iteration_terminates (s0 : Live) (F : Function) (hF : F.WellFormed)
    (choices : List Nat) :
    (∃ e, runOnFunction s0 F choices = .ok e ∧
      (iterationBound F ≤ choices.length → e.worklist = [])) ∧
    (∀ e, runOnFunction s0 F choices = .ok e →
      (∀ b ∈ F.blocks, e.inUpdates b.id ≤ e.live.domainSize + 1) ∧
      (∀ b, F.blocks = [b] → b.succs = [b.id] → e.visits b.id ≤ e.live.domainSize + 1)) := by
  refine ⟨runOnFunction_returns s0 F hF choices, ?_⟩
  intro e h
  have hI := runOnFunction_inv s0 F hF choices e h
  have hupd : ∀ b ∈ F.blocks, e.inUpdates b.id ≤ e.live.domainSize := by
    intro b hb
    obtain ⟨A, hA, hAlen⟩ := hI.in_len b hb
    have h1 := hI.updates_le b hb A hA
    have h2 : A.count true ≤ A.length := List.count_le_length _ _
    rw [hI.size]
    omega
  refine ⟨fun b hb => Nat.le_succ_of_le (hupd b hb), ?_⟩
  intro b hblocks _
  have hb : b ∈ F.blocks := by rw [hblocks]; simp
  have hv := engineRun_visits hF choices _ e (engineInit_inv s0 F hF) h b hblocks
    (by simp [engineInit, hblocks])
  have := hupd b hb
  omega

theorem selfLoop_wellFormed : selfLoop.WellFormed :=
  ⟨by decide, by decide, by decide, by decide, by decide, by decide, by decide⟩

theorem diamond_wellFormed : diamond.WellFormed :=
  ⟨by decide, by decide, by decide, by decide, by decide, by decide, by decide⟩

/-- Witness of C7 on the block `Merge` of the diamond. -/
theorem fixpoint_idempotence_witness :
    ∃ e, runOnFunction (Live.init 0) diamond (List.replicate 164 0) = .ok e ∧
      e.worklist = [] ∧
      e.live.out mergeBlock.id = some (BitVector.create e.live.domainSize false) ∧
      ∃ r s1, transferFn e.live mergeBlock = .ok (r, s1) ∧ e.live.in_ mergeBlock.id = some r := by
  obtain ⟨e, h, hwl⟩ :=
    runOnFunction_returns (Live.init 0) diamond diamond_wellFormed (List.replicate 164 0)
  have hbound : iterationBound diamond = 164 := by decide
  have hempty : e.worklist = [] := hwl (by rw [hbound, List.length_replicate])
  have hw := fixpoint_idempotence (Live.init 0) diamond diamond_wellFormed
    (List.replicate 164 0) e h hempty mergeBlock (by decide)
  exact ⟨e, h, hempty, hw.1 rfl, hw.2.2⟩

/-- Witness of C8: the first turn of step 3 on the self-looping block. -/
theorem iteration_monotone_witness :
    ∃ e1 A A1 O O1,
      engineStep selfLoop (engineInit selfLoop (runOnFunctionSetup (Live.init 0) selfLoop)) 0
        = .ok e1 ∧
      (engineInit selfLoop (runOnFunctionSetup (Live.init 0) selfLoop)).live.in_ 0 = some A ∧
      e1.live.in_ 0 = some A1 ∧ BitVector.Subset A A1 ∧
      (engineInit selfLoop (runOnFunctionSetup (Live.init 0) selfLoop)).live.out 0 = some O ∧
      e1.live.out 0 = some O1 ∧ BitVector.Subset O O1 := by
  obtain ⟨e1, hstep⟩ := exists_of_isOk
    (x := engineStep selfLoop (engineInit selfLoop (runOnFunctionSetup (Live.init 0) selfLoop)) 0)
    (by decide)
  obtain ⟨A, A1, O, O1, h⟩ :=
    (iteration_monotone (Live.init 0) selfLoop selfLoop_wellFormed loopBlock (by decide)).2
      [] _ e1 0 rfl hstep
  exact ⟨e1, A, A1, O, O1, hstep, h⟩

/-- Witness of C9 on the single self-looping block. -/
theorem iteration_terminates_witness :
    ∃ e, runOnFunction (Live.init 0) selfLoop [0, 0, 0, 0, 0] = .ok e ∧ e.worklist = [] ∧
      e.inUpdates loopBlock.id ≤ e.live.domainSize + 1 ∧
      e.visits loopBlock.id ≤ e.live.domainSize + 1 := by
  have hw := iteration_terminates (Live.init 0) selfLoop selfLoop_wellFormed [0, 0, 0, 0, 0]
  obtain ⟨e, h, hwl⟩ := hw.1
  obtain ⟨h1, h2⟩ := hw.2 e h
  exact ⟨e, h, hwl (by decide), h1 loopBlock (by decide), h2 loopBlock rfl rfl⟩

/-! ### The meet operator -/

/-- C11. `meetOp` is bitwise union: for `lhs` and `rhs` of the same length
`N`, `meetOp` returns, and the new content of `lhs` has length `N` and its bit
`i` is the old bit `i` of `lhs` or the bit `i` of `rhs`, for every `i` below
`N`. The hook reads `rhs` through a pointer to const and returns nothing but
the new content of `lhs`. -/
theorem meetOp_union (lhs rhs : BitVector) (N : Nat) (hl : lhs.length = N)
    (hr : rhs.length = N) :
    ∃ lhs1, meetOp lhs rhs = .ok lhs1 ∧ lhs1.length = N ∧
      ∀ i, i < N → lhs1[i]? = some (BitVector.test lhs i || BitVector.test rhs i) := by
  have hlr : lhs.length = rhs.length := hl.trans hr.symm
  refine ⟨List.zipWith (fun a b => a || b) lhs rhs, ?_, ?_, ?_⟩
  · simp [meetOp, BitVector.unionInPlace, hlr]
  · simp [List.length_zipWith, hl, hr]
  · intro i hi
    have h1 : i < lhs.length := hl ▸ hi
    have h2 : i < rhs.length := hr ▸ hi
    simp [List.getElem?_zipWith, BitVector.test, List.getElem?_eq_getElem h1,
      List.getElem?_eq_getElem h2]

/-- Witness of C11: `{0} U {1}` over a Domain of size 3. -/
theorem meetOp_union_witness :
    ∃ lhs1, meetOp [true, false, false] [false, true, false] = .ok lhs1 ∧ lhs1.length = 3 ∧
      lhs1[0]? = some true ∧ lhs1[1]? = some true ∧ lhs1[2]? = some false := by
  obtain ⟨lhs1, h, hlen, hbit⟩ :=
    meetOp_union [true, false, false] [false, true, false] 3 rfl rfl
  exact ⟨lhs1, h, hlen, hbit 0 (by decide), hbit 1 (by decide), hbit 2 (by decide)⟩

/-- C12. A meet of two flow values of differing lengths fails with
`DomainMismatch` and produces no combined value. -/
theorem meetOp_domainMismatch (lhs rhs : BitVector) (h : lhs.length ≠ rhs.length) :
    meetOp lhs rhs = .error Err.DomainMismatch := by
  simp [meetOp, BitVector.unionInPlace, h]

/-- Witness of C12: lengths 1 and 2. -/
theorem meetOp_domainMismatch_witness :
    meetOp [true] [false, true] = .error Err.DomainMismatch :=
  meetOp_domainMismatch [true] [false, true] (by decide)

/-! ### What a turn of the loop records -/

/-- The per-instruction set of the last instruction of a block after
`transferFn`: the kill and gen of that instruction applied to `OUT`. -/
theorem transferFn_last {s s1 : Live} {bb : BasicBlock} {O r : BitVector}
    (front : List Instruction) (last : Instruction)
    (hnd : (bb.insts.map Instruction.id).Nodup) (hout : s.out bb.id = some O)
    (hsplit : bb.insts = front ++ [last]) (h : transferFn s bb = .ok (r, s1)) :
    s1.instrInSet last.id = some (liveBefore (bitIndex s.valueToBitVectorIndex) last O) ∧
    s1.out bb.id = some O := by
  obtain ⟨O1, hO1, -, hloop⟩ := transferFn_inv h
  rw [hout] at hO1
  injection hO1 with hO1
  subst hO1
  rw [hsplit, List.reverse_append, List.reverse_singleton, List.singleton_append] at hloop
  unfold transferLoop at hloop
  split at hloop
  · cases hloop
  · next X sX hX =>
    obtain ⟨b1, -, b3, b4, -⟩ := transferInst_ok hX
    obtain ⟨-, -, a3, -, -, -, -, a8⟩ := transferLoop_ok hloop
    have hnot : last.id ∉ front.reverse.map Instruction.id := by
      rw [hsplit, List.map_append, List.nodup_append] at hnd
      intro hmem
      rw [List.map_reverse, List.mem_reverse] at hmem
      exact hnd.2.2 hmem (by simp)
    refine ⟨?_, ?_⟩
    · rw [a8 last.id hnot, b3, assign_eq, b1]
    · rw [a3, b4]
      exact hout

/-- C13, as stated, fails on `t1 = add a, b; ret t1` with `OUT` empty: after
`transferFn` the per-instruction set of the last instruction `ret` is `{t1}`,
not `OUT`. -/
theorem last_set_is_out_false :
    ∃ r s1, transferFn straightState straightBlock = .ok (r, s1) ∧
      straightState.out straightBlock.id = some [false, false, false, false] ∧
      s1.instrInSet retInst.id = some [false, false, true, false] ∧
      s1.instrInSet retInst.id ≠ straightState.out straightBlock.id := by
  obtain ⟨⟨r, s1⟩, h⟩ :=
    exists_of_isOk (x := transferFn straightState straightBlock) (by decide)
  have hout : straightState.out straightBlock.id = some [false, false, false, false] := by
    decide
  have hlast := (transferFn_last [addInst] retInst (by decide) hout rfl h).1
  have c1 : liveBefore (bitIndex straightState.valueToBitVectorIndex) retInst
      [false, false, false, false] = [false, false, true, false] := by decide
  rw [c1] at hlast
  refine ⟨r, s1, h, hout, hlast, ?_⟩
  rw [hlast, hout]
  decide

/-- The turn of the walk on the instruction at position `k`: the walk over the
instructions before it in the walk ends with the current set `liveWalk` of
them, the turn starts from that set, records its result, and the walk goes on
from that result. -/
theorem transferLoop_turn {rev : List Instruction} {s s1 : Live} {S r : BitVector}
    (h : transferLoop rev s S = .ok (r, s1)) (k : Nat) (hk : k < rev.length) :
    ∃ s0 X sX,
      transferLoop (rev.take k) s S =
        .ok (liveWalk (bitIndex s.valueToBitVectorIndex) (rev.take k) S, s0) ∧
      transferInst s0 (liveWalk (bitIndex s.valueToBitVectorIndex) (rev.take k) S) rev[k]
        = .ok (X, sX) ∧
      transferLoop (rev.drop (k + 1)) sX X = .ok (r, s1) ∧
      X = liveBefore (bitIndex s.valueToBitVectorIndex) rev[k]
        (liveWalk (bitIndex s.valueToBitVectorIndex) (rev.take k) S) ∧
      sX.instrInSet rev[k].id = some X := by
  have hsplit : rev.take k ++ rev[k] :: rev.drop (k + 1) = rev := by
    rw [← List.drop_eq_getElem_cons hk, List.take_append_drop]
  have h2 : transferLoop (rev.take k ++ rev[k] :: rev.drop (k + 1)) s S = .ok (r, s1) := by
    rw [hsplit]
    exact h
  obtain ⟨r0, s0, h0, hrest⟩ := transferLoop_append.1 h2
  obtain ⟨a1, a2, -⟩ := transferLoop_ok h0
  unfold transferLoop at hrest
  split at hrest
  · cases hrest
  · next X sX hX =>
    obtain ⟨b1, -, b3, -⟩ := transferInst_ok hX
    subst a1
    refine ⟨s0, X, sX, h0, hX, hrest, ?_, ?_⟩
    · rw [b1, a2]
    · rw [b3, assign_eq]

/-- C13, amended. When the walk reaches instruction `i`, the current set is
the set that follows `i`: the per-instruction set of the next instruction of
the block, or `OUT[b]` when `i` is the last one. The per-instruction set of `i`
receives a copy of it and the kill and gen of `i` are applied to that recorded
set, which is the current set from which the walk goes on; `OUT[b]` is not
changed. So after `transferFn(b)` the per-instruction set of every instruction
is the live-in set immediately before it, and that of the last instruction is
`OUT[b]` with its own kill and gen applied. -/
theorem recorded_set_after_kill_gen (s s1 : Live) (bb : BasicBlock) (O r : BitVector)
    (front : List Instruction) (last : Instruction)
    (hnd : (bb.insts.map Instruction.id).Nodup) (hout : s.out bb.id = some O)
    (hsplit : bb.insts = front ++ [last]) (h : transferFn s bb = .ok (r, s1)) :
    s1.instrInSet last.id = some (liveBefore (bitIndex s.valueToBitVectorIndex) last O) ∧
    s1.out bb.id = some O ∧
    ∀ p (hp : p < bb.insts.length), ∃ S s0 X sX,
      (if hq : p + 1 < bb.insts.length then s1.instrInSet bb.insts[p + 1].id = some S
       else S = O) ∧
      transferLoop (bb.insts.reverse.take (bb.insts.length - 1 - p)) s O = .ok (S, s0) ∧
      transferInst s0 S bb.insts[p] = .ok (X, sX) ∧
      transferLoop (bb.insts.reverse.drop (bb.insts.length - 1 - p + 1)) sX X = .ok (r, s1) ∧
      X = liveBefore (bitIndex s.valueToBitVectorIndex) bb.insts[p] S ∧
      sX.instrInSet bb.insts[p].id = some X ∧
      s1.instrInSet bb.insts[p].id = some X := by
  obtain ⟨h1, h2⟩ := transferFn_last front last hnd hout hsplit h
  refine ⟨h1, h2, ?_⟩
  intro p hp
  obtain ⟨O1, hO1, -, hloop⟩ := transferFn_inv h
  rw [hout] at hO1
  injection hO1 with hO1
  subst hO1
  have hndr : (bb.insts.reverse.map Instruction.id).Nodup := by
    rw [List.map_reverse]
    exact List.nodup_reverse.2 hnd
  have hget : ∀ q (hq : q < bb.insts.length),
      s1.instrInSet bb.insts[q].id =
        some (liveWalk (bitIndex s.valueToBitVectorIndex)
          (bb.insts.reverse.take (bb.insts.length - 1 - q + 1)) O) := by
    intro q hq
    have hk : bb.insts.length - 1 - q < bb.insts.reverse.length := by
      rw [List.length_reverse]
      omega
    have := transferLoop_instrInSet hloop hndr (bb.insts.length - 1 - q) hk
    rw [List.getElem_reverse] at this
    have hidx : bb.insts.length - 1 - (bb.insts.length - 1 - q) = q := by omega
    simp only [hidx] at this
    exact this
  have hk : bb.insts.length - 1 - p < bb.insts.reverse.length := by
    rw [List.length_reverse]
    omega
  obtain ⟨s0, X, sX, t1, t2, t3, t4, t5⟩ := transferLoop_turn hloop (bb.insts.length - 1 - p) hk
  have hidx : bb.insts.length - 1 - (bb.insts.length - 1 - p) = p := by omega
  rw [List.getElem_reverse] at t2 t4 t5
  simp only [hidx] at t2 t4 t5
  refine ⟨_, s0, X, sX, ?_, t1, t2, t3, t4, t5, ?_⟩
  · split
    · next hq =>
      rw [hget (p + 1) hq]
      have : bb.insts.length - 1 - (p + 1) + 1 = bb.insts.length - 1 - p := by omega
      rw [this]
    · next hq =>
      have : bb.insts.length - 1 - p = 0 := by omega
      rw [this]
      simp [liveWalk]
  · rw [hget p hp, liveWalk_take_succ _ _ _ _ hk, List.getElem_reverse, t4]
    simp only [hidx]

/-- Witness of the amended C13 on `t1 = add a, b; ret t1`: the set of `ret` is
`OUT` with the gen of `ret` applied, `{t1}`, and the turn on `t1 = add` starts
from that set and records `{a, b}`. -/
theorem recorded_set_after_kill_gen_witness :
    ∃ r s1 s0 sX, transferFn straightState straightBlock = .ok (r, s1) ∧
      s1.instrInSet retInst.id = some [false, false, true, false] ∧
      s1.out straightBlock.id = some [false, false, false, false] ∧
      transferInst s0 [false, false, true, false] addInst
        = .ok ([true, true, false, false], sX) ∧
      s1.instrInSet addInst.id = some [true, true, false, false] := by
  obtain ⟨⟨r, s1⟩, h⟩ :=
    exists_of_isOk (x := transferFn straightState straightBlock) (by decide)
  have hout : straightState.out straightBlock.id = some [false, false, false, false] := by
    decide
  have hw := recorded_set_after_kill_gen straightState s1 straightBlock _ r [addInst] retInst
    (by decide) hout rfl h
  have c1 : liveBefore (bitIndex straightState.valueToBitVectorIndex) retInst
      [false, false, false, false] = [false, false, true, false] := by decide
  have c0 : liveBefore (bitIndex straightState.valueToBitVectorIndex) addInst
      [false, false, true, false] = [true, true, false, false] := by decide
  have hret : s1.instrInSet retInst.id = some [false, false, true, false] := by
    rw [← c1]
    exact hw.1
  obtain ⟨S, s0, X, sX, hS, -, hturn, -, hX, -, hrec⟩ := hw.2.2 0 (by decide)
  have hS1 : s1.instrInSet retInst.id = some S := by simpa [straightBlock] using hS
  have hSeq : S = [false, false, true, false] := by
    rw [hret] at hS1
    injection hS1 with hS1
    exact hS1.symm
  subst hSeq
  have hXeq : X = [true, true, false, false] := by
    rw [hX]
    exact c0
  subst hXeq
  exact ⟨r, s1, s0, sX, h, hret, hw.2.1, hturn, hrec⟩

/-! ### What `transferFn` leaves alone -/

theorem subscript_snd_of_isSome {idx : ValueMap Value Nat} {v : Value}
    (h : (idx v).isSome = true) : (ValueMap.subscript idx v).2 = idx := by
  unfold ValueMap.subscript
  cases hv : idx v with
  | some k => rfl
  | none => simp [hv] at h

theorem killDefinition_idx {i : Instruction} {S S1 : BitVector} {idx idx1 : ValueMap Value Nat}
    (hi : i.kind ≠ InstKind.terminator → (idx i.toValue).isSome = true)
    (h : killDefinition i S idx = .ok (S1, idx1)) : idx1 = idx := by
  unfold killDefinition at h
  split at h
  · next hd =>
    have hk : i.kind ≠ InstKind.terminator := by
      intro hk
      simp [isDefinition, hk] at hd
    split at h
    · injection h with h
      injection h with h1 h2
      rw [← h2, subscript_snd_of_isSome (hi hk)]
    · cases h
  · injection h with h
    injection h with h1 h2
    exact h2.symm

theorem addOperands_idx {ops : List Value} {S S2 : BitVector} {idx idx2 : ValueMap Value Nat}
    (hops : ∀ v ∈ ops, v.isInstrOrArg = true → (idx v).isSome = true)
    (h : addOperands ops S idx = .ok (S2, idx2)) : idx2 = idx := by
  induction ops generalizing S with
  | nil =>
    simp only [addOperands] at h
    injection h with h
    injection h with h1 h2
    exact h2.symm
  | cons v rest ih =>
    unfold addOperands at h
    by_cases hv : v.isInstrOrArg = true
    · rw [if_pos hv, subscript_snd_of_isSome (hops v (List.mem_cons_self _ _) hv)] at h
      split at h
      · exact ih (fun w hw => hops w (List.mem_cons_of_mem _ hw)) h
      · cases h
    · rw [if_neg hv] at h
      exact ih (fun w hw => hops w (List.mem_cons_of_mem _ hw)) h

theorem addIncoming_idx {ds : Nat} {inc : List (Value × Nat)} {nsv nsv1 : ValueMap Nat BitVector}
    {idx idx1 : ValueMap Value Nat}
    (hinc : ∀ q ∈ inc, q.1.isInstrOrArg = true → (idx q.1).isSome = true)
    (h : addIncoming ds inc nsv idx = .ok (nsv1, idx1)) : idx1 = idx := by
  induction inc generalizing nsv with
  | nil =>
    simp only [addIncoming] at h
    injection h with h
    injection h with h1 h2
    exact h2.symm
  | cons q rest ih =>
    obtain ⟨val, blk0⟩ := q
    unfold addIncoming at h
    by_cases hv : val.isInstrOrArg = true
    · rw [if_pos hv] at h
      simp only [] at h
      rw [subscript_snd_of_isSome (hinc (val, blk0) (List.mem_cons_self _ _) hv)] at h
      split at h
      · exact ih (fun w hw => hinc w (List.mem_cons_of_mem _ hw)) h
      · cases h
    · rw [if_neg hv] at h
      exact ih (fun w hw => hinc w (List.mem_cons_of_mem _ hw)) h

theorem transferInst_idx {s s1 : Live} {S X : BitVector} {i : Instruction}
    (hself : i.kind ≠ InstKind.terminator → (s.valueToBitVectorIndex i.toValue).isSome = true)
    (hops : i.kind ≠ InstKind.phi → ∀ v ∈ i.operands, v.isInstrOrArg = true →
      (s.valueToBitVectorIndex v).isSome = true)
    (hinc : i.kind = InstKind.phi → ∀ q ∈ i.incoming, q.1.isInstrOrArg = true →
      (s.valueToBitVectorIndex q.1).isSome = true)
    (h : transferInst s S i = .ok (X, s1)) :
    s1.valueToBitVectorIndex = s.valueToBitVectorIndex := by
  obtain ⟨old, S1, idx1, -, hkill, hrest⟩ := transferInst_inv h
  have e1 := killDefinition_idx hself hkill
  subst e1
  rcases hrest with ⟨hk, idx2, hops2, hs1⟩ | ⟨hk, nsv, idx2, hinc2, -, hs1⟩
  · rw [hs1]
    exact addOperands_idx (hops hk) hops2
  · rw [hs1]
    exact addIncoming_idx (hinc hk) hinc2

theorem transferLoop_idx {rev : List Instruction} {s s1 : Live} {S r : BitVector}
    (hself : ∀ i ∈ rev, i.kind ≠ InstKind.terminator →
      (s.valueToBitVectorIndex i.toValue).isSome = true)
    (hops : ∀ i ∈ rev, i.kind ≠ InstKind.phi → ∀ v ∈ i.operands, v.isInstrOrArg = true →
      (s.valueToBitVectorIndex v).isSome = true)
    (hinc : ∀ i ∈ rev, i.kind = InstKind.phi → ∀ q ∈ i.incoming, q.1.isInstrOrArg = true →
      (s.valueToBitVectorIndex q.1).isSome = true)
    (h : transferLoop rev s S = .ok (r, s1)) :
    s1.valueToBitVectorIndex = s.valueToBitVectorIndex := by
  induction rev generalizing s S with
  | nil =>
    simp only [transferLoop] at h
    injection h with h
    injection h with h1 h2
    rw [← h2]
  | cons i rest ih =>
    unfold transferLoop at h
    split at h
    · cases h
    · next X sX hX =>
      have e := transferInst_idx (hself i (List.mem_cons_self _ _))
        (hops i (List.mem_cons_self _ _)) (hinc i (List.mem_cons_self _ _)) hX
      have := ih (s := sX)
        (by rw [e]; exact fun j hj => hself j (List.mem_cons_of_mem _ hj))
        (by rw [e]; exact fun j hj => hops j (List.mem_cons_of_mem _ hj))
        (by rw [e]; exact fun j hj => hinc j (List.mem_cons_of_mem _ hj)) h
      exact this.trans e

/-- C18. `transferFn` works on a copy of `OUT`: it leaves the `OUT` and `IN`
tables as they are, for `b` and for every other block, it leaves the index map
as it is when every value it looks up has its entry, and it changes the
per-instruction sets of the instructions of `b` only. -/
theorem transferFn_frame (s s1 : Live) (bb : BasicBlock) (r : BitVector)
    (hidx : s.Indexed bb) (h : transferFn s bb = .ok (r, s1)) :
    s1.out = s.out ∧ s1.in_ = s.in_ ∧
    s1.valueToBitVectorIndex = s.valueToBitVectorIndex ∧
    s1.bvIndexToInstrArg = s.bvIndexToInstrArg ∧ s1.domainSize = s.domainSize ∧
    (∀ id, id ∉ bb.insts.map Instruction.id → s1.instrInSet id = s.instrInSet id) := by
  obtain ⟨O, -, -, hloop⟩ := transferFn_inv h
  obtain ⟨-, -, a3, a4, a5, a6, -, a8⟩ := transferLoop_ok hloop
  refine ⟨a3, a4, ?_, a6, a5, ?_⟩
  · exact transferLoop_idx
      (fun i hi => hidx.self i (List.mem_reverse.1 hi))
      (fun i hi => hidx.operands i (List.mem_reverse.1 hi))
      (fun i hi => hidx.incoming i (List.mem_reverse.1 hi)) hloop
  · intro id hid
    apply a8
    rw [List.map_reverse, List.mem_reverse]
    exact hid

/-- Witness of C18 on `t1 = add a, b; ret t1`: the set of an instruction
outside the block (number 7) and `OUT` are as before. -/
theorem transferFn_frame_witness :
    ∃ r s1, transferFn straightState straightBlock = .ok (r, s1) ∧
      s1.out = straightState.out ∧
      s1.valueToBitVectorIndex = straightState.valueToBitVectorIndex ∧
      s1.instrInSet 7 = straightState.instrInSet 7 := by
  obtain ⟨⟨r, s1⟩, h⟩ :=
    exists_of_isOk (x := transferFn straightState straightBlock) (by decide)
  have hw := transferFn_frame straightState s1 straightBlock r
    ⟨by decide, by decide, by decide⟩ h
  exact ⟨r, s1, h, hw.1, hw.2.2.1, hw.2.2.2.2.2 7 (by decide)⟩

/-! ### Sizes and bit positions -/

theorem initInstrInSet_lookup (l : List Instruction) (s : Live) (x : Nat) :
    (initInstrInSet l s).instrInSet x =
      if x ∈ l.map Instruction.id then some (BitVector.create s.domainSize false)
      else s.instrInSet x := by
  induction l generalizing s with
  | nil => simp [initInstrInSet]
  | cons i rest ih =>
    rw [initInstrInSet, ih]
    by_cases hx : x ∈ rest.map Instruction.id
    · simp [hx]
    · by_cases hxi : x = i.id
      · simp [hx, hxi, ValueMap.assign]
      · simp [hx, hxi, ValueMap.assign]

/-- Where the entries of the overlay come from after a turn of the loop. -/
theorem transferInst_overlay_origin {s s1 : Live} {S X : BitVector} {i : Instruction}
    (h : transferInst s S i = .ok (X, s1)) (blk : Nat) (e1 : BitVector)
    (he1 : s1.neighbourSpecificValues blk = some e1) :
    (∃ e, s.neighbourSpecificValues blk = some e ∧ e1.length = e.length) ∨
    (s.neighbourSpecificValues blk = none ∧ e1.length = s.domainSize) := by
  obtain ⟨old, S1, idx1, -, -, hrest⟩ := transferInst_inv h
  rcases hrest with ⟨-, idx2, -, hs1⟩ | ⟨-, nsv, idx2, hinc, -, hs1⟩
  · rw [hs1] at he1
    exact Or.inl ⟨e1, he1, rfl⟩
  · rw [hs1] at he1
    exact (addIncoming_ok hinc).2.2.1 blk e1 he1

theorem transferLoop_overlay_origin {rev : List Instruction} {s s1 : Live} {S r : BitVector}
    (h : transferLoop rev s S = .ok (r, s1)) (blk : Nat) (e1 : BitVector)
    (he1 : s1.neighbourSpecificValues blk = some e1) :
    (∃ e, s.neighbourSpecificValues blk = some e ∧ e1.length = e.length) ∨
    (s.neighbourSpecificValues blk = none ∧ e1.length = s.domainSize) := by
  induction rev generalizing s S with
  | nil =>
    simp only [transferLoop] at h
    injection h with h
    injection h with h1 h2
    subst h2
    exact Or.inl ⟨e1, he1, rfl⟩
  | cons i rest ih =>
    unfold transferLoop at h
    split at h
    · cases h
    · next X sX hX =>
      have hsize : sX.domainSize = s.domainSize := (transferInst_ok hX).2.2.2.2.2.1
      rcases ih h with ⟨e0, he0, hl0⟩ | ⟨hn0, hl0⟩
      · rcases transferInst_overlay_origin hX blk e0 he0 with ⟨e, he, hl⟩ | ⟨hn, hl⟩
        · exact Or.inl ⟨e, he, hl0.trans hl⟩
        · exact Or.inr ⟨hn, hl0.trans hl⟩
      · right
        refine ⟨?_, hl0.trans hsize⟩
        cases hs : s.neighbourSpecificValues blk with
        | none => rfl
        | some e =>
          obtain ⟨e0, he0, -⟩ := transferInst_overlay hX blk e hs
          rw [hn0] at he0
          cases he0

/-- Every instruction of the walk has, after it, a per-instruction set of the
length of the vector the walk started from. -/
theorem transferLoop_entry_length {rev : List Instruction} {s s1 : Live} {S r : BitVector}
    (h : transferLoop rev s S = .ok (r, s1)) :
    ∀ i ∈ rev, ∃ X, s1.instrInSet i.id = some X ∧ X.length = S.length := by
  induction rev generalizing s S with
  | nil =>
    intro i hi
    cases hi
  | cons j rest ih =>
    intro i hi
    unfold transferLoop at h
    split at h
    · cases h
    · next X sX hX =>
      obtain ⟨b1, -, b3, -⟩ := transferInst_ok hX
      have hXlen : X.length = S.length := by rw [b1, length_liveBefore]
      by_cases hmem : i.id ∈ rest.map Instruction.id
      · obtain ⟨i2, hi2, hid⟩ := List.mem_map.1 hmem
        obtain ⟨Y, hY, hYl⟩ := ih h i2 hi2
        exact ⟨Y, hid ▸ hY, hYl.trans hXlen⟩
      · have hij : i = j := by
          rcases List.mem_cons.1 hi with hij | hir
          · exact hij
          · exact absurd (List.mem_map.2 ⟨i, hir, rfl⟩) hmem
        subst hij
        obtain ⟨-, -, -, -, -, -, -, a8⟩ := transferLoop_ok h
        exact ⟨X, by rw [a8 i.id hmem, b3, assign_eq], hXlen⟩

/-- C19. Flow-value size invariant: the values created by
`initializeFlowValue`, by `setBoundaryCondition`, by the per-instruction table
initialisation of `runOnFunction` and by the lazy creation of an overlay entry
have length `domainSize`; when `OUT[b]` has length `domainSize`, the IN
returned by `transferFn(b)` and every per-instruction set it writes have
length `domainSize`; and `meetOp` on two vectors of length `domainSize` leaves
a vector of length `domainSize`. -/
theorem flow_value_sizes (s : Live) :
    (∀ b setType, (initializeFlowValue s b setType).length = s.domainSize) ∧
    (∀ prev, (setBoundaryCondition s prev).length = s.domainSize) ∧
    (∀ (F : Function) (i : Instruction), i ∈ F.instructions →
      ∃ X, (runOnFunctionSetup s F).instrInSet i.id = some X ∧
        X.length = (runOnFunctionSetup s F).domainSize) ∧
    (∀ (bb : BasicBlock) (r : BitVector) (s1 : Live), transferFn s bb = .ok (r, s1) →
      ∀ blk e1, s.neighbourSpecificValues blk = none →
        s1.neighbourSpecificValues blk = some e1 → e1.length = s.domainSize) ∧
    (∀ (bb : BasicBlock) (O r : BitVector) (s1 : Live), s.out bb.id = some O →
      O.length = s.domainSize → transferFn s bb = .ok (r, s1) →
      r.length = s.domainSize ∧
      ∀ i ∈ bb.insts, ∃ X, s1.instrInSet i.id = some X ∧ X.length = s.domainSize) ∧
    (∀ lhs rhs : BitVector, lhs.length = s.domainSize → rhs.length = s.domainSize →
      ∃ lhs1, meetOp lhs rhs = .ok lhs1 ∧ lhs1.length = s.domainSize) := by
  refine ⟨?_, ?_, ?_, ?_, ?_, ?_⟩
  · intro b setType
    simp [initializeFlowValue, BitVector.create]
  · intro prev
    simp [setBoundaryCondition, BitVector.create]
  · intro F i hi
    have hl := initInstrInSet_lookup F.instructions (buildIndex s F) i.id
    rw [if_pos (List.mem_map.2 ⟨i, hi, rfl⟩)] at hl
    refine ⟨_, hl, ?_⟩
    rw [show (runOnFunctionSetup s F).domainSize = (buildIndex s F).domainSize from
      (initInstrInSet_fields F.instructions (buildIndex s F)).2.1]
    simp [BitVector.create]
  · intro bb r s1 h blk e1 hnone hsome
    obtain ⟨O, -, -, hloop⟩ := transferFn_inv h
    rcases transferLoop_overlay_origin hloop blk e1 hsome with ⟨e, he, -⟩ | ⟨-, hl⟩
    · rw [hnone] at he
      cases he
    · exact hl
  · intro bb O r s1 hout hlen h
    obtain ⟨O1, hO1, -, hloop⟩ := transferFn_inv h
    rw [hout] at hO1
    injection hO1 with hO1
    subst hO1
    refine ⟨?_, ?_⟩
    · rw [(transferLoop_ok hloop).1, length_liveWalk, hlen]
    · intro i hi
      obtain ⟨X, hX, hXl⟩ := transferLoop_entry_length hloop i (List.mem_reverse.2 hi)
      exact ⟨X, hX, hXl.trans hlen⟩
  · intro lhs rhs hl hr
    refine ⟨List.zipWith (fun a b => a || b) lhs rhs, ?_, ?_⟩
    · simp [meetOp, BitVector.unionInPlace, hl, hr]
    · simp [List.length_zipWith, hl, hr]

/-- Witness of C19 on the block `Merge` of the diamond, whose phi-node creates
the overlay entries of `L` and `R`. -/
theorem flow_value_sizes_witness :
    ∃ r s1 e1, transferFn diamondState mergeBlock = .ok (r, s1) ∧
      r.length = diamondState.domainSize ∧
      s1.neighbourSpecificValues 1 = some e1 ∧ e1.length = diamondState.domainSize := by
  obtain ⟨⟨r, s1⟩, h⟩ :=
    exists_of_isOk (x := transferFn diamondState mergeBlock) (by decide)
  have hw := flow_value_sizes diamondState
  have hout : diamondState.out mergeBlock.id = some (BitVector.create 8 false) := by decide
  have hr := (hw.2.2.2.2.1 mergeBlock _ r s1 hout (by decide) h).1
  have hsome : (s1.neighbourSpecificValues 1).isSome = true := by
    have hd : (match transferFn diamondState mergeBlock with
        | .ok res => (res.2.neighbourSpecificValues 1).isSome
        | .error _ => false) = true := by decide
    rw [h] at hd
    exact hd
  obtain ⟨e1, he1⟩ := Option.isSome_iff_exists.1 hsome
  exact ⟨r, s1, e1, h, hr, he1, hw.2.2.2.1 mergeBlock r s1 h 1 e1 (by decide) he1⟩

theorem indexValues_map_lt (vs : List Value) (s : Live) (index : Nat) (x : Value)
    (hx : x ∈ vs) :
    ∃ i, (indexValues vs s index).1.valueToBitVectorIndex x = some i ∧ i < index + vs.length := by
  induction vs generalizing s index with
  | nil => simp at hx
  | cons v rest ih =>
    by_cases hxr : x ∈ rest
    · obtain ⟨i, hi, hlt⟩ := ih (pushValue s v index) (index + 1) hxr
      exact ⟨i, hi, by simp only [List.length_cons]; omega⟩
    · have hxv : x = v := by
        rcases List.mem_cons.1 hx with h | h
        · exact h
        · exact absurd h hxr
      refine ⟨index, ?_, by simp only [List.length_cons]; omega⟩
      rw [indexValues, indexValues_map_of_not_mem _ _ _ _ hxr]
      simp [pushValue, ValueMap.assign, hxv]

/-- Every value of the function has an index below `domainSize`. -/
theorem buildIndex_indexed (s : Live) (F : Function) (v : Value) (hv : v ∈ F.values) :
    ∃ i, (buildIndex s F).valueToBitVectorIndex v = some i ∧ i < (buildIndex s F).domainSize := by
  rw [buildIndex_eq]
  obtain ⟨i, hi, hlt⟩ := indexValues_map_lt
    (F.args.map Value.argument ++ F.instructions.map Instruction.toValue)
    { s with domain := [], bvIndexToInstrArg := [], valueToBitVectorIndex := ValueMap.empty,
             instrInSet := ValueMap.empty } 0 v hv
  refine ⟨i, hi, ?_⟩
  simpa using hlt

/-- The tables fit the function when they carry the index map, the
per-instruction table and the Domain size of the set-up and every overlay
entry has the Domain size. -/
theorem ready_of_setup (s0 : Live) (F : Function)
    (hops : ∀ i ∈ F.instructions, i.kind ≠ InstKind.phi →
      ∀ v ∈ i.operands, v.isInstrOrArg = true → v ∈ F.values)
    (hinc : ∀ i ∈ F.instructions, i.kind = InstKind.phi →
      ∀ q ∈ i.incoming, q.1.isInstrOrArg = true → q.1 ∈ F.values)
    (s : Live)
    (hidx : s.valueToBitVectorIndex = (runOnFunctionSetup s0 F).valueToBitVectorIndex)
    (hset : s.instrInSet = (runOnFunctionSetup s0 F).instrInSet)
    (hsize : s.domainSize = (runOnFunctionSetup s0 F).domainSize)
    (hov : ∀ blk e, s.neighbourSpecificValues blk = some e → e.length = s.domainSize) :
    s.Ready F := by
  obtain ⟨i1, i2, -, i4, -⟩ := initInstrInSet_fields F.instructions (buildIndex s0 F)
  have hidx1 : s.valueToBitVectorIndex = (buildIndex s0 F).valueToBitVectorIndex :=
    hidx.trans i1
  have hsize1 : s.domainSize = (buildIndex s0 F).domainSize := hsize.trans i2
  have hlt : ∀ v ∈ F.values, bitIndex s.valueToBitVectorIndex v < s.domainSize := by
    intro v hv
    obtain ⟨k, hk, hklt⟩ := buildIndex_indexed s0 F v hv
    rw [hidx1, hsize1, bitIndex_of_some hk]
    exact hklt
  refine ⟨?_, ?_, ?_, ?_, hov⟩
  · intro i hi
    rw [hset]
    exact i4 i hi
  · intro i hi
    apply hlt
    simp only [Function.values, List.mem_append, List.mem_map]
    exact Or.inr ⟨i, hi, rfl⟩
  · intro i hi hk v hv hvt
    exact hlt v (hops i hi hk v hv hvt)
  · intro i hi hk q hq hqt
    exact hlt q.1 (hinc i hi hk q hq hqt)

/-- C20. No out-of-range bit access: let the operands and the phi incoming
values of `F` that are instructions or arguments belong to `F`, and let the
tables carry the index map, the per-instruction table and `domainSize` built
by `runOnFunction`, every overlay entry having length `domainSize`. On a
non-empty block `b` of `F` whose `OUT` has length `domainSize`, every
instruction of `b` has a per-instruction entry, every bit position
`transferFn` computes lies below `domainSize`, and `transferFn` returns: no
`IndexError`, no missing entry. -/
theorem transferFn_in_range (s0 : Live) (F : Function)
    (hops : ∀ i ∈ F.instructions, i.kind ≠ InstKind.phi →
      ∀ v ∈ i.operands, v.isInstrOrArg = true → v ∈ F.values)
    (hinc : ∀ i ∈ F.instructions, i.kind = InstKind.phi →
      ∀ q ∈ i.incoming, q.1.isInstrOrArg = true → q.1 ∈ F.values)
    (s : Live)
    (hidx : s.valueToBitVectorIndex = (runOnFunctionSetup s0 F).valueToBitVectorIndex)
    (hset : s.instrInSet = (runOnFunctionSetup s0 F).instrInSet)
    (hsize : s.domainSize = (runOnFunctionSetup s0 F).domainSize)
    (hov : ∀ blk e, s.neighbourSpecificValues blk = some e → e.length = s.domainSize)
    (b : BasicBlock) (hb : b ∈ F.blocks) (hne : b.insts ≠ []) (O : BitVector)
    (hO : s.out b.id = some O) (hlen : O.length = s.domainSize) :
    (∀ i ∈ b.insts, ∃ X, s.instrInSet i.id = some X) ∧
    (∀ i ∈ b.insts, bitIndex s.valueToBitVectorIndex i.toValue < s.domainSize) ∧
    (∀ i ∈ b.insts, i.kind ≠ InstKind.phi → ∀ v ∈ i.operands, v.isInstrOrArg = true →
      bitIndex s.valueToBitVectorIndex v < s.domainSize) ∧
    (∀ i ∈ b.insts, i.kind = InstKind.phi → ∀ q ∈ i.incoming, q.1.isInstrOrArg = true →
      bitIndex s.valueToBitVectorIndex q.1 < s.domainSize) ∧
    (∃ r s1, transferFn s b = .ok (r, s1)) := by
  have hr := ready_of_setup s0 F hops hinc s hidx hset hsize hov
  refine ⟨?_, ?_, ?_, ?_, ?_⟩
  · intro i hi
    exact hr.entries i (mem_instructions hb hi)
  · intro i hi
    exact hr.self_lt i (mem_instructions hb hi)
  · intro i hi
    exact hr.operands_lt i (mem_instructions hb hi)
  · intro i hi
    exact hr.incoming_lt i (mem_instructions hb hi)
  · obtain ⟨s1, h, -⟩ := transferFn_succeeds hr b hb hne O hO hlen
    exact ⟨_, s1, h⟩

/-- Witness of C20 on the block `Merge` of the diamond. -/
theorem transferFn_in_range_witness :
    ∃ r s1, transferFn diamondState mergeBlock = .ok (r, s1) := by
  have hw := transferFn_in_range (Live.init 0) diamond (by decide) (by decide) diamondState
    rfl rfl rfl
    (by
      intro blk e he
      cases he)
    mergeBlock (by decide) (by decide) (BitVector.create 8 false) (by decide) (by decide)
  exact hw.2.2.2.2

/-! ### The block-level form of the transfer function -/

theorem liveWalk_reverse_cons (ix : Value → Nat) (i : Instruction) (rest : List Instruction)
    (O : BitVector) :
    liveWalk ix (i :: rest).reverse O = liveBefore ix i (liveWalk ix rest.reverse O) := by
  simp [liveWalk, List.foldl_append]

theorem mem_blockGEN_cons (ix : Value → Nat) (i : Instruction) (rest : List Instruction)
    (k : Nat) :
    k ∈ blockGEN ix (i :: rest) ↔
      (i.kind ≠ InstKind.phi ∧ ∃ v ∈ i.operands, v.isInstrOrArg = true ∧ ix v = k) ∨
      (k ∈ blockGEN ix rest ∧ ¬ (i.kind ≠ InstKind.terminator ∧ ix i.toValue = k)) := by
  simp only [blockGEN, List.mem_append, List.mem_filter, Bool.not_eq_true', Bool.and_eq_false_imp,
    decide_eq_true_eq, decide_eq_false_iff_not]
  by_cases hk : i.kind = InstKind.phi
  · simp [hk]
  · simp only [hk, if_false, List.mem_map, List.mem_filter, ne_eq, not_false_eq_true, true_and,
      not_and]
    constructor
    · rintro (⟨v, ⟨hv, hvt⟩, hvk⟩ | h)
      · exact Or.inl ⟨v, hv, hvt, hvk⟩
      · exact Or.inr h
    · rintro (⟨v, hv, hvt, hvk⟩ | h)
      · exact Or.inl ⟨v, ⟨hv, hvt⟩, hvk⟩
      · exact Or.inr h

theorem mem_blockDEF_cons (ix : Value → Nat) (i : Instruction) (rest : List Instruction)
    (k : Nat) :
    k ∈ blockDEF ix (i :: rest) ↔
      (i.kind ≠ InstKind.terminator ∧ ix i.toValue = k) ∨ k ∈ blockDEF ix rest := by
  unfold blockDEF
  by_cases hk : i.kind = InstKind.terminator
  · simp [List.filter_cons, hk]
  · simp only [List.filter_cons, ne_eq, hk, not_false_eq_true, decide_True, if_true,
      List.map_cons, List.mem_cons, true_and]
    constructor
    · rintro (h | h)
      · exact Or.inl h.symm
      · exact Or.inr h
    · rintro (h | h)
      · exact Or.inl h.symm
      · exact Or.inr h

/-- The flow value of a block in the form `GEN U (OUT - KILL)` of the file
header, bit by bit. -/
theorem test_liveWalk_gen_kill (ix : Value → Nat) (insts : List Instruction) (O : BitVector)
    (k : Nat) :
    BitVector.test (liveWalk ix insts.reverse O) k = true ↔
      (k < O.length ∧ k ∈ blockGEN ix insts) ∨
      (BitVector.test O k = true ∧ k ∉ blockDEF ix insts) := by
  induction insts with
  | nil => simp [liveWalk, blockGEN, blockDEF]
  | cons i rest ih =>
    rw [liveWalk_reverse_cons, test_liveBefore, ih, length_liveWalk, mem_blockGEN_cons,
      mem_blockDEF_cons]
    constructor
    · rintro (⟨hp, v, hv, hvt, hvk, hlt⟩ | ⟨(⟨hlt, hg⟩ | ⟨hO, hd⟩), hn⟩)
      · exact Or.inl ⟨hlt, Or.inl ⟨hp, v, hv, hvt, hvk⟩⟩
      · exact Or.inl ⟨hlt, Or.inr ⟨hg, hn⟩⟩
      · exact Or.inr ⟨hO, fun h => h.elim hn hd⟩
    · rintro (⟨hlt, (⟨hp, v, hv, hvt, hvk⟩ | ⟨hg, hn⟩)⟩ | ⟨hO, hd⟩)
      · exact Or.inl ⟨hp, v, hv, hvt, hvk, hlt⟩
      · exact Or.inr ⟨Or.inl ⟨hlt, hg⟩, hn⟩
      · exact Or.inr ⟨Or.inr ⟨hO, fun h => hd (Or.inr h)⟩, fun h => hd (Or.inl h)⟩

/-- C15. `transferFn` is monotone in `OUT` and its kill set is
block-invariant: for two runs on the same block and index map from `OUT`
included in `OUT'`, the IN returned for `OUT` is included in the IN returned
for `OUT'` and so is each per-instruction set; both results have the form
`GEN U (OUT - DEF)` with the same sets `GEN` and `DEF`, which do not mention
`OUT`, so every bit `transferFn` clears is a position of `DEF`. -/
theorem transferFn_monotone (s t s1 t1 : Live) (bb : BasicBlock) (O P r q : BitVector)
    (hnd : (bb.insts.map Instruction.id).Nodup)
    (hidx : t.valueToBitVectorIndex = s.valueToBitVectorIndex)
    (hO : s.out bb.id = some O) (hP : t.out bb.id = some P) (hsub : BitVector.Subset O P)
    (hs : transferFn s bb = .ok (r, s1)) (ht : transferFn t bb = .ok (q, t1)) :
    BitVector.Subset r q ∧
    (∀ i ∈ bb.insts, ∃ X Y, s1.instrInSet i.id = some X ∧ t1.instrInSet i.id = some Y ∧
      BitVector.Subset X Y) ∧
    (∀ k, BitVector.test r k = true ↔
      (k < O.length ∧ k ∈ blockGEN (bitIndex s.valueToBitVectorIndex) bb.insts) ∨
      (BitVector.test O k = true ∧ k ∉ blockDEF (bitIndex s.valueToBitVectorIndex) bb.insts)) ∧
    (∀ k, BitVector.test q k = true ↔
      (k < P.length ∧ k ∈ blockGEN (bitIndex s.valueToBitVectorIndex) bb.insts) ∨
      (BitVector.test P k = true ∧ k ∉ blockDEF (bitIndex s.valueToBitVectorIndex) bb.insts)) ∧
    (∀ k, BitVector.test O k = true → BitVector.test r k = false →
      k ∈ blockDEF (bitIndex s.valueToBitVectorIndex) bb.insts) := by
  obtain ⟨O1, hO1, -, hloopS⟩ := transferFn_inv hs
  obtain ⟨P1, hP1, -, hloopT⟩ := transferFn_inv ht
  rw [hO] at hO1
  rw [hP] at hP1
  injection hO1 with hO1
  injection hP1 with hP1
  subst hO1 hP1
  have hr := (transferLoop_ok hloopS).1
  have hq := (transferLoop_ok hloopT).1
  rw [hidx] at hq
  have hndr : (bb.insts.reverse.map Instruction.id).Nodup := by
    rw [List.map_reverse]
    exact List.nodup_reverse.2 hnd
  have hform : ∀ k, BitVector.test r k = true ↔
      (k < O.length ∧ k ∈ blockGEN (bitIndex s.valueToBitVectorIndex) bb.insts) ∨
      (BitVector.test O k = true ∧
        k ∉ blockDEF (bitIndex s.valueToBitVectorIndex) bb.insts) := by
    intro k
    rw [hr]
    exact test_liveWalk_gen_kill _ _ _ _
  refine ⟨?_, ?_, hform, ?_, ?_⟩
  · rw [hr, hq]
    exact liveWalk_mono _ _ hsub
  · intro i hi
    obtain ⟨k, hk, hki⟩ := List.getElem_of_mem (List.mem_reverse.2 hi)
    have e1 := transferLoop_instrInSet hloopS hndr k hk
    have e2 := transferLoop_instrInSet hloopT hndr k hk
    rw [hki] at e1 e2
    rw [hidx] at e2
    exact ⟨_, _, e1, e2, liveWalk_mono _ _ hsub⟩
  · intro k
    rw [hq]
    exact test_liveWalk_gen_kill _ _ _ _
  · intro k hk hrk
    by_contra hnot
    have := (hform k).2 (Or.inr ⟨hk, hnot⟩)
    rw [hrk] at this
    cases this

/-- Witness of C15 on the self-looping block, from `OUT = {}` and
`OUT' = {br}`. -/
theorem transferFn_monotone_witness :
    ∃ r q s1 t1, transferFn selfLoopState loopBlock = .ok (r, s1) ∧
      transferFn { selfLoopState with out := ValueMap.assign ValueMap.empty 0 [false, true] }
        loopBlock = .ok (q, t1) ∧
      BitVector.Subset r q := by
  obtain ⟨⟨r, s1⟩, hs⟩ :=
    exists_of_isOk (x := transferFn selfLoopState loopBlock) (by decide)
  obtain ⟨⟨q, t1⟩, ht⟩ :=
    exists_of_isOk
      (x := transferFn
        { selfLoopState with out := ValueMap.assign ValueMap.empty 0 [false, true] } loopBlock)
      (by decide)
  have hsub : BitVector.Subset (BitVector.create 2 false) [false, true] :=
    ⟨rfl, fun k hk => by rw [test_create_false] at hk; cases hk⟩
  have hw := transferFn_monotone selfLoopState
    { selfLoopState with out := ValueMap.assign ValueMap.empty 0 [false, true] }
    s1 t1 loopBlock (BitVector.create 2 false)
    [false, true] r q (by decide) rfl rfl rfl hsub hs ht
  exact ⟨r, q, s1, t1, hs, ht, hw.1⟩

theorem upwardExposed_cons_before (j : Instruction) (before l : List Instruction) (v : Value) :
    v ∈ upwardExposed (j :: before) l ↔
      v ∈ upwardExposed before l ∧ ¬ (j.kind ≠ InstKind.terminator ∧ j.toValue = v) := by
  induction l generalizing before with
  | nil => simp [upwardExposed]
  | cons i rest ih =>
    simp only [upwardExposed, List.mem_append, List.cons_append]
    rw [ih (before ++ [i])]
    by_cases hk : i.kind = InstKind.phi
    · simp [hk]
    · simp only [hk, if_false, List.mem_filter, List.any_cons, Bool.and_eq_true,
        Bool.not_eq_true', Bool.or_eq_false_iff, decide_eq_true_eq, Bool.and_eq_false_imp,
        decide_eq_false_iff_not]
      constructor
      · rintro (⟨hv, hvt, hj, hb⟩ | ⟨h1, h2⟩)
        · exact ⟨Or.inl ⟨hv, hvt, hb⟩, fun hc => hj hc.1 hc.2⟩
        · exact ⟨Or.inr h1, h2⟩
      · rintro ⟨(⟨hv, hvt, hb⟩ | h1), h2⟩
        · exact Or.inl ⟨hv, hvt, fun hc hd => h2 ⟨hc, hd⟩, hb⟩
        · exact Or.inr ⟨h1, h2⟩

theorem upwardExposed_sub (before l : List Instruction) (v : Value)
    (h : v ∈ upwardExposed before l) :
    ∃ i ∈ l, i.kind ≠ InstKind.phi ∧ v ∈ i.operands ∧ v.isInstrOrArg = true := by
  induction l generalizing before with
  | nil => simp [upwardExposed] at h
  | cons i rest ih =>
    simp only [upwardExposed, List.mem_append] at h
    rcases h with h | h
    · by_cases hk : i.kind = InstKind.phi
      · simp [hk] at h
      · simp only [hk, if_false, List.mem_filter, Bool.and_eq_true] at h
        exact ⟨i, List.mem_cons_self _ _, hk, h.1, h.2.1⟩
    · obtain ⟨j, hj, hrest⟩ := ih _ h
      exact ⟨j, List.mem_cons_of_mem _ hj, hrest⟩

/-- The upward-exposed uses, by position: `v` is an instruction or argument
operand of a non-phi instruction `i`, and no non-terminator instruction
strictly before `i` is `v`. -/
theorem mem_upwardExposed (before l : List Instruction) (v : Value) :
    v ∈ upwardExposed before l ↔
      ∃ l1 i l2, l = l1 ++ i :: l2 ∧ i.kind ≠ InstKind.phi ∧ v ∈ i.operands ∧
        v.isInstrOrArg = true ∧
        ∀ j ∈ before ++ l1, ¬ (j.kind ≠ InstKind.terminator ∧ j.toValue = v) := by
  induction l generalizing before with
  | nil => simp [upwardExposed]
  | cons x rest ih =>
    simp only [upwardExposed, List.mem_append]
    rw [ih (before ++ [x])]
    constructor
    · rintro (h | ⟨l1, i, l2, hsplit, hk, hv, hvt, hb⟩)
      · by_cases hk : x.kind = InstKind.phi
        · simp [hk] at h
        · simp only [hk, if_false, List.mem_filter, Bool.and_eq_true, Bool.not_eq_true',
            List.any_eq_false, Bool.and_eq_false_imp, decide_eq_true_eq,
            decide_eq_false_iff_not] at h
          refine ⟨[], x, rest, rfl, hk, h.1, h.2.1, ?_⟩
          intro j hj hc
          rcases hj with hj | hj
          · exact h.2.2 j hj hc
          · cases hj
      · refine ⟨x :: l1, i, l2, by rw [hsplit]; rfl, hk, hv, hvt, ?_⟩
        intro j hj
        apply hb j
        simp only [List.mem_append, List.mem_cons, List.mem_singleton] at hj ⊢
        tauto
    · rintro ⟨l1, i, l2, hsplit, hk, hv, hvt, hb⟩
      cases l1 with
      | nil =>
        simp only [List.nil_append, List.cons.injEq] at hsplit
        obtain ⟨hx, -⟩ := hsplit
        subst hx
        left
        simp only [hk, if_false, List.mem_filter, Bool.and_eq_true, Bool.not_eq_true',
          List.any_eq_false, Bool.and_eq_false_imp, decide_eq_true_eq, decide_eq_false_iff_not]
        refine ⟨hv, hvt, ?_⟩
        intro j hj hc
        exact hb j (Or.inl hj) hc
      | cons y l1 =>
        simp only [List.cons_append, List.cons.injEq] at hsplit
        obtain ⟨hx, hrest⟩ := hsplit
        subst hx
        right
        refine ⟨l1, i, l2, hrest, hk, hv, hvt, ?_⟩
        intro j hj
        apply hb j
        simp only [List.mem_append, List.mem_cons, List.mem_singleton] at hj ⊢
        tauto

theorem mem_blockUSE_cons (ix : Value → Nat) (i : Instruction) (rest : List Instruction)
    (k : Nat) :
    k ∈ blockUSE ix (i :: rest) ↔
      (i.kind ≠ InstKind.phi ∧ ∃ v ∈ i.operands, v.isInstrOrArg = true ∧ ix v = k) ∨
      (∃ v ∈ upwardExposed [] rest,
        ¬ (i.kind ≠ InstKind.terminator ∧ i.toValue = v) ∧ ix v = k) := by
  simp only [blockUSE, upwardExposed, List.nil_append, List.map_append, List.mem_append,
    List.mem_map]
  have hrest : (∃ a, a ∈ upwardExposed [i] rest ∧ ix a = k) ↔
      (∃ v ∈ upwardExposed [] rest,
        ¬ (i.kind ≠ InstKind.terminator ∧ i.toValue = v) ∧ ix v = k) := by
    constructor
    · rintro ⟨v, hv, hvk⟩
      obtain ⟨h1, h2⟩ := (upwardExposed_cons_before i [] rest v).1 hv
      exact ⟨v, h1, h2, hvk⟩
    · rintro ⟨v, h1, h2, hvk⟩
      exact ⟨v, (upwardExposed_cons_before i [] rest v).2 ⟨h1, h2⟩, hvk⟩
  rw [hrest]
  by_cases hk : i.kind = InstKind.phi
  · simp [hk]
  · simp only [hk, if_false, List.mem_filter, List.any_nil, Bool.not_false, Bool.and_true,
      ne_eq, not_false_eq_true, true_and]
    constructor
    · rintro (⟨v, ⟨hv, hvt⟩, hvk⟩ | h)
      · exact Or.inl ⟨v, hv, hvt, hvk⟩
      · exact Or.inr h
    · rintro (⟨v, hv, hvt, hvk⟩ | h)
      · exact Or.inl ⟨v, ⟨hv, hvt⟩, hvk⟩
      · exact Or.inr h

/-- With an injective index map the positions of `GEN` are the indices of the
upward-exposed uses. -/
theorem mem_blockGEN_iff_blockUSE (ix : Value → Nat) (insts : List Instruction)
    (hinj : ∀ j ∈ insts, j.kind ≠ InstKind.terminator → ∀ i ∈ insts, i.kind ≠ InstKind.phi →
      ∀ v ∈ i.operands, v.isInstrOrArg = true → ix v = ix j.toValue → v = j.toValue)
    (k : Nat) : k ∈ blockGEN ix insts ↔ k ∈ blockUSE ix insts := by
  induction insts with
  | nil => simp [blockGEN, blockUSE, upwardExposed]
  | cons i rest ih =>
    have ih1 := ih (fun j hj hjk x hx hxk v hv hvt =>
      hinj j (List.mem_cons_of_mem _ hj) hjk x (List.mem_cons_of_mem _ hx) hxk v hv hvt)
    rw [mem_blockGEN_cons, mem_blockUSE_cons, ih1]
    simp only [blockUSE, List.mem_map]
    constructor
    · rintro (h | ⟨⟨v, hv, hvk⟩, hn⟩)
      · exact Or.inl h
      · refine Or.inr ⟨v, hv, ?_, hvk⟩
        intro hc
        exact hn ⟨hc.1, by rw [hc.2, hvk]⟩
    · rintro (h | ⟨v, hv, hn, hvk⟩)
      · exact Or.inl h
      · refine Or.inr ⟨⟨v, hv, hvk⟩, ?_⟩
        intro hc
        obtain ⟨x, hx, hxk, hvx, hvt⟩ := upwardExposed_sub [] rest v hv
        have := hinj i (List.mem_cons_self _ _) hc.1 x (List.mem_cons_of_mem _ hx) hxk v hvx hvt
          (by rw [hvk, hc.2])
        exact hn ⟨hc.1, this.symm⟩

theorem test_closedForm (ix : Value → Nat) (b : BasicBlock) (O : BitVector) (k : Nat) :
    BitVector.test (closedForm ix b O) k = true ↔
      k < O.length ∧ (k ∈ blockUSE ix b.insts ∨
        (BitVector.test O k = true ∧ k ∉ blockDEF ix b.insts)) := by
  unfold closedForm
  by_cases hk : k < O.length
  · simp [BitVector.test, hk, List.getElem?_eq_getElem]
  · have hnone : (List.range O.length)[k]? = none :=
      List.getElem?_eq_none (by simpa using hk)
    simp [BitVector.test, hk, hnone]

/-- C14. Block-level closed form: `transferFn(n)` returns
`USE[n] U (OUT[n] - DEF[n])`, where `DEF[n]` holds the indices of the
non-terminator instructions of `n` and `USE[n]` the indices of the
upward-exposed uses: the instruction and argument operands of a non-phi
instruction of `n` that are not a non-terminator instruction of `n` strictly
before it. The index map is injective: an operand that has the bit position of
an instruction of the block is that instruction. -/
theorem transferFn_closed_form (s s1 : Live) (bb : BasicBlock) (O r : BitVector)
    (hout : s.out bb.id = some O) (h : transferFn s bb = .ok (r, s1))
    (hinj : ∀ j ∈ bb.insts, j.kind ≠ InstKind.terminator → ∀ i ∈ bb.insts,
      i.kind ≠ InstKind.phi → ∀ v ∈ i.operands, v.isInstrOrArg = true →
      bitIndex s.valueToBitVectorIndex v = bitIndex s.valueToBitVectorIndex j.toValue →
      v = j.toValue) :
    r = closedForm (bitIndex s.valueToBitVectorIndex) bb O ∧
    (∀ v, v ∈ upwardExposed [] bb.insts ↔
      ∃ l1 i l2, bb.insts = l1 ++ i :: l2 ∧ i.kind ≠ InstKind.phi ∧ v ∈ i.operands ∧
        v.isInstrOrArg = true ∧
        ∀ j ∈ l1, ¬ (j.kind ≠ InstKind.terminator ∧ j.toValue = v)) := by
  constructor
  · obtain ⟨O1, hO1, -, hloop⟩ := transferFn_inv h
    rw [hout] at hO1
    injection hO1 with hO1
    subst hO1
    have hr := (transferLoop_ok hloop).1
    apply bv_ext
    · rw [hr, length_liveWalk]
      simp [closedForm]
    · intro k
      apply Bool.eq_iff_iff.2
      rw [hr, test_liveWalk_gen_kill, test_closedForm, mem_blockGEN_iff_blockUSE _ _ hinj]
      constructor
      · rintro (⟨hlt, hu⟩ | ⟨hO, hd⟩)
        · exact ⟨hlt, Or.inl hu⟩
        · exact ⟨test_lt_length hO, Or.inr ⟨hO, hd⟩⟩
      · rintro ⟨hlt, (hu | hod)⟩
        · exact Or.inl ⟨hlt, hu⟩
        · exact Or.inr hod
  · intro v
    have := mem_upwardExposed [] bb.insts v
    simpa using this

/-- Witness of C14 on the block `store a, p; t = add a, a; ret t` with
`OUT = {}`: `USE = {a, p}`, `DEF = {store, t}`, and IN is `{a, p}`. -/
theorem transferFn_closed_form_witness :
    ∃ r s1, transferFn storeState storeBlock = .ok (r, s1) ∧
      r = [true, true, false, false, false] := by
  obtain ⟨⟨r, s1⟩, h⟩ := exists_of_isOk (x := transferFn storeState storeBlock) (by decide)
  have hout : storeState.out storeBlock.id = some (BitVector.create 5 false) := by decide
  have hw := (transferFn_closed_form storeState s1 storeBlock _ r hout h (by decide)).1
  have hc : closedForm (bitIndex storeState.valueToBitVectorIndex) storeBlock
      (BitVector.create 5 false) = [true, true, false, false, false] := by decide
  rw [hc] at hw
  exact ⟨r, s1, h, hw⟩

/-! ### The phi-edge overlay, exactly -/

/-- The overlay after the loop over the incoming pairs of a phi-node: which
entries exist and which bits they hold. -/
theorem addIncoming_exact {ds : Nat} {inc : List (Value × Nat)}
    {nsv nsv1 : ValueMap Nat BitVector} {idx idx1 : ValueMap Value Nat}
    (h : addIncoming ds inc nsv idx = .ok (nsv1, idx1)) (blk : Nat) :
    (nsv1 blk = none ↔
      nsv blk = none ∧ ∀ q ∈ inc, q.1.isInstrOrArg = true → q.2 ≠ blk) ∧
    (∀ e1, nsv1 blk = some e1 → ∀ k, BitVector.test e1 k = true ↔
      (∃ e, nsv blk = some e ∧ BitVector.test e k = true) ∨
      (∃ q ∈ inc, q.1.isInstrOrArg = true ∧ q.2 = blk ∧ bitIndex idx q.1 = k)) := by
  induction inc generalizing nsv idx with
  | nil =>
    simp only [addIncoming] at h
    injection h with h
    injection h with h1 h2
    subst h1
    refine ⟨by simp, ?_⟩
    intro e1 he1 k
    simp [he1]
  | cons q rest ih =>
    obtain ⟨val, blk0⟩ := q
    unfold addIncoming at h
    by_cases hv : val.isInstrOrArg = true
    · rw [if_pos hv] at h
      simp only [] at h
      split at h
      · next entry1 hentry =>
        obtain ⟨hlt, hset⟩ := assign_ok hentry
        obtain ⟨i1, i2⟩ := ih h
        rw [bitIndex_subscript] at i2
        by_cases hb : blk = blk0
        · subst hb
          constructor
          · constructor
            · intro hnone
              rw [i1] at hnone
              simp [ValueMap.assign] at hnone
            · rintro ⟨-, hall⟩
              exact absurd rfl (hall (val, blk) (List.mem_cons_self _ _) hv)
          · intro e1 he1 k
            rw [i2 e1 he1 k]
            have hassign : ValueMap.assign nsv blk entry1 blk = some entry1 := assign_eq _ _ _
            have hentryTest : BitVector.test (match nsv blk with
                | some bv => bv
                | none => BitVector.create ds false) k = true ↔
                ∃ e, nsv blk = some e ∧ BitVector.test e k = true := by
              cases hn : nsv blk with
              | some e => simp
              | none => simp [test_create_false]
            have hentry1 : BitVector.test entry1 k = true ↔
                (bitIndex idx val = k ∨ ∃ e, nsv blk = some e ∧ BitVector.test e k = true) := by
              rw [hset, test_set]
              by_cases hki : (ValueMap.subscript idx val).1 = k
              · rw [if_pos ⟨hki, hlt⟩]
                exact ⟨fun _ => Or.inl hki, fun _ => rfl⟩
              · rw [if_neg (fun hc => hki hc.1), hentryTest]
                constructor
                · exact fun h1 => Or.inr h1
                · rintro (h1 | h1)
                  · exact absurd h1 hki
                  · exact h1
            constructor
            · rintro (⟨e2, he2, hk2⟩ | ⟨q, hq, hqt, hqb, hqk⟩)
              · rw [hassign] at he2
                injection he2 with he2
                subst he2
                rcases hentry1.1 hk2 with h1 | h1
                · exact Or.inr ⟨(val, blk), List.mem_cons_self _ _, hv, rfl, h1⟩
                · exact Or.inl h1
              · exact Or.inr ⟨q, List.mem_cons_of_mem _ hq, hqt, hqb, hqk⟩
            · rintro (h1 | ⟨q, hq, hqt, hqb, hqk⟩)
              · exact Or.inl ⟨entry1, hassign, hentry1.2 (Or.inr h1)⟩
              · rcases List.mem_cons.1 hq with rfl | hq
                · exact Or.inl ⟨entry1, hassign, hentry1.2 (Or.inl hqk)⟩
                · exact Or.inr ⟨q, hq, hqt, hqb, hqk⟩
        · have hassign : ValueMap.assign nsv blk0 entry1 blk = nsv blk := assign_ne _ _ _ hb
          constructor
          · rw [i1, hassign]
            constructor
            · rintro ⟨h1, h2⟩
              refine ⟨h1, ?_⟩
              intro q hq hqt
              rcases List.mem_cons.1 hq with rfl | hq
              · exact fun hc => hb hc.symm
              · exact h2 q hq hqt
            · rintro ⟨h1, h2⟩
              exact ⟨h1, fun q hq hqt => h2 q (List.mem_cons_of_mem _ hq) hqt⟩
          · intro e1 he1 k
            rw [i2 e1 he1 k, hassign]
            constructor
            · rintro (h1 | ⟨q, hq, h1⟩)
              · exact Or.inl h1
              · exact Or.inr ⟨q, List.mem_cons_of_mem _ hq, h1⟩
            · rintro (h1 | ⟨q, hq, hqt, hqb, hqk⟩)
              · exact Or.inl h1
              · rcases List.mem_cons.1 hq with rfl | hq
                · exact absurd hqb.symm hb
                · exact Or.inr ⟨q, hq, hqt, hqb, hqk⟩
      · cases h
    · rw [if_neg hv] at h
      obtain ⟨i1, i2⟩ := ih h
      constructor
      · rw [i1]
        constructor
        · rintro ⟨h1, h2⟩
          refine ⟨h1, ?_⟩
          intro q hq hqt
          rcases List.mem_cons.1 hq with rfl | hq
          · exact absurd hqt hv
          · exact h2 q hq hqt
        · rintro ⟨h1, h2⟩
          exact ⟨h1, fun q hq hqt => h2 q (List.mem_cons_of_mem _ hq) hqt⟩
      · intro e1 he1 k
        rw [i2 e1 he1 k]
        constructor
        · rintro (h1 | ⟨q, hq, h1⟩)
          · exact Or.inl h1
          · exact Or.inr ⟨q, List.mem_cons_of_mem _ hq, h1⟩
        · rintro (h1 | ⟨q, hq, hqt, hqb, hqk⟩)
          · exact Or.inl h1
          · rcases List.mem_cons.1 hq with rfl | hq
            · exact absurd hqt hv
            · exact Or.inr ⟨q, hq, hqt, hqb, hqk⟩

theorem transferInst_overlay_exact {s s1 : Live} {S X : BitVector} {i : Instruction}
    (h : transferInst s S i = .ok (X, s1)) (blk : Nat) :
    (s1.neighbourSpecificValues blk = none ↔
      s.neighbourSpecificValues blk = none ∧
        (i.kind = InstKind.phi → ∀ q ∈ i.incoming, q.1.isInstrOrArg = true → q.2 ≠ blk)) ∧
    (∀ e1, s1.neighbourSpecificValues blk = some e1 → ∀ k, BitVector.test e1 k = true ↔
      (∃ e, s.neighbourSpecificValues blk = some e ∧ BitVector.test e k = true) ∨
      (i.kind = InstKind.phi ∧ ∃ q ∈ i.incoming, q.1.isInstrOrArg = true ∧ q.2 = blk ∧
        bitIndex s.valueToBitVectorIndex q.1 = k)) := by
  obtain ⟨old, S1, idx1, -, hkill, hrest⟩ := transferInst_inv h
  rcases hrest with ⟨hk, idx2, -, hs1⟩ | ⟨hk, nsv, idx2, hinc, -, hs1⟩
  · have e : s1.neighbourSpecificValues = s.neighbourSpecificValues := by rw [hs1]
    rw [e]
    constructor
    · exact ⟨fun hn => ⟨hn, fun hp => absurd hp hk⟩, fun hn => hn.1⟩
    · intro e1 he1 k
      constructor
      · exact fun hk1 => Or.inl ⟨e1, he1, hk1⟩
      · rintro (⟨e2, he2, hk2⟩ | ⟨hp, -⟩)
        · rw [he1] at he2
          injection he2 with he2
          rw [he2]
          exact hk2
        · exact absurd hp hk
  · have e : s1.neighbourSpecificValues = nsv := by rw [hs1]
    rw [e]
    obtain ⟨x1, x2⟩ := addIncoming_exact hinc blk
    rw [(killDefinition_ok hkill).2.1] at x2
    constructor
    · rw [x1]
      exact ⟨fun hn => ⟨hn.1, fun _ => hn.2⟩, fun hn => ⟨hn.1, hn.2 hk⟩⟩
    · intro e1 he1 k
      rw [x2 e1 he1 k]
      constructor
      · rintro (h1 | h1)
        · exact Or.inl h1
        · exact Or.inr ⟨hk, h1⟩
      · rintro (h1 | ⟨-, h1⟩)
        · exact Or.inl h1
        · exact Or.inr h1

theorem transferLoop_overlay_exact {rev : List Instruction} {s s1 : Live} {S r : BitVector}
    (h : transferLoop rev s S = .ok (r, s1)) (blk : Nat) :
    (s1.neighbourSpecificValues blk = none ↔
      s.neighbourSpecificValues blk = none ∧
        (∀ i ∈ rev, i.kind = InstKind.phi →
          ∀ q ∈ i.incoming, q.1.isInstrOrArg = true → q.2 ≠ blk)) ∧
    (∀ e1, s1.neighbourSpecificValues blk = some e1 → ∀ k, BitVector.test e1 k = true ↔
      (∃ e, s.neighbourSpecificValues blk = some e ∧ BitVector.test e k = true) ∨
      (∃ i ∈ rev, i.kind = InstKind.phi ∧ ∃ q ∈ i.incoming, q.1.isInstrOrArg = true ∧
        q.2 = blk ∧ bitIndex s.valueToBitVectorIndex q.1 = k)) := by
  induction rev generalizing s S with
  | nil =>
    simp only [transferLoop] at h
    injection h with h
    injection h with h1 h2
    subst h2
    refine ⟨by simp, ?_⟩
    intro e1 he1 k
    simp [he1]
  | cons i rest ih =>
    unfold transferLoop at h
    split at h
    · cases h
    · next X sX hX =>
      obtain ⟨y1, y2⟩ := ih h
      obtain ⟨x1, x2⟩ := transferInst_overlay_exact hX blk
      have hidx : bitIndex sX.valueToBitVectorIndex = bitIndex s.valueToBitVectorIndex :=
        (transferInst_ok hX).2.1
      rw [hidx] at y2
      constructor
      · rw [y1, x1]
        constructor
        · rintro ⟨⟨h1, h2⟩, h3⟩
          refine ⟨h1, ?_⟩
          intro j hj
          rcases List.mem_cons.1 hj with rfl | hj
          · exact h2
          · exact h3 j hj
        · rintro ⟨h1, h2⟩
          exact ⟨⟨h1, h2 i (List.mem_cons_self _ _)⟩,
            fun j hj => h2 j (List.mem_cons_of_mem _ hj)⟩
      · intro e1 he1 k
        rw [y2 e1 he1 k]
        constructor
        · rintro (⟨e0, he0, hk0⟩ | ⟨j, hj, h1⟩)
          · rcases (x2 e0 he0 k).1 hk0 with h2 | h2
            · exact Or.inl h2
            · exact Or.inr ⟨i, List.mem_cons_self _ _, h2⟩
          · exact Or.inr ⟨j, List.mem_cons_of_mem _ hj, h1⟩
        · have hmid : ∀ e, s.neighbourSpecificValues blk = some e →
              BitVector.test e k = true →
              ∃ e0, sX.neighbourSpecificValues blk = some e0 ∧ BitVector.test e0 k = true := by
            intro e he hk1
            obtain ⟨e0, he0, -, hm⟩ := transferInst_overlay hX blk e he
            exact ⟨e0, he0, hm k hk1⟩
          rintro (⟨e, he, hk1⟩ | ⟨j, hj, hp, h1⟩)
          · exact Or.inl (hmid e he hk1)
          · rcases List.mem_cons.1 hj with rfl | hj
            · left
              cases hsX : sX.neighbourSpecificValues blk with
              | none =>
                obtain ⟨q, hq, hqt, hqb, -⟩ := h1
                exact absurd hqb ((x1.1 hsX).2 hp q hq hqt)
              | some e0 => exact ⟨e0, rfl, (x2 e0 hsX k).2 (Or.inr ⟨hp, h1⟩)⟩
            · exact Or.inr ⟨j, hj, hp, h1⟩

/-- C16. The phi-edge overlay is exact. Starting from an empty overlay, after
`transferFn(b)` the overlay has an entry for block `p` if and only if some
phi-node of `b` has an incoming pair `(v, p)` with `v` an instruction or an
argument, every entry has length `domainSize`, and bit `k` of the entry of `p`
is set if and only if some phi-node of `b` has such a pair `(v, p)` with
`index(v) = k`. From any overlay, every entry stays and every bit set before
the call is set after it. -/
theorem overlay_exact (s s1 : Live) (bb : BasicBlock) (r : BitVector)
    (h : transferFn s bb = .ok (r, s1)) :
    ((∀ blk, s.neighbourSpecificValues blk = none) →
      (∀ p, (∃ e, s1.neighbourSpecificValues p = some e) ↔
        ∃ i ∈ bb.insts, i.kind = InstKind.phi ∧
          ∃ v, (v, p) ∈ i.incoming ∧ v.isInstrOrArg = true) ∧
      (∀ p e, s1.neighbourSpecificValues p = some e → e.length = s.domainSize) ∧
      (∀ p e, s1.neighbourSpecificValues p = some e → ∀ k, BitVector.test e k = true ↔
        ∃ i ∈ bb.insts, i.kind = InstKind.phi ∧
          ∃ v, (v, p) ∈ i.incoming ∧ v.isInstrOrArg = true ∧
            bitIndex s.valueToBitVectorIndex v = k)) ∧
    (∀ p e, s.neighbourSpecificValues p = some e →
      ∃ e1, s1.neighbourSpecificValues p = some e1 ∧
        ∀ k, BitVector.test e k = true → BitVector.test e1 k = true) := by
  obtain ⟨O, -, -, hloop⟩ := transferFn_inv h
  constructor
  · intro hempty
    refine ⟨?_, ?_, ?_⟩
    · intro p
      obtain ⟨x1, -⟩ := transferLoop_overlay_exact hloop p
      constructor
      · rintro ⟨e, he⟩
        by_contra hno
        have hnone : s1.neighbourSpecificValues p = none := by
          rw [x1]
          refine ⟨hempty p, ?_⟩
          intro i hi hp q hq hqt hqb
          apply hno
          refine ⟨i, List.mem_reverse.1 hi, hp, q.1, ?_, hqt⟩
          rw [← hqb]
          exact hq
        rw [hnone] at he
        cases he
      · rintro ⟨i, hi, hp, v, hv, hvt⟩
        cases hs1 : s1.neighbourSpecificValues p with
        | some e => exact ⟨e, rfl⟩
        | none =>
          exact absurd rfl ((x1.1 hs1).2 i (List.mem_reverse.2 hi) hp (v, p) hv hvt)
    · intro p e he
      rcases transferLoop_overlay_origin hloop p e he with ⟨e0, he0, -⟩ | ⟨-, hl⟩
      · rw [hempty p] at he0
        cases he0
      · exact hl
    · intro p e he k
      obtain ⟨-, x2⟩ := transferLoop_overlay_exact hloop p
      rw [x2 e he k]
      constructor
      · rintro (⟨e0, he0, -⟩ | ⟨i, hi, hp, q, hq, hqt, hqb, hqk⟩)
        · rw [hempty p] at he0
          cases he0
        · refine ⟨i, List.mem_reverse.1 hi, hp, q.1, ?_, hqt, hqk⟩
          rw [← hqb]
          exact hq
      · rintro ⟨i, hi, hp, v, hv, hvt, hvk⟩
        exact Or.inr ⟨i, List.mem_reverse.2 hi, hp, (v, p), hv, hvt, rfl, hvk⟩
  · intro p e he
    obtain ⟨e1, he1, -, hm⟩ := transferLoop_overlay hloop p e he
    exact ⟨e1, he1, hm⟩

/-- Witness of C16 on the block `Merge` of the diamond: the overlay gets an
entry for `L` (block 1) and none for `Entry` (block 0). -/
theorem overlay_exact_witness :
    ∃ r s1, transferFn diamondState mergeBlock = .ok (r, s1) ∧
      (∃ e, s1.neighbourSpecificValues 1 = some e) ∧
      ¬ (∃ e, s1.neighbourSpecificValues 0 = some e) := by
  obtain ⟨⟨r, s1⟩, h⟩ :=
    exists_of_isOk (x := transferFn diamondState mergeBlock) (by decide)
  have hw := (overlay_exact diamondState s1 mergeBlock r h).1 (fun _ => rfl)
  refine ⟨r, s1, h, ?_, ?_⟩
  · exact (hw.1 1).2 ⟨_, List.mem_cons_self _ _, rfl, Value.instruction 1, by decide, rfl⟩
  · intro hex
    obtain ⟨i, hi, hp, v, hv, -⟩ := (hw.1 0).1 hex
    have hall : ∀ j ∈ mergeBlock.insts, ∀ q ∈ j.incoming, q.2 ≠ 0 := by decide
    exact hall i hi (v, 0) hv rfl

/-! ### The two kill rules -/

theorem set_false_of_test_false (S : BitVector) (k : Nat)
    (h : BitVector.test S k = false) : S.set k false = S := by
  apply bv_ext
  · simp
  · intro j
    rw [test_set]
    split
    · next hc => rw [← hc.1, h]
    · rfl

/-- On an instruction that produces no result and whose bit is clear, the
kill of the code changes nothing, as the tightened kill. -/
theorem killDefinitionSpec_eq {i : Instruction} {S S1 : BitVector}
    {idx idx1 : ValueMap Value Nat}
    (hclear : i.hasResult = false → BitVector.test S (bitIndex idx i.toValue) = false)
    (hsome : i.kind ≠ InstKind.terminator → (idx i.toValue).isSome = true)
    (h : killDefinition i S idx = .ok (S1, idx1)) :
    killDefinitionSpec i S idx = .ok (S1, idx1) := by
  by_cases hres : i.hasResult = true
  · have e : isDefinitionSpec i = isDefinition i := by
      simp [isDefinitionSpec, isDefinition, hres]
    unfold killDefinitionSpec
    rw [e]
    exact h
  · have hres1 : i.hasResult = false := by
      cases hr : i.hasResult with
      | true => exact absurd hr hres
      | false => rfl
    have e : isDefinitionSpec i = false := by simp [isDefinitionSpec, hres1]
    unfold killDefinitionSpec
    rw [e]
    simp only [Bool.false_eq_true, if_false]
    obtain ⟨k1, -, -⟩ := killDefinition_ok h
    have hidx := killDefinition_idx hsome h
    rw [k1, hidx]
    congr 2
    unfold clearOwnBit
    split
    · rfl
    · exact (set_false_of_test_false S _ (hclear hres1)).symm

theorem transferInstSpec_eq {s s1 : Live} {S X : BitVector} {i : Instruction}
    (hclear : i.hasResult = false →
      BitVector.test S (bitIndex s.valueToBitVectorIndex i.toValue) = false)
    (hsome : i.kind ≠ InstKind.terminator → (s.valueToBitVectorIndex i.toValue).isSome = true)
    (h : transferInst s S i = .ok (X, s1)) : transferInstSpec s S i = .ok (X, s1) := by
  obtain ⟨old, S1, idx1, hold, hkill, hrest⟩ := transferInst_inv h
  have hkillSpec := killDefinitionSpec_eq hclear hsome hkill
  unfold transferInstSpec
  rw [hold]
  simp only [hkillSpec]
  rcases hrest with ⟨hk, idx2, hops, hs1⟩ | ⟨hk, nsv, idx2, hinc, hX, hs1⟩
  · rw [if_pos hk, hops, hs1]
  · rw [if_neg (by simpa using hk), hinc, hs1, hX]

theorem transferLoopSpec_eq {rev : List Instruction} {s s1 : Live} {S r : BitVector}
    (hself : ∀ i ∈ rev, i.kind ≠ InstKind.terminator →
      (s.valueToBitVectorIndex i.toValue).isSome = true)
    (hops : ∀ i ∈ rev, i.kind ≠ InstKind.phi → ∀ v ∈ i.operands, v.isInstrOrArg = true →
      (s.valueToBitVectorIndex v).isSome = true)
    (hinc : ∀ i ∈ rev, i.kind = InstKind.phi → ∀ q ∈ i.incoming, q.1.isInstrOrArg = true →
      (s.valueToBitVectorIndex q.1).isSome = true)
    (hclear : ∀ j ∈ rev, j.hasResult = false →
      BitVector.test S (bitIndex s.valueToBitVectorIndex j.toValue) = false)
    (hne : ∀ j ∈ rev, j.hasResult = false → ∀ i ∈ rev, i.kind ≠ InstKind.phi →
      ∀ v ∈ i.operands, v.isInstrOrArg = true →
      bitIndex s.valueToBitVectorIndex v ≠ bitIndex s.valueToBitVectorIndex j.toValue)
    (h : transferLoop rev s S = .ok (r, s1)) : transferLoopSpec rev s S = .ok (r, s1) := by
  induction rev generalizing s S with
  | nil => exact h
  | cons i rest ih =>
    unfold transferLoop at h
    split at h
    · cases h
    · next X sX hX =>
      have hi := List.mem_cons_self i rest
      have hspec := transferInstSpec_eq (hclear i hi) (hself i hi) hX
      have e := transferInst_idx (hself i hi) (hops i hi) (hinc i hi) hX
      have hXeq := (transferInst_ok hX).1
      unfold transferLoopSpec
      rw [hspec]
      simp only []
      apply ih (s := sX) _ _ _ _ _ h
      · rw [e]
        exact fun j hj => hself j (List.mem_cons_of_mem _ hj)
      · rw [e]
        exact fun j hj => hops j (List.mem_cons_of_mem _ hj)
      · rw [e]
        exact fun j hj => hinc j (List.mem_cons_of_mem _ hj)
      · rw [e]
        intro j hj hres
        rw [hXeq]
        apply test_liveBefore_false _ _ _ _ (hclear j (List.mem_cons_of_mem _ hj) hres)
        intro hk v hv hvt
        exact hne j (List.mem_cons_of_mem _ hj) hres i hi hk v hv hvt
      · rw [e]
        exact fun j hj hres x hx =>
          hne j (List.mem_cons_of_mem _ hj) hres x (List.mem_cons_of_mem _ hx)

/-- C17. The kill rule of the code and the tightened kill rule of the spec
agree on well-formed input: when no result-less instruction of the block is
an operand (nor shares its bit position with one: the index map is injective),
the bit of every result-less instruction is clear in `OUT[b]` and every value
looked up has its index, the variant that kills only non-terminator
instructions with a result returns the IN the code returns and leaves the
same tables, the per-instruction sets among them. -/
theorem kill_rules_agree (s s1 : Live) (bb : BasicBlock) (O r : BitVector)
    (hidx : s.Indexed bb) (hout : s.out bb.id = some O)
    (hnoop : ∀ j ∈ bb.insts, j.hasResult = false → ∀ i ∈ bb.insts, i.kind ≠ InstKind.phi →
      j.toValue ∉ i.operands)
    (hinj : ∀ j ∈ bb.insts, j.hasResult = false → ∀ i ∈ bb.insts, i.kind ≠ InstKind.phi →
      ∀ v ∈ i.operands, v.isInstrOrArg = true →
      bitIndex s.valueToBitVectorIndex v = bitIndex s.valueToBitVectorIndex j.toValue →
      v = j.toValue)
    (hclear : ∀ j ∈ bb.insts, j.hasResult = false →
      BitVector.test O (bitIndex s.valueToBitVectorIndex j.toValue) = false)
    (h : transferFn s bb = .ok (r, s1)) :
    transferFnSpec s bb = .ok (r, s1) := by
  obtain ⟨O1, hO1, hne, hloop⟩ := transferFn_inv h
  rw [hout] at hO1
  injection hO1 with hO1
  subst hO1
  have hspec := transferLoopSpec_eq
    (fun i hi => hidx.self i (List.mem_reverse.1 hi))
    (fun i hi => hidx.operands i (List.mem_reverse.1 hi))
    (fun i hi => hidx.incoming i (List.mem_reverse.1 hi))
    (fun j hj => hclear j (List.mem_reverse.1 hj))
    (fun j hj hres i hi hk v hv hvt heq => by
      have := hinj j (List.mem_reverse.1 hj) hres i (List.mem_reverse.1 hi) hk v hv hvt heq
      subst this
      exact hnoop j (List.mem_reverse.1 hj) hres i (List.mem_reverse.1 hi) hk hv)
    hloop
  unfold transferFnSpec
  rw [hout]
  simp only []
  cases hins : bb.insts with
  | nil => exact absurd hins hne
  | cons i rest =>
    simp only []
    rw [← hins]
    exact hspec

/-- Witness of C17 on `store a, p; t = add a, a; ret t`, whose store produces
no result. -/
theorem kill_rules_agree_witness :
    ∃ r s1, transferFn storeState storeBlock = .ok (r, s1) ∧
      transferFnSpec storeState storeBlock = .ok (r, s1) := by
  obtain ⟨⟨r, s1⟩, h⟩ := exists_of_isOk (x := transferFn storeState storeBlock) (by decide)
  have hout : storeState.out storeBlock.id = some (BitVector.create 5 false) := by decide
  exact ⟨r, s1, h, kill_rules_agree storeState s1 storeBlock _ r
    ⟨by decide, by decide, by decide⟩ hout (by decide) (by decide) (by decide) h⟩

end Liveness
